import Mathlib

/-!
# KuiperInfer: the convolution and upsample layers

A shallow embedding of `source/layer/details/convolution.cpp` and
`source/layer/details/upsample.cpp` together with the properties proved about
them.

Conventions of the embedding

* A `float` is an exact integer (`Int`): the properties are stated in exact
  arithmetic.
* `uint32_t` quantities are natural numbers. The subtractions of the code and
  the sizes it derives from them (`output_h`, `output_w`, the bounds of the
  window loops, `col_len`, the padded sizes of the Winograd branch and the
  product `output_h * output_w` of line 201) are reduced modulo `2^32` (`u32`,
  `sub32`). Loop counters, buffer sizes and offsets are taken not to wrap
  around.
* An `arma::fmat` is a column-major buffer: element `(r, c)` lives at offset
  `r + c * n_rows`. Raw pointer accesses (`memptr`, `colptr`, `memcpy`) are
  offsets into that buffer.
* A call either returns (a status and the final state of the caller's
  tensors) or stops with a `Fault`: a fatal `CHECK`, an exception of the
  matrix library, a null dereference or an access outside of a buffer.
* The caller's input tensors are the objects of a store, `store a` being the
  object at address `a`; an input `shared_ptr` is an `Option Nat`, the address
  of its object or `none` for the null pointer, so that a batch can hold one
  object several times. The output tensors are objects of their own, allocated
  by the caller for the call and distinct from one another and from the
  inputs: an output `shared_ptr` is an `Option Tensor`.
-/

namespace KuiperInfer

/-! ## Machine integers -/

/-- Number of values of a `uint32_t`. -/
def U32 : Nat := 4294967296

/-- Conversion of a natural number to `uint32_t`. -/
def u32 (n : Nat) : Nat := n % U32

/-- The `uint32_t` difference `a - b`. -/
def sub32 (a b : Nat) : Nat := (a % U32 + U32 - b % U32) % U32

/-- The sum `f 0 + ... + f (n - 1)`. -/
def sumTo : Nat → (Nat → Int) → Int
  | 0, _ => 0
  | n + 1, f => sumTo n f + f n

/-! ## Outcomes -/

/-- The status codes of `InferStatus` that the two layers return. -/
inductive InferStatus where
  | kInferSuccess
  | kInferFailedInputEmpty
  | kInferFailedWeightParameterError
  | kInferFailedBiasParameterError
  | kInferFailedStrideParameterError
  | kInferFailedInputOutSizeMatchError
  deriving DecidableEq

/-- The ways a call stops without returning. -/
inductive Fault where
  /-- A fatal `CHECK` on the given source line failed. -/
  | check (line : Nat)
  /-- The per-channel accessor of a tensor was given a channel that does not exist. -/
  | tensorAt
  /-- A null `shared_ptr` was dereferenced. -/
  | nullDeref
  /-- A `std::vector::at` index was out of range. -/
  | vectorAt
  /-- A `submat` of the matrix library was out of bounds. -/
  | armaBounds
  /-- A matrix of another size was assigned to a view of fixed size. -/
  | armaSize
  /-- A raw `memcpy` left its buffer. -/
  | memory
  /-- An integer division by zero. -/
  | divByZero
  /-- A `std::map::at` key was absent (`std::out_of_range`). -/
  | mapAt
  deriving DecidableEq

/-- Sequential loop over the listed iterates, threading a state and stopping
at the first fault. -/
def loopM {α σ : Type} (f : σ → α → Except Fault σ) : List α → σ → Except Fault σ
  | [], s => .ok s
  | a :: l, s =>
    match f s a with
    | .ok s' => loopM f l s'
    | .error e => .error e

/-- The iterates of `for (x = 0; x < n; x += step)` (no wrap-around of the
counter). -/
def steps (n step : Nat) : List Nat :=
  (List.range ((n + step - 1) / step)).map (fun i => i * step)

/-! ## Matrices and tensors -/

/-- An `arma::fmat`: `n_rows * n_cols` values stored column by column. -/
structure Mat where
  n_rows : Nat
  n_cols : Nat
  mem : Nat → Int

/-- Unchecked element access `m.at(r, c)`. -/
def Mat.at_ (m : Mat) (r c : Nat) : Int := m.mem (r + c * m.n_rows)

/-- A freshly constructed (zero-filled) matrix. -/
def Mat.zeros (r c : Nat) : Mat := { n_rows := r, n_cols := c, mem := fun _ => 0 }

/-- The memory `dst` after `memcpy(dst + d, src + s, n * sizeof(float))`. -/
def memcpy (dst : Nat → Int) (d : Nat) (src : Nat → Int) (s n : Nat) : Nat → Int :=
  fun k => if d ≤ k ∧ k < d + n then src (s + (k - d)) else dst k

/-- A `memcpy` between two matrix buffers; leaving either buffer is a fault. -/
def memcpyM (dst : Mat) (d : Nat) (src : Mat) (s n : Nat) : Except Fault Mat :=
  if d + n ≤ dst.n_rows * dst.n_cols ∧ s + n ≤ src.n_rows * src.n_cols then
    .ok { dst with mem := memcpy dst.mem d src.mem s n }
  else .error Fault.memory

/-- The statement `*(p + off) += v` on the buffer of `m`. -/
def Mat.addAt (m : Mat) (off : Nat) (v : Int) : Mat :=
  { m with mem := fun k => if k = off then m.mem k + v else m.mem k }

/-- Modelled from the spec: the `Tensor<float>` class (its source is not part
of the two files): `channels` matrices of `rows x cols` values, one per
channel, each stored column by column. -/
structure Tensor where
  channels : Nat
  rows : Nat
  cols : Nat
  mem : Nat → Nat → Int

/-- Modelled from the spec: the constructor `Tensor(channels, rows, cols)`,
zero-initialised storage. -/
def Tensor.create (channels rows cols : Nat) : Tensor :=
  { channels := channels, rows := rows, cols := cols, mem := fun _ _ => 0 }

/-- Modelled from the spec: `Tensor::Clone`, a deep copy with independent
storage. -/
def Tensor.Clone (t : Tensor) : Tensor := t

/-- Modelled from the spec: `Tensor::empty`, whether any dimension is zero. -/
def Tensor.empty (t : Tensor) : Bool := t.channels == 0 || t.rows == 0 || t.cols == 0

/-- Modelled from the spec: `Tensor::Padding({top, bottom, left, right}, v)`.
The spatial dimensions grow by the requested amounts, the new border cells
hold `v` and the existing data keeps its relative position. -/
def Tensor.Padding (t : Tensor) (top bottom left right : Nat) (padding_value : Int) : Tensor :=
  { channels := t.channels
    rows := t.rows + top + bottom
    cols := t.cols + left + right
    mem := fun ch k =>
      if top ≤ k % (t.rows + top + bottom) ∧ k % (t.rows + top + bottom) < top + t.rows ∧
          left ≤ k / (t.rows + top + bottom) ∧ k / (t.rows + top + bottom) < left + t.cols then
        t.mem ch ((k % (t.rows + top + bottom) - top) +
          (k / (t.rows + top + bottom) - left) * t.rows)
      else padding_value }

/-- Modelled from the spec: the per-channel accessor `Tensor::at(channel)`, a
view of that channel's matrix; the channel must exist. -/
def Tensor.at_ (t : Tensor) (channel : Nat) : Except Fault Mat :=
  if channel < t.channels then
    .ok { n_rows := t.rows, n_cols := t.cols, mem := t.mem channel }
  else .error Fault.tensorAt

/-- Modelled from the spec: `Tensor::index(offset)`, the value at a flat
offset (used for the bias scalar, offset 0). -/
def Tensor.index (t : Tensor) (offset : Nat) : Int := t.mem 0 offset

/-- The value of cell `(channel, row, col)`. -/
def Tensor.get (t : Tensor) (channel row col : Nat) : Int := t.mem channel (row + col * t.rows)

/-- Assignment `t.at(channel) = m` of a matrix to a channel view. The view has
a fixed size, so the sizes have to agree. -/
def Tensor.assign (t : Tensor) (channel : Nat) (m : Mat) : Except Fault Tensor :=
  if channel < t.channels then
    if m.n_rows = t.rows ∧ m.n_cols = t.cols then
      .ok { t with mem := fun ch => if ch = channel then m.mem else t.mem ch }
    else .error Fault.armaSize
  else .error Fault.tensorAt

/-! ## The Winograd kernels -/

/-- The valid correlation of `d` with the 3x3 filter `k` at `(r, c)`: the sum
over `kh, kw < 3` of `k(kh, kw) * d(r + kh, c + kw)`. -/
def corr3x3 (k d : Mat) (r c : Nat) : Int :=
  sumTo 3 (fun kh => sumTo 3 (fun kw => k.at_ kh kw * d.at_ (r + kh) (c + kw)))

/-- Modelled from the spec: `WinogradTransformG` of convolution_3x3.hpp (not
part of the two files), the fixed transform of a 3x3 filter into the Winograd
domain. The transformed filter is represented by the filter it stands for. -/
def WinogradTransformG (g : Mat) : Mat := g

/-- Modelled from the spec: `Winograd` of convolution_3x3.hpp (not part of the
two files): from a transformed 3x3 filter and a 4x4 input tile, the 2x2 output
tile, which is the valid correlation of the tile with the filter. The result
is stored column by column like every matrix. -/
def Winograd (g_ d : Mat) : Mat :=
  { n_rows := 2
    n_cols := 2
    mem := fun k => corr3x3 g_ d (k % 2) (k / 2) }

/-! ## Operator parameters -/

/-- The status codes of `ParseParameterAttrStatus` that
`ConvolutionLayer::GetInstance` returns. -/
inductive ParseParameterAttrStatus where
  | kParameterMissingInChannel
  | kParameterMissingOutChannel
  | kParameterMissingPadding
  | kParameterMissingUseBias
  | kParameterMissingStride
  | kParameterMissingKernel
  | kParameterMissingGroups
  | kAttrMissingBias
  | kAttrMissingWeight
  | kParameterAttrParseSuccess
  deriving DecidableEq

/-- Modelled from the spec: the typed parameters of an operator (the classes
derived from `RuntimeParameter`, declared outside of the two files): integer,
integer array, float array, bool and string. -/
inductive RuntimeParameter where
  | RuntimeParameterInt (value : Int)
  | RuntimeParameterIntArray (value : List Int)
  | RuntimeParameterFloatArray (value : List Int)
  | RuntimeParameterBool (value : Bool)
  | RuntimeParameterString (value : String)

/-- Modelled from the spec: a named attribute of an operator
(`RuntimeAttribute`, declared outside of the two files), a flat float array
(what `get<float>()` returns) with its shape descriptor. -/
structure RuntimeAttribute where
  shape : List Int
  values : List Int

/-- Modelled from the spec: the two maps of a `RuntimeOperator` (declared
outside of the two files) that `GetInstance` reads: `params`, from names to
parameter pointers, and the map `attribute` (here `attrs`, the name the code
gives it on line 310), from names to attribute pointers. A null pointer is
`none`. -/
structure RuntimeOperator where
  params : List (String × Option RuntimeParameter)
  attrs : List (String × Option RuntimeAttribute)

/-- The test `m.find(key) == m.end()`. -/
def mapMissing {α : Type} (m : List (String × α)) (key : String) : Bool :=
  (m.lookup key).isNone

/-- The access `m.at(key)`, which throws `std::out_of_range` when the map has
no such key. -/
def mapAt {α : Type} (m : List (String × α)) (key : String) : Except Fault α :=
  match m.lookup key with
  | some v => .ok v
  | none => .error Fault.mapAt

/-- The cast `dynamic_cast<RuntimeParameterInt *>(p)`; `none` is the null
pointer. -/
def castInt : Option RuntimeParameter → Option Int
  | some (.RuntimeParameterInt value) => some value
  | _ => none

/-- The cast `dynamic_cast<RuntimeParameterIntArray *>(p)`. -/
def castIntArray : Option RuntimeParameter → Option (List Int)
  | some (.RuntimeParameterIntArray value) => some value
  | _ => none

/-- The cast `dynamic_cast<RuntimeParameterBool *>(p)`. -/
def castBool : Option RuntimeParameter → Option Bool
  | some (.RuntimeParameterBool value) => some value
  | _ => none

/-- The implicit conversion of an `int` to `uint32_t`. -/
def toU32 (v : Int) : Nat := (v % (U32 : Int)).toNat

/-! ## The convolution layer -/

/-- The fields of `ConvolutionLayer`. -/
structure ConvolutionLayer where
  weights_ : List Tensor
  bias_ : List Tensor
  padding_h_ : Nat
  padding_w_ : Nat
  stride_h_ : Nat
  stride_w_ : Nat
  groups_ : Nat
  use_bias_ : Bool

namespace ConvolutionLayer

/-- Lines 64-70: the tensor `input_` the batch element is computed from, and
whether it is the caller's own tensor (`true`) or a padded clone. -/
def paddedInput (L : ConvolutionLayer) (input : Tensor) : Tensor × Bool :=
  if L.padding_h_ > 0 ∨ L.padding_w_ > 0 then
    (input.Clone.Padding L.padding_h_ L.padding_h_ L.padding_w_ L.padding_w_ 0, false)
  else (input, true)

/-- Lines 80-81: the output size along one axis,
`uint32_t(std::floor((input - kernel) / stride + 1))`. -/
def outputSize (input kernel stride : Nat) : Nat :=
  u32 (sub32 input kernel / stride + 1)

/-- Lines 89-94: the shape checks on every weight tensor. -/
def checkKernels (L : ConvolutionLayer) (kernel_h kernel_w input_c : Nat) :
    List Tensor → Except Fault Unit
  | [] => .ok ()
  | kernel :: rest =>
    if kernel.rows ≠ kernel_h then .error (Fault.check 91)
    else if kernel.cols ≠ kernel_w then .error (Fault.check 92)
    else if L.groups_ = 0 then .error Fault.divByZero
    else if kernel.channels ≠ input_c / L.groups_ then .error (Fault.check 93)
    else checkKernels L kernel_h kernel_w input_c rest

/-- Line 96: the condition under which the Winograd branch is taken. -/
def useWinograd (L : ConvolutionLayer) (kernel_h kernel_w : Nat) : Bool :=
  L.stride_h_ == 1 && L.stride_w_ == 1 && kernel_w == 3 && kernel_h == 3 && L.groups_ == 1

/-! ### The Winograd branch (lines 96-149) -/

/-- Lines 129-133: the 4x4 tile at `(h_tile, w_tile)`, copied column by
column. -/
def tileMat (input_channel : Mat) (h_tile w_tile : Nat) : Mat :=
  { n_rows := 4
    n_cols := 4
    mem := (List.range 4).foldl
      (fun m j =>
        memcpy m (j * 4) input_channel.mem ((j + w_tile) * input_channel.n_rows + h_tile) 4)
      (fun _ => 0) }

/-- Lines 136-142: the 2x2 tile is added to the accumulator at
`(h_tile, w_tile)`. -/
def addTile (output_channel : Mat) (h_tile w_tile : Nat) (output_tile : Mat) : Mat :=
  (((output_channel.addAt (w_tile * output_channel.n_rows + h_tile) (output_tile.mem 0)).addAt
      (w_tile * output_channel.n_rows + h_tile + 1) (output_tile.mem 1)).addAt
      ((w_tile + 1) * output_channel.n_rows + h_tile) (output_tile.mem 2)).addAt
      ((w_tile + 1) * output_channel.n_rows + h_tile + 1) (output_tile.mem 3)

/-- Lines 127-144: the body of the two tile loops. -/
def tileStep (kernel_channel_g input_channel : Mat) (output_h_padding output_w_padding : Nat)
    (output_channel : Mat) (h_tile w_tile : Nat) : Mat :=
  if h_tile + 4 ≤ input_channel.n_rows ∧ w_tile + 4 ≤ input_channel.n_cols then
    if w_tile + 2 ≤ output_w_padding ∧ h_tile + 2 ≤ output_h_padding then
      addTile output_channel h_tile w_tile
        (Winograd kernel_channel_g (tileMat input_channel h_tile w_tile))
    else output_channel
  else output_channel

/-- Lines 125-146: the two tile loops over one input channel. -/
def tileLoops (kernel_channel_g input_channel : Mat) (output_h_padding output_w_padding : Nat)
    (output_channel : Mat) : Mat :=
  (steps input_channel.n_rows 2).foldl
    (fun acc h_tile =>
      (steps input_channel.n_cols 2).foldl
        (fun acc w_tile =>
          tileStep kernel_channel_g input_channel output_h_padding output_w_padding acc h_tile
            w_tile)
        acc)
    output_channel

/-- The tile at `(h_tile, w_tile)` passes the tests of lines 127 and 135 and
`(r, c)` is one of the four accumulator cells that lines 136-142 then add
to. -/
def tileWrites (h_tiles w_tiles output_h_padding output_w_padding h_tile w_tile r c : Nat) :
    Prop :=
  (h_tile + 4 ≤ h_tiles ∧ w_tile + 4 ≤ w_tiles) ∧
    (w_tile + 2 ≤ output_w_padding ∧ h_tile + 2 ≤ output_h_padding) ∧
    (r = h_tile ∨ r = h_tile + 1) ∧ (c = w_tile ∨ c = w_tile + 1)

instance (h_tiles w_tiles output_h_padding output_w_padding h_tile w_tile r c : Nat) :
    Decidable (tileWrites h_tiles w_tiles output_h_padding output_w_padding h_tile w_tile r c) := by
  unfold tileWrites
  infer_instance

/-- Lines 114-147: one round of the loop over the input channels. -/
def winogradChannel (input_ kernel : Tensor) (output_h_padding output_w_padding : Nat)
    (output_channel : Mat) (ic : Nat) : Except Fault Mat :=
  match input_.at_ ic with
  | .error e => .error e
  | .ok input_channel =>
    match kernel.at_ ic with
    | .error e => .error e
    | .ok kernel_channel =>
      if ¬ (kernel_channel.n_cols = 3 ∧ kernel_channel.n_rows = 3) then .error (Fault.check 117)
      else if ¬ (input_channel.n_rows % 4 = 0 ∧ input_channel.n_cols % 4 = 0) then
        .error (Fault.check 123)
      else
        .ok (tileLoops (WinogradTransformG kernel_channel) input_channel
          output_h_padding output_w_padding output_channel)

/-- The view `m.submat(0, 0, last_row, last_col)`. -/
def submat (m : Mat) (last_row last_col : Nat) : Except Fault Mat :=
  if last_row < m.n_rows ∧ last_col < m.n_cols then
    .ok { n_rows := last_row + 1
          n_cols := last_col + 1
          mem := fun k => m.mem (k % (last_row + 1) + (k / (last_row + 1)) * m.n_rows) }
  else .error Fault.armaBounds

/-- Lines 109-149: one round of the loop over the output channels. The
accumulator channel starts as the zero matrix of the freshly built tensor
`output_channels`; the caller's tensor `output_channels_` receives the clipped
result. -/
def winogradOutput (L : ConvolutionLayer) (input_ : Tensor) (input_c output_h output_w
    output_h_padding output_w_padding : Nat) (output_channels_ : Tensor) (oc : Nat) :
    Except Fault Tensor :=
  match L.weights_[oc]? with
  | none => .error Fault.vectorAt
  | some kernel =>
    match (Tensor.create L.weights_.length output_h_padding output_w_padding).at_ oc with
    | .error e => .error e
    | .ok output_channel0 =>
      match output_channels_.at_ oc with
      | .error e => .error e
      | .ok _ =>
        match loopM (winogradChannel input_ kernel output_h_padding output_w_padding)
            (List.range input_c) output_channel0 with
        | .error e => .error e
        | .ok output_channel =>
          match submat output_channel (sub32 output_h 1) (sub32 output_w 1) with
          | .error e => .error e
          | .ok clipped => output_channels_.assign oc clipped

/-- Line 97: the tensor `input_` after the alignment padding of the Winograd
branch, zeros appended at the bottom and on the right. -/
def alignedInput (input_ : Tensor) : Tensor :=
  input_.Padding 0 (4 - input_.rows % 4) 0 (4 - input_.cols % 4) 0

/-- Lines 96-149: the Winograd branch for one batch element. It returns the
tensor `input_` after the in-place alignment padding and the caller's output
tensor. -/
def winogradBranch (L : ConvolutionLayer) (input_ : Tensor) (output_tensor : Option Tensor)
    (input_h input_w input_c kernel_h output_h output_w : Nat) :
    Except Fault (Tensor × Option Tensor) :=
  let padded := input_.Padding 0 (4 - input_h % 4) 0 (4 - input_w % 4) 0
  let input_h_padding := u32 ((4 - input_h % 4) + input_h)
  let input_w_padding := u32 ((4 - input_w % 4) + input_w)
  let output_h_padding := u32 (sub32 input_h_padding kernel_h + 1)
  let output_w_padding := u32 (sub32 input_w_padding kernel_h + 1)
  match output_tensor with
  | none => .error Fault.nullDeref
  | some output_channels_ =>
    match loopM
        (winogradOutput L padded input_c output_h output_w output_h_padding output_w_padding)
        (List.range L.weights_.length) output_channels_ with
    | .error e => .error e
    | .ok out => .ok (padded, some out)

/-! ### The generic branch (lines 150-216) -/

/-- Lines 166-169: the flattened weights of one output channel, written into
the row buffer `kernel_matrix_c`. -/
def weightRow (kernel : Tensor) (row_len input_c_group : Nat) (kernel_matrix_c : Mat) :
    Except Fault Mat :=
  loopM
    (fun m ic =>
      match kernel.at_ ic with
      | .error e => .error e
      | .ok kernel_channel => memcpyM m (row_len * ic) kernel_channel 0 row_len)
    (List.range input_c_group) kernel_matrix_c

/-- Lines 161-171: the weight rows `kernel_matrix_arr` of group `g`. The row
buffer `kernel_matrix_c` is shared by the rounds of the loop. -/
def kernelRows (L : ConvolutionLayer) (g kernel_count_group row_len input_c_group : Nat) :
    Except Fault (List Mat) :=
  match loopM
      (fun (st : Mat × List Mat) k =>
        match L.weights_[k + g * kernel_count_group]? with
        | none => .error Fault.vectorAt
        | some kernel =>
          match weightRow kernel row_len input_c_group st.1 with
          | .error e => .error e
          | .ok m => .ok (m, st.2 ++ [m]))
      (List.range kernel_count_group) (Mat.zeros 1 (row_len * input_c_group), []) with
  | .error e => .error e
  | .ok st => .ok st.2

/-- Lines 183-187: the loop over the kernel columns at window position
`(r, c)`; the state is the buffer `input_matrix_c` and `offset_index`. -/
def im2colWindow (input_channel : Mat) (kernel_h kernel_w c r : Nat) (st : Mat × Nat) :
    Except Fault (Mat × Nat) :=
  loopM
    (fun (st : Mat × Nat) kw =>
      match memcpyM st.1 (st.2 * kernel_h) input_channel
          ((c + kw) * input_channel.n_rows + r) kernel_h with
      | .error e => .error e
      | .ok m => .ok (m, st.2 + 1))
    (List.range kernel_w) st

/-- Lines 180-189: the im2col fill of `input_matrix_c` from one input
channel. -/
def im2colChannel (L : ConvolutionLayer) (input_channel : Mat)
    (input_h input_w kernel_h kernel_w : Nat) (input_matrix_c : Mat) : Except Fault Mat :=
  match loopM
      (fun st c =>
        loopM (fun st r => im2colWindow input_channel kernel_h kernel_w c r st)
          (steps (u32 (sub32 input_h kernel_h + 1)) L.stride_h_) st)
      (steps (u32 (sub32 input_w kernel_w + 1)) L.stride_w_) (input_matrix_c, 0) with
  | .error e => .error e
  | .ok st => .ok st.1

/-- Line 190: `input_matrix.submat(first_row, 0, first_row + block.n_rows - 1,
block.n_cols - 1) = block`. -/
def setRows (input_matrix : Mat) (first_row : Nat) (block : Mat) : Except Fault Mat :=
  if block.n_rows = 0 ∨ block.n_cols = 0 ∨ input_matrix.n_rows < first_row + block.n_rows ∨
      input_matrix.n_cols < block.n_cols then .error Fault.armaBounds
  else
    .ok { input_matrix with
          mem := fun k =>
            if first_row ≤ k % input_matrix.n_rows ∧
                k % input_matrix.n_rows < first_row + block.n_rows ∧
                k / input_matrix.n_rows < block.n_cols then
              block.mem ((k % input_matrix.n_rows - first_row) +
                (k / input_matrix.n_rows) * block.n_rows)
            else input_matrix.mem k }

/-- Lines 173-191: the im2col matrix `input_matrix` of group `g`. The buffer
`input_matrix_c` is shared by the rounds of the loop over the channels. -/
def im2col (L : ConvolutionLayer) (input_ : Tensor) (g input_c_group row_len col_len
    input_h input_w kernel_h kernel_w : Nat) : Except Fault Mat :=
  match loopM
      (fun (st : Mat × Mat) ic =>
        match input_.at_ (ic + g * input_c_group) with
        | .error e => .error e
        | .ok input_channel =>
          match im2colChannel L input_channel input_h input_w kernel_h kernel_w st.2 with
          | .error e => .error e
          | .ok input_matrix_c =>
            match setRows st.1 (ic * row_len) input_matrix_c with
            | .error e => .error e
            | .ok input_matrix => .ok (input_matrix, input_matrix_c))
      (List.range input_c_group)
      (Mat.zeros (input_c_group * row_len) col_len, Mat.zeros row_len col_len) with
  | .error e => .error e
  | .ok st => .ok st.1

/-- Line 200: the product `a * b` of a row vector and a matrix. -/
def rowTimes (a b : Mat) : Except Fault Mat :=
  if a.n_cols ≠ b.n_rows then .error Fault.armaSize
  else
    .ok { n_rows := a.n_rows
          n_cols := b.n_cols
          mem := fun p => sumTo a.n_cols (fun j => a.mem j * b.mem (j + p * b.n_rows)) }

/-- Line 203: `m.reshape(rows, cols)`; the values keep their column-wise order
and new cells are zero. -/
def reshape (m : Mat) (rows cols : Nat) : Mat :=
  { n_rows := rows
    n_cols := cols
    mem := fun k => if k < m.n_rows * m.n_cols then m.mem k else 0 }

/-- Lines 204-212: the bias scalar, if there is one, is added to every cell. -/
def addBias (L : ConvolutionLayer) (k : Nat) (output : Mat) : Except Fault Mat :=
  if ¬ L.bias_.isEmpty ∧ L.use_bias_ = true then
    match L.bias_[k]? with
    | none => .error Fault.vectorAt
    | some bias => .ok { output with mem := fun j => output.mem j + bias.index 0 }
  else .ok output

/-- Lines 199-214: one round of the loop over the output channels of group
`g`. -/
def genericOutput (L : ConvolutionLayer) (kernel_matrix_arr : List Mat) (input_matrix : Mat)
    (g kernel_count_group output_h output_w : Nat) (output_tensor : Tensor) (k : Nat) :
    Except Fault Tensor :=
  match kernel_matrix_arr[k]? with
  | none => .error Fault.vectorAt
  | some kernel_row =>
    match rowTimes kernel_row input_matrix with
    | .error e => .error e
    | .ok output =>
      if output.n_rows * output.n_cols ≠ u32 (output_h * output_w) then .error (Fault.check 201)
      else
        match addBias L k (reshape output output_h output_w) with
        | .error e => .error e
        | .ok biased => output_tensor.assign (k + g * kernel_count_group) biased

/-- Lines 160-215: one round of the loop over the groups. -/
def genericGroup (L : ConvolutionLayer) (input_ : Tensor)
    (input_h input_w input_c kernel_count kernel_h kernel_w output_h output_w row_len col_len : Nat)
    (output_tensor : Option Tensor) (g : Nat) : Except Fault (Option Tensor) :=
  match kernelRows L g (kernel_count / L.groups_) row_len (input_c / L.groups_) with
  | .error e => .error e
  | .ok kernel_matrix_arr =>
    match im2col L input_ g (input_c / L.groups_) row_len col_len input_h input_w kernel_h
        kernel_w with
    | .error e => .error e
    | .ok input_matrix =>
      match output_tensor with
      | none => .error (Fault.check 193)
      | some out =>
        if ¬ (out.channels = kernel_count ∧ out.rows = output_h ∧ out.cols = output_w) then
          .error (Fault.check 194)
        else
          match loopM
              (genericOutput L kernel_matrix_arr input_matrix g (kernel_count / L.groups_)
                output_h output_w)
              (List.range (kernel_count / L.groups_)) out with
          | .error e => .error e
          | .ok out' => .ok (some out')

/-- Lines 152-155: the number of columns of the im2col matrix. -/
def colLen (L : ConvolutionLayer) (input_h input_w kernel_w : Nat) : Nat :=
  if u32 ((u32 (sub32 input_w kernel_w + 1) / L.stride_w_) *
      (u32 (sub32 input_h kernel_w + 1) / L.stride_h_)) = 0 then 1
  else u32 ((u32 (sub32 input_w kernel_w + 1) / L.stride_w_) *
      (u32 (sub32 input_h kernel_w + 1) / L.stride_h_))

/-- Lines 150-216: the generic branch for one batch element; it returns the
caller's output tensor. -/
def genericBranch (L : ConvolutionLayer) (input_ : Tensor) (output_tensor : Option Tensor)
    (input_h input_w input_c kernel_count kernel_h kernel_w output_h output_w : Nat) :
    Except Fault (Option Tensor) :=
  if L.groups_ = 0 then .error Fault.divByZero
  else
    loopM
      (genericGroup L input_ input_h input_w input_c kernel_count kernel_h kernel_w output_h
        output_w (kernel_w * kernel_h) (colLen L input_h input_w kernel_w))
      (List.range L.groups_) output_tensor

/-! ### Forward -/

/-- Lines 84-87: the divisibility checks of a grouped convolution. -/
def checkGroups (L : ConvolutionLayer) (kernel_count input_c : Nat) : Except Fault Unit :=
  if L.groups_ ≠ 1 then
    if L.groups_ = 0 then .error Fault.divByZero
    else if kernel_count % L.groups_ ≠ 0 then .error (Fault.check 85)
    else if input_c % L.groups_ ≠ 0 then .error (Fault.check 86)
    else .ok ()
  else .ok ()

/-- Lines 72-216: the body of the batch loop once `input_` is known. The
result is `input_` and the caller's output tensor after the round. -/
def forwardBody (L : ConvolutionLayer) (input_ : Tensor) (output_tensor : Option Tensor) :
    Except Fault (Tensor × Option Tensor) :=
  match L.weights_ with
  | [] => .error Fault.vectorAt
  | kernel0 :: _ =>
    if ¬ (outputSize input_.rows kernel0.rows L.stride_h_ > 0 ∧
        outputSize input_.cols kernel0.cols L.stride_w_ > 0) then .error (Fault.check 82)
    else
      match checkGroups L L.weights_.length input_.channels with
      | .error e => .error e
      | .ok _ =>
        match checkKernels L kernel0.rows kernel0.cols input_.channels L.weights_ with
        | .error e => .error e
        | .ok _ =>
          if useWinograd L kernel0.rows kernel0.cols = true then
            winogradBranch L input_ output_tensor input_.rows input_.cols input_.channels
              kernel0.rows (outputSize input_.rows kernel0.rows L.stride_h_)
              (outputSize input_.cols kernel0.cols L.stride_w_)
          else
            match genericBranch L input_ output_tensor input_.rows input_.cols input_.channels
                L.weights_.length kernel0.rows kernel0.cols
                (outputSize input_.rows kernel0.rows L.stride_h_)
                (outputSize input_.cols kernel0.cols L.stride_w_) with
            | .error e => .error e
            | .ok out => .ok (input_, out)

/-- Lines 60-216: one round of the batch loop on the tensors behind
`inputs.at(i)` and `outputs.at(i)`, in their current state. The result is the
state of these two after the round: when `input_` is the caller's own tensor,
what happened to `input_` happened to the caller's input. -/
def forwardElem (L : ConvolutionLayer) (input output_tensor : Option Tensor) :
    Except Fault (Option Tensor × Option Tensor) :=
  match input with
  | none => .error Fault.nullDeref
  | some x =>
    match forwardBody L (paddedInput L x).1 output_tensor with
    | .error e => .error e
    | .ok (input_, out) => .ok (if (paddedInput L x).2 = true then some input_ else some x, out)

/-- The tensors behind a sequence of input pointers, position by position. -/
def valuesOf (store : Nat → Tensor) (inputs : List (Option Nat)) : List (Option Tensor) :=
  inputs.map (Option.map store)

/-- The store once the object behind the pointer `input` has become `input'`:
every pointer to that object sees the new state. -/
def writeBack (store : Nat → Tensor) (input : Option Nat) (input' : Option Tensor) :
    Nat → Tensor :=
  match input, input' with
  | some a, some t => fun b => if b = a then t else store b
  | _, _ => store

/-- Lines 59-217: the batch loop. Round `i` works on the object behind
`inputs.at(i)` in the state the earlier rounds left it in, and on
`outputs.at(i)`. The result is the store and the outputs after the loop. -/
def forwardBatch (L : ConvolutionLayer) :
    (Nat → Tensor) → List (Option Nat) → List (Option Tensor) →
      Except Fault ((Nat → Tensor) × List (Option Tensor))
  | store, input :: inputs, output :: outputs =>
    match forwardElem L (input.map store) output with
    | .error e => .error e
    | .ok (input', output') =>
      match forwardBatch L (writeBack store input input') inputs outputs with
      | .error e => .error e
      | .ok (store', outputs') => .ok (store', output' :: outputs')
  | store, _, _ => .ok (store, [])

/-- The result of a call that returns: the status and the state of the
caller's `inputs` and `outputs` afterwards. -/
structure Returned where
  status : InferStatus
  inputs : List (Option Tensor)
  outputs : List (Option Tensor)

/-- `ConvolutionLayer::Forward` (lines 34-219), called on the input pointers
`inputs` into `store` and on the outputs `outputs`. -/
def Forward (L : ConvolutionLayer) (store : Nat → Tensor) (inputs : List (Option Nat))
    (outputs : List (Option Tensor)) : Except Fault Returned :=
  if inputs.isEmpty = true ∨ inputs.length ≠ outputs.length then
    .ok ⟨InferStatus.kInferFailedInputEmpty, valuesOf store inputs, outputs⟩
  else if L.weights_.isEmpty = true then
    .ok ⟨InferStatus.kInferFailedWeightParameterError, valuesOf store inputs, outputs⟩
  else if L.use_bias_ = true ∧ L.bias_.length ≠ L.weights_.length then
    .ok ⟨InferStatus.kInferFailedBiasParameterError, valuesOf store inputs, outputs⟩
  else if L.stride_h_ = 0 ∨ L.stride_w_ = 0 then
    .ok ⟨InferStatus.kInferFailedStrideParameterError, valuesOf store inputs, outputs⟩
  else
    match forwardBatch L store inputs outputs with
    | .error e => .error e
    | .ok (store', outputs') =>
      .ok ⟨InferStatus.kInferSuccess, valuesOf store' inputs, outputs'⟩

/-! ### The reference value of a grouped convolution -/

/-- The reference value of a grouped convolution, in the words of the
specification: for the filter `kernel` of group `g`, with `input_c_group`
input channels per group, the sum over `ic < input_c_group`, `kh < kernel_h`
and `kw < kernel_w` of
`kernel(ic, kh, kw) * input(g * input_c_group + ic, r * stride_h + kh, c * stride_w + kw)`. -/
def convolutionSum (L : ConvolutionLayer) (kernel input : Tensor) (g input_c_group r c : Nat) :
    Int :=
  sumTo input_c_group (fun ic =>
    sumTo kernel.rows (fun kh =>
      sumTo kernel.cols (fun kw =>
        kernel.get ic kh kw *
          input.get (g * input_c_group + ic) (r * L.stride_h_ + kh) (c * L.stride_w_ + kw))))

/-! ### The constructor (lines 14-32) -/

/-- Lines 24-31: the loop that creates the weight tensors and, when
`use_bias_` holds, the bias tensors. -/
def pushTensors (L : ConvolutionLayer) (output_channel in_channel kernel_h kernel_w : Nat) :
    ConvolutionLayer :=
  (List.range output_channel).foldl
    (fun L _ =>
      { L with
        weights_ := L.weights_ ++ [Tensor.create in_channel kernel_h kernel_w]
        bias_ := if L.use_bias_ = true then L.bias_ ++ [Tensor.create 1 1 1] else L.bias_ })
    L

/-- The constructor `ConvolutionLayer::ConvolutionLayer` (lines 14-32). -/
def construct (output_channel in_channel kernel_h kernel_w padding_h padding_w stride_h stride_w
    groups : Nat) (use_bias : Bool) : Except Fault ConvolutionLayer :=
  if groups ≠ 1 then
    if groups = 0 then .error Fault.divByZero
    else
      .ok (pushTensors
        { weights_ := [], bias_ := [], padding_h_ := padding_h, padding_w_ := padding_w,
          stride_h_ := stride_h, stride_w_ := stride_w, groups_ := groups, use_bias_ := use_bias }
        output_channel (in_channel / groups) kernel_h kernel_w)
  else
    .ok (pushTensors
      { weights_ := [], bias_ := [], padding_h_ := padding_h, padding_w_ := padding_w,
        stride_h_ := stride_h, stride_w_ := stride_w, groups_ := groups, use_bias_ := use_bias }
      output_channel in_channel kernel_h kernel_w)

/-! ### GetInstance (lines 221-342) -/

/-- The guarded lookup of a parameter, as on lines 226-235: `find`, then `at`
and the dynamic cast. The result is `none` when the key is absent or the cast
gives the null pointer. -/
def findParam {α : Type} (params : List (String × Option RuntimeParameter)) (key : String)
    (cast : Option RuntimeParameter → Option α) : Except Fault (Option α) :=
  if mapMissing params key = true then .ok none
  else
    match mapAt params key with
    | .error e => .error e
    | .ok p => .ok (cast p)

/-- Lines 327-341: the weight attribute is looked up and handed to
`set_weights` (a method of the base class, outside of the two files, taken as
a parameter). -/
def loadWeights (set_weights : ConvolutionLayer → List Int → Except Fault ConvolutionLayer)
    (attrs : List (String × Option RuntimeAttribute)) (layer : ConvolutionLayer) :
    Except Fault (ParseParameterAttrStatus × Option ConvolutionLayer) :=
  if mapMissing attrs "weight" = true then
    .ok (ParseParameterAttrStatus.kAttrMissingWeight, some layer)
  else
    match mapAt attrs "weight" with
    | .error e => .error e
    | .ok none => .error Fault.nullDeref
    | .ok (some weight) =>
      if weight.shape.isEmpty = true then
        .ok (ParseParameterAttrStatus.kAttrMissingWeight, some layer)
      else
        match set_weights layer weight.values with
        | .error e => .error e
        | .ok layer' => .ok (ParseParameterAttrStatus.kParameterAttrParseSuccess, some layer')

/-- Lines 310-341: the bias attribute, when the operator uses a bias, is
checked against `out_channels` and handed to `set_bias` (a method of the base
class, outside of the two files, taken as a parameter); then the weights are
loaded. -/
def loadAttributes
    (set_bias set_weights : ConvolutionLayer → List Int → Except Fault ConvolutionLayer)
    (attrs : List (String × Option RuntimeAttribute)) (layer : ConvolutionLayer)
    (out_channel : Int) (use_bias : Bool) :
    Except Fault (ParseParameterAttrStatus × Option ConvolutionLayer) :=
  if use_bias = true then
    if mapMissing attrs "bias" = true then
      .ok (ParseParameterAttrStatus.kAttrMissingBias, some layer)
    else
      match mapAt attrs "bias" with
      | .error e => .error e
      | .ok none => .error Fault.nullDeref
      | .ok (some bias) =>
        if bias.shape.isEmpty = true ∨ bias.shape.head? ≠ some out_channel then
          .ok (ParseParameterAttrStatus.kAttrMissingBias, some layer)
        else
          match set_bias layer bias.values with
          | .error e => .error e
          | .ok layer' => loadWeights set_weights attrs layer'
  else loadWeights set_weights attrs layer

/-- Lines 295-341: with every parameter parsed, the sizes of the three arrays
are checked, the operator is constructed and its attributes are loaded. -/
def materialize
    (set_bias set_weights : ConvolutionLayer → List Int → Except Fault ConvolutionLayer)
    (attrs : List (String × Option RuntimeAttribute)) (in_channel out_channel : Int)
    (paddings : List Int) (use_bias : Bool) (strides kernels : List Int) (groups : Int) :
    Except Fault (ParseParameterAttrStatus × Option ConvolutionLayer) :=
  if kernels.length ≠ 2 then .error (Fault.check 299)
  else if strides.length ≠ 2 then .error (Fault.check 300)
  else if paddings.length ≠ 2 then .error (Fault.check 301)
  else
    match construct (toU32 out_channel) (toU32 in_channel) (toU32 (kernels.getD 0 0))
        (toU32 (kernels.getD 1 0)) (toU32 (paddings.getD 0 0)) (toU32 (paddings.getD 1 0))
        (toU32 (strides.getD 0 0)) (toU32 (strides.getD 1 0)) (toU32 groups) use_bias with
    | .error e => .error e
    | .ok layer => loadAttributes set_bias set_weights attrs layer out_channel use_bias

/-- `ConvolutionLayer::GetInstance` (lines 221-342). The result is the status
and the caller's `conv_layer` afterwards. -/
def GetInstance
    (set_bias set_weights : ConvolutionLayer → List Int → Except Fault ConvolutionLayer)
    (op : Option RuntimeOperator) (conv_layer : Option ConvolutionLayer) :
    Except Fault (ParseParameterAttrStatus × Option ConvolutionLayer) :=
  match op with
  | none => .error (Fault.check 223)
  | some op =>
    match findParam op.params "in_channels" castInt with
    | .error e => .error e
    | .ok none => .ok (ParseParameterAttrStatus.kParameterMissingInChannel, conv_layer)
    | .ok (some in_channel) =>
    match findParam op.params "out_channels" castInt with
    | .error e => .error e
    | .ok none => .ok (ParseParameterAttrStatus.kParameterMissingOutChannel, conv_layer)
    | .ok (some out_channel) =>
    match findParam op.params "padding" castIntArray with
    | .error e => .error e
    | .ok none => .ok (ParseParameterAttrStatus.kParameterMissingPadding, conv_layer)
    | .ok (some padding) =>
    match findParam op.params "bias" castBool with
    | .error e => .error e
    | .ok none => .ok (ParseParameterAttrStatus.kParameterMissingUseBias, conv_layer)
    | .ok (some use_bias) =>
    match findParam op.params "stride" castIntArray with
    | .error e => .error e
    | .ok none => .ok (ParseParameterAttrStatus.kParameterMissingStride, conv_layer)
    | .ok (some stride) =>
    match findParam op.params "kernel_size" castIntArray with
    | .error e => .error e
    | .ok none => .ok (ParseParameterAttrStatus.kParameterMissingKernel, conv_layer)
    | .ok (some kernel) =>
    match mapAt op.params "groups" with
    | .error e => .error e
    | .ok p =>
      match castInt p with
      | none => .ok (ParseParameterAttrStatus.kParameterMissingGroups, conv_layer)
      | some groups =>
        materialize set_bias set_weights op.attrs in_channel out_channel padding use_bias stride
          kernel groups

/-! ### Observations of a call and sample operators -/

/-- The status a call returned, if it returned. -/
def statusOf (e : Except Fault Returned) : Option InferStatus :=
  match e with
  | .ok R => some R.status
  | .error _ => none

/-- The shapes `(channels, rows, cols)` of the caller's inputs after a call
that returned. -/
def inputShapes (e : Except Fault Returned) : Option (List (Option (Nat × Nat × Nat))) :=
  match e with
  | .ok R => some (R.inputs.map (Option.map (fun t => (t.channels, t.rows, t.cols))))
  | .error _ => none

/-- The shapes `(channels, rows, cols)` of the caller's outputs after a call
that returned. -/
def outputShapes (e : Except Fault Returned) : Option (List (Option (Nat × Nat × Nat))) :=
  match e with
  | .ok R => some (R.outputs.map (Option.map (fun t => (t.channels, t.rows, t.cols))))
  | .error _ => none

/-- Cell `(ch, r, c)` of output `i` after a call that returned. -/
def outputCell (e : Except Fault Returned) (i ch r c : Nat) : Option Int :=
  match e with
  | .ok R =>
    match R.outputs[i]? with
    | some (some t) => some (t.get ch r c)
    | _ => none
  | .error _ => none

/-- What a call returned; `d` when it stopped with a fault. -/
def returnedOr (e : Except Fault Returned) (d : Returned) : Returned :=
  match e with
  | .ok R => R
  | .error _ => d

/-- A tensor whose cells all hold `v`. -/
def constTensor (channels rows cols : Nat) (v : Int) : Tensor :=
  { channels := channels, rows := rows, cols := cols, mem := fun _ _ => v }

/-- A tensor whose cells hold distinct values. -/
def rampTensor (channels rows cols : Nat) : Tensor :=
  { channels := channels, rows := rows, cols := cols, mem := fun ch k => (ch * 100 + k : Nat) }

/-- One 3x3 filter of ones, stride 1, no padding, no bias, one group: the
Winograd branch. -/
def onesLayer3x3 : ConvolutionLayer :=
  { weights_ := [constTensor 1 3 3 1], bias_ := [], padding_h_ := 0, padding_w_ := 0,
    stride_h_ := 1, stride_w_ := 1, groups_ := 1, use_bias_ := false }

/-- The operator `onesLayer3x3` with a bias of 1. -/
def biasLayer3x3 : ConvolutionLayer :=
  { onesLayer3x3 with bias_ := [constTensor 1 1 1 1], use_bias_ := true }

/-- One 1x1 filter of value 2, stride 1, no padding, no bias: the generic
branch. -/
def twosLayer1x1 : ConvolutionLayer :=
  { weights_ := [constTensor 1 1 1 2], bias_ := [], padding_h_ := 0, padding_w_ := 0,
    stride_h_ := 1, stride_w_ := 1, groups_ := 1, use_bias_ := false }

/-- A 1x1 filter with stride 2 and no padding, the case kernel = 1, stride = 2,
padding = 0. -/
def strideTwoLayer : ConvolutionLayer := { twosLayer1x1 with stride_h_ := 2, stride_w_ := 2 }

/-- The Winograd branch (lines 96-149) run on `input_` with the sizes that
lines 72-81 compute, whatever the branch `Forward` would take; the result is
the caller's output tensor. -/
def winogradOn (L : ConvolutionLayer) (input_ : Tensor) (output_tensor : Option Tensor) :
    Except Fault (Option Tensor) :=
  match L.weights_ with
  | [] => .error Fault.vectorAt
  | kernel0 :: _ =>
    match winogradBranch L input_ output_tensor input_.rows input_.cols input_.channels
        kernel0.rows (outputSize input_.rows kernel0.rows L.stride_h_)
        (outputSize input_.cols kernel0.cols L.stride_w_) with
    | .error e => .error e
    | .ok p => .ok p.2

/-- The generic branch (lines 150-216) run on `input_` with the sizes that
lines 72-81 compute, whatever the branch `Forward` would take. -/
def genericOn (L : ConvolutionLayer) (input_ : Tensor) (output_tensor : Option Tensor) :
    Except Fault (Option Tensor) :=
  match L.weights_ with
  | [] => .error Fault.vectorAt
  | kernel0 :: _ =>
    genericBranch L input_ output_tensor input_.rows input_.cols input_.channels
      L.weights_.length kernel0.rows kernel0.cols
      (outputSize input_.rows kernel0.rows L.stride_h_)
      (outputSize input_.cols kernel0.cols L.stride_w_)

/-- Cell `(ch, r, c)` of the output tensor a branch left. -/
def cellOf (e : Except Fault (Option Tensor)) (ch r c : Nat) : Option Int :=
  match e with
  | .ok (some t) => some (t.get ch r c)
  | _ => none

/-- Two groups of one input channel each, 2x2 filters, stride 1, padding 1, no
bias: the generic branch on a grouped convolution. -/
def groupedLayer : ConvolutionLayer :=
  { weights_ := [rampTensor 1 2 2, constTensor 1 2 2 3], bias_ := [], padding_h_ := 1,
    padding_w_ := 1, stride_h_ := 1, stride_w_ := 1, groups_ := 2, use_bias_ := false }

/-- The operator `onesLayer3x3` with strides `2^32 - 1` and 4. -/
def hugeStrideLayer : ConvolutionLayer :=
  { onesLayer3x3 with stride_h_ := 4294967295, stride_w_ := 4 }

/-- The operator `groupedLayer` with the biases 10 and 20. -/
def groupedBiasLayer : ConvolutionLayer :=
  { groupedLayer with bias_ := [constTensor 1 1 1 10, constTensor 1 1 1 20], use_bias_ := true }

/-- One 2x3 filter of ones, stride 1, no padding, no bias. -/
def onesLayer2x3 : ConvolutionLayer :=
  { twosLayer1x1 with weights_ := [constTensor 1 2 3 1] }

/-- The parameters of a convolution operator, complete but for `groups`. -/
def paramsWithoutGroups : List (String × Option RuntimeParameter) :=
  [("in_channels", some (RuntimeParameter.RuntimeParameterInt 1)),
    ("out_channels", some (RuntimeParameter.RuntimeParameterInt 1)),
    ("padding", some (RuntimeParameter.RuntimeParameterIntArray [0, 0])),
    ("bias", some (RuntimeParameter.RuntimeParameterBool false)),
    ("stride", some (RuntimeParameter.RuntimeParameterIntArray [1, 1])),
    ("kernel_size", some (RuntimeParameter.RuntimeParameterIntArray [3, 3]))]

/-- A stand-in for `set_bias` and `set_weights` that keeps the operator as it
is. -/
def keepLayer (L : ConvolutionLayer) (_ : List Int) : Except Fault ConvolutionLayer := .ok L

/-- The store whose object at address `a` is the `a`-th of the listed
tensors. -/
def storeOf (tensors : List (Option Tensor)) : Nat → Tensor :=
  fun a =>
    match tensors[a]? with
    | some (some t) => t
    | _ => Tensor.create 0 0 0

/-- The fault a call stopped with, if it did not return. -/
def faultOf {α : Type} (e : Except Fault α) : Option Fault :=
  match e with
  | .ok _ => none
  | .error f => some f

/-- The status `GetInstance` returned, if it returned. -/
def parseStatusOf (e : Except Fault (ParseParameterAttrStatus × Option ConvolutionLayer)) :
    Option ParseParameterAttrStatus :=
  match e with
  | .ok p => some p.1
  | .error _ => none

/-- An operator with a zero vertical stride. -/
def zeroStrideLayer : ConvolutionLayer := { onesLayer3x3 with stride_h_ := 0 }

/-- An operator without weights. -/
def noWeightLayer : ConvolutionLayer := { onesLayer3x3 with weights_ := [] }

/-- An operator that uses a bias but holds no bias tensor. -/
def missingBiasLayer : ConvolutionLayer := { onesLayer3x3 with use_bias_ := true }

end ConvolutionLayer

/-! ## The upsample layer

A shallow embedding of `source/layer/details/upsample.cpp`. The sizes and
indices of the matrix library (`arma::uword`) are 64 bits wide, so the
products of lines 51 and 55 do not wrap around; the conversions to `uint32_t`
that the code spells out are reduced modulo `2^32`. -/

/-- Modelled from the spec: the enumeration `UpSampleMode` (declared outside
of the two files). The source names the mode `kModeNearest` only; any other
mode is identified by its integer value. -/
inductive UpSampleMode where
  | kModeNearest
  | kModeOther (code : Nat)
  deriving DecidableEq

/-- The fields of `UpSampleLayer`. -/
structure UpSampleLayer where
  scale_h_ : Nat
  scale_w_ : Nat
  mode_ : UpSampleMode

namespace UpSampleLayer

/-- The store `*(p + off) = v` into the buffer of `m`; leaving the buffer is a
fault. -/
def storeAt (m : Mat) (off : Nat) (v : Int) : Except Fault Mat :=
  if off < m.n_rows * m.n_cols then
    .ok { m with mem := fun k => if k = off then v else m.mem k }
  else .error Fault.memory

/-- Lines 79-88: the loop over the rows of output column `col`, which is
filled from column `src_w` of the input channel. -/
def fillColumn (L : UpSampleLayer) (input_channel : Mat) (src_w : Nat) (output_channel : Mat)
    (col : Nat) : Except Fault Mat :=
  if L.scale_h_ = 0 ∧ 0 < output_channel.n_rows then .error Fault.divByZero
  else
    loopM
      (fun m h =>
        if ¬ (u32 (h / L.scale_h_) < input_channel.n_rows) then .error (Fault.check 81)
        else
          loopM
            (fun m h_ =>
              storeAt m (col * m.n_rows + h_ + h)
                (input_channel.mem (src_w * input_channel.n_rows + u32 (h / L.scale_h_))))
            (List.range L.scale_h_) m)
      (steps output_channel.n_rows L.scale_h_) output_channel

/-- Lines 69-90: the loops over the columns of one channel. -/
def upsampleChannel (L : UpSampleLayer) (input_channel output_channel : Mat) :
    Except Fault Mat :=
  if L.scale_w_ = 0 ∧ 0 < output_channel.n_cols then .error Fault.divByZero
  else
    loopM
      (fun m w =>
        if ¬ (u32 (w / L.scale_w_) < input_channel.n_cols) then .error (Fault.check 74)
        else
          loopM
            (fun m w_ => fillColumn L input_channel (u32 (w / L.scale_w_)) m (w_ + w))
            (List.range L.scale_w_) m)
      (steps output_channel.n_cols L.scale_w_) output_channel

/-- The view `cube.slice(c)` of the matrix library; the slice must exist. -/
def slice (t : Tensor) (c : Nat) : Except Fault Mat :=
  if c < t.channels then .ok { n_rows := t.rows, n_cols := t.cols, mem := t.mem c }
  else .error Fault.armaBounds

/-- Lines 66-91: one round of the loop over the channels; the output slice is
modified in place. -/
def upsampleSlice (L : UpSampleLayer) (input_data : Tensor) (output_data : Tensor) (c : Nat) :
    Except Fault Tensor :=
  match slice input_data c with
  | .error e => .error e
  | .ok input_channel =>
    match slice output_data c with
    | .error e => .error e
    | .ok output_channel =>
      match upsampleChannel L input_channel output_channel with
      | .error e => .error e
      | .ok m =>
        .ok { output_data with
              mem := fun ch => if ch = c then m.mem else output_data.mem ch }

/-- Lines 43-49: the output tensor of the round: the caller's, or a fresh one
when the caller's is null or empty. -/
def outputFor (L : UpSampleLayer) (input_data : Tensor) (output : Option Tensor) : Tensor :=
  match output with
  | none =>
    Tensor.create input_data.channels (u32 (input_data.rows * L.scale_h_))
      (u32 (input_data.cols * L.scale_w_))
  | some y =>
    if y.empty = true then
      Tensor.create input_data.channels (u32 (input_data.rows * L.scale_h_))
        (u32 (input_data.cols * L.scale_w_))
    else y

/-- Lines 42-91: one round of the batch loop; the result is `outputs.at(i)`
after the round. -/
def upsampleElem (L : UpSampleLayer) (input output : Option Tensor) :
    Except Fault (Option Tensor) :=
  match input with
  | none => .error Fault.nullDeref
  | some input_data =>
    if (outputFor L input_data output).rows ≠ input_data.rows * L.scale_h_ then
      .error (Fault.check 51)
    else if (outputFor L input_data output).cols ≠ input_data.cols * L.scale_w_ then
      .error (Fault.check 55)
    else if input_data.channels ≠ (outputFor L input_data output).channels then
      .error (Fault.check 60)
    else
      match loopM (upsampleSlice L input_data) (List.range input_data.channels)
          (outputFor L input_data output) with
      | .error e => .error e
      | .ok out => .ok (some out)

/-- Lines 41-92: the batch loop. The inputs are only read, so a batch may hold
one input tensor several times; the output tensors are objects of their own,
distinct from one another and from the inputs. -/
def upsampleBatch (L : UpSampleLayer) :
    List (Option Tensor) → List (Option Tensor) → Except Fault (List (Option Tensor))
  | input :: inputs, output :: outputs =>
    match upsampleElem L input output with
    | .error e => .error e
    | .ok output' =>
      match upsampleBatch L inputs outputs with
      | .error e => .error e
      | .ok outputs' => .ok (output' :: outputs')
  | _, _ => .ok []

/-- The test of line 28: the input is the null pointer or an empty tensor. -/
def absentOrEmpty (input_data : Option Tensor) : Bool :=
  match input_data with
  | none => true
  | some t => t.empty

/-- `UpSampleLayer::Forward` (lines 11-94). -/
def Forward (L : UpSampleLayer) (inputs outputs : List (Option Tensor)) :
    Except Fault ConvolutionLayer.Returned :=
  if inputs.isEmpty = true then
    .ok ⟨InferStatus.kInferFailedInputEmpty, inputs, outputs⟩
  else if inputs.length ≠ outputs.length then
    .ok ⟨InferStatus.kInferFailedInputOutSizeMatchError, inputs, outputs⟩
  else if inputs.any absentOrEmpty = true then
    .ok ⟨InferStatus.kInferFailedInputEmpty, inputs, outputs⟩
  else if L.mode_ ≠ UpSampleMode.kModeNearest then .error (Fault.check 36)
  else
    match upsampleBatch L inputs outputs with
    | .error e => .error e
    | .ok outputs' => .ok ⟨InferStatus.kInferSuccess, inputs, outputs'⟩

/-- The nearest-neighbour operator with scale 2x2. -/
def nearest2x2 : UpSampleLayer :=
  { scale_h_ := 2, scale_w_ := 2, mode_ := UpSampleMode.kModeNearest }

/-- The nearest-neighbour operator with the scales `2^31` and 1. -/
def hugeScaleLayer : UpSampleLayer :=
  { scale_h_ := 2147483648, scale_w_ := 1, mode_ := UpSampleMode.kModeNearest }

end UpSampleLayer

/-! ## Auxiliary facts -/

/-! ### Loops -/

theorem loopM_append {α σ : Type} (f : σ → α → Except Fault σ) (l₁ l₂ : List α) (s : σ) :
    loopM f (l₁ ++ l₂) s =
      match loopM f l₁ s with
      | .ok s' => loopM f l₂ s'
      | .error e => .error e := by
  induction l₁ generalizing s with
  | nil => simp [loopM]
  | cons a l ih =>
    simp only [List.cons_append, loopM]
    cases f s a with
    | error e => rfl
    | ok s' => exact ih s'

theorem loopM_range_succ {σ : Type} (f : σ → Nat → Except Fault σ) (n : Nat) (s : σ) :
    loopM f (List.range (n + 1)) s =
      match loopM f (List.range n) s with
      | .ok s' => f s' n
      | .error e => .error e := by
  rw [List.range_succ, loopM_append]
  cases loopM f (List.range n) s with
  | error e => rfl
  | ok s' =>
    simp only [loopM]
    cases f s' n <;> rfl

theorem loopM_map {α β σ : Type} (f : σ → β → Except Fault σ) (g : α → β) (l : List α) (s : σ) :
    loopM f (l.map g) s = loopM (fun s a => f s (g a)) l s := by
  induction l generalizing s with
  | nil => rfl
  | cons a l ih =>
    simp only [List.map_cons, loopM]
    cases f s (g a) with
    | error e => rfl
    | ok s' => exact ih s'

/-- Partial correctness of a counted loop: an invariant that every successful
round preserves holds after a successful loop. -/
theorem loopM_range_inv {σ : Type} (f : σ → Nat → Except Fault σ) (P : Nat → σ → Prop)
    (n : Nat) (s₀ : σ) (h0 : P 0 s₀)
    (hstep : ∀ i s s', i < n → P i s → f s i = .ok s' → P (i + 1) s') :
    ∀ s', loopM f (List.range n) s₀ = .ok s' → P n s' := by
  induction n with
  | zero =>
    intro s' h
    simp only [List.range_zero, loopM] at h
    cases h
    exact h0
  | succ n ih =>
    intro s' h
    rw [loopM_range_succ] at h
    cases hl : loopM f (List.range n) s₀ with
    | error e => rw [hl] at h; cases h
    | ok s =>
      rw [hl] at h
      exact hstep n s s' (Nat.lt_succ_self n)
        (ih (fun i s s' hi => hstep i s s' (Nat.lt_succ_of_lt hi)) s hl) h

/-- Total correctness of a counted loop: if every round succeeds from a state
that satisfies the invariant and re-establishes it, the loop succeeds. -/
theorem loopM_range_ok {σ : Type} (f : σ → Nat → Except Fault σ) (P : Nat → σ → Prop)
    (n : Nat) (s₀ : σ) (h0 : P 0 s₀)
    (hstep : ∀ i s, i < n → P i s → ∃ s', f s i = .ok s' ∧ P (i + 1) s') :
    ∃ s', loopM f (List.range n) s₀ = .ok s' ∧ P n s' := by
  induction n with
  | zero => exact ⟨s₀, rfl, h0⟩
  | succ n ih =>
    obtain ⟨s, hs, hP⟩ := ih (fun i s hi => hstep i s (Nat.lt_succ_of_lt hi))
    obtain ⟨s', hs', hP'⟩ := hstep n s (Nat.lt_succ_self n) hP
    exact ⟨s', by rw [loopM_range_succ, hs]; exact hs', hP'⟩

/-- Invariant of a counted pure loop. -/
theorem foldl_range_inv {σ : Type} (f : σ → Nat → σ) (P : Nat → σ → Prop) (n : Nat) (s₀ : σ)
    (h0 : P 0 s₀) (hstep : ∀ i s, i < n → P i s → P (i + 1) (f s i)) :
    P n ((List.range n).foldl f s₀) := by
  induction n with
  | zero => exact h0
  | succ n ih =>
    rw [List.range_succ, List.foldl_append]
    exact hstep n _ (Nat.lt_succ_self n) (ih (fun i s hi => hstep i s (Nat.lt_succ_of_lt hi)))

/-! ### Machine integers -/

theorem u32_of_lt {n : Nat} (h : n < U32) : u32 n = n := Nat.mod_eq_of_lt h

theorem u32_lt (n : Nat) : u32 n < U32 := Nat.mod_lt n (by decide)

theorem sub32_of_le {a b : Nat} (ha : a < U32) (hb : b ≤ a) : sub32 a b = a - b := by
  unfold sub32
  have hb' : b < U32 := Nat.lt_of_le_of_lt hb ha
  rw [Nat.mod_eq_of_lt ha, Nat.mod_eq_of_lt hb']
  have : a + U32 - b = (a - b) + U32 := by omega
  rw [this, Nat.add_mod_right]
  exact Nat.mod_eq_of_lt (by omega)

/-! ### The structure of a successful call -/

namespace ConvolutionLayer

theorem writeBack_same (store : Nat → Tensor) (a : Nat) :
    writeBack store (some a) (some (store a)) = store := by
  funext b
  simp only [writeBack]
  by_cases h : b = a
  · rw [if_pos h, h]
  · rw [if_neg h]

theorem writeBack_other (store : Nat → Tensor) (a : Option Nat) (t : Option Tensor) (b : Nat)
    (h : a ≠ some b) : writeBack store a t b = store b := by
  cases a with
  | none => rfl
  | some a0 =>
    cases t with
    | none => rfl
    | some t0 =>
      have hne : ¬ (b = a0) := fun e => h (by rw [e])
      simp only [writeBack, if_neg hne]

/-- Round `i` of a batch loop that returns: it ran on the object behind
`inputs.at(i)` in a state of the store that agrees with the initial one on
every object that no earlier position of the batch holds. -/
theorem forwardBatch_inv (L : ConvolutionLayer) :
    ∀ (inputs : List (Option Nat)) (outputs : List (Option Tensor)) (store store' : Nat → Tensor)
      (outputs' : List (Option Tensor)),
      forwardBatch L store inputs outputs = .ok (store', outputs') →
      ∀ (i : Nat) (a : Option Nat) (y : Option Tensor), inputs[i]? = some a →
        outputs[i]? = some y →
        ∃ (st : Nat → Tensor) (x' y' : Option Tensor),
          forwardElem L (a.map st) y = .ok (x', y') ∧ outputs'[i]? = some y' ∧
          ∀ b, (∀ j, j < i → inputs[j]? ≠ some (some b)) → st b = store b := by
  intro inputs
  induction inputs with
  | nil => intro outputs store store' outputs' _ i a y hx; simp at hx
  | cons a0 inputs ih =>
    intro outputs store store' outputs' h i a y hx hy
    cases outputs with
    | nil => simp at hy
    | cons b0 outputs =>
      simp only [forwardBatch] at h
      cases he : forwardElem L (a0.map store) b0 with
      | error e => rw [he] at h; cases h
      | ok p =>
        obtain ⟨a', b'⟩ := p
        rw [he] at h
        simp only at h
        cases hr : forwardBatch L (writeBack store a0 a') inputs outputs with
        | error e => rw [hr] at h; cases h
        | ok q =>
          obtain ⟨st', os'⟩ := q
          rw [hr] at h
          simp only [Except.ok.injEq, Prod.mk.injEq] at h
          obtain ⟨h1, h2⟩ := h
          subst h1 h2
          cases i with
          | zero =>
            simp only [List.getElem?_cons_zero, Option.some.injEq] at hx hy
            subst hx hy
            exact ⟨store, a', b', he, by simp, fun _ _ => rfl⟩
          | succ i =>
            simp only [List.getElem?_cons_succ] at hx hy
            obtain ⟨st, x', y', g1, g2, g3⟩ := ih outputs _ _ _ hr i a y hx hy
            refine ⟨st, x', y', g1, by simpa using g2, ?_⟩
            intro b hb
            rw [g3 b (fun j hj => by
              have := hb (j + 1) (by omega)
              simpa using this)]
            exact writeBack_other store a0 a' b (by
              have := hb 0 (by omega)
              simpa using this)

/-- When no round changes the object behind its input pointer, a batch loop
that returns leaves the store as it was and ran every round on the initial
state of its input. -/
theorem forwardBatch_frame (L : ConvolutionLayer)
    (hframe : ∀ (x : Tensor) (y x' y' : Option Tensor),
      forwardElem L (some x) y = .ok (x', y') → x' = some x) :
    ∀ (inputs : List (Option Nat)) (outputs : List (Option Tensor)) (store store' : Nat → Tensor)
      (outputs' : List (Option Tensor)),
      forwardBatch L store inputs outputs = .ok (store', outputs') →
      store' = store ∧
      ∀ (i : Nat) (a : Option Nat) (y : Option Tensor), inputs[i]? = some a →
        outputs[i]? = some y →
        ∃ x' y', forwardElem L (a.map store) y = .ok (x', y') ∧ outputs'[i]? = some y' := by
  intro inputs
  induction inputs with
  | nil =>
    intro outputs store store' outputs' h
    simp only [forwardBatch, Except.ok.injEq, Prod.mk.injEq] at h
    refine ⟨h.1.symm, ?_⟩
    intro i a y hx
    simp at hx
  | cons a0 inputs ih =>
    intro outputs store store' outputs' h
    cases outputs with
    | nil =>
      simp only [forwardBatch, Except.ok.injEq, Prod.mk.injEq] at h
      refine ⟨h.1.symm, ?_⟩
      intro i a y _ hy
      simp at hy
    | cons b0 outputs =>
      simp only [forwardBatch] at h
      cases he : forwardElem L (a0.map store) b0 with
      | error e => rw [he] at h; cases h
      | ok p =>
        obtain ⟨a', b'⟩ := p
        rw [he] at h
        simp only at h
        have hsame : writeBack store a0 a' = store := by
          cases a0 with
          | none => rfl
          | some c =>
            have := hframe (store c) b0 a' b' he
            rw [this]
            exact writeBack_same store c
        rw [hsame] at h
        cases hr : forwardBatch L store inputs outputs with
        | error e => rw [hr] at h; cases h
        | ok q =>
          obtain ⟨st', os'⟩ := q
          rw [hr] at h
          simp only [Except.ok.injEq, Prod.mk.injEq] at h
          obtain ⟨h1, h2⟩ := h
          subst h1 h2
          obtain ⟨i1, i2⟩ := ih outputs store st' os' hr
          refine ⟨i1, ?_⟩
          intro i a y hx hy
          cases i with
          | zero =>
            simp only [List.getElem?_cons_zero, Option.some.injEq] at hx hy
            subst hx hy
            exact ⟨a', b', he, by simp⟩
          | succ i =>
            simp only [List.getElem?_cons_succ] at hx hy
            obtain ⟨x', y', g1, g2⟩ := i2 i a y hx hy
            exact ⟨x', y', g1, by simpa using g2⟩

/-- A batch that holds every input object once: the loop returns when every
round returns on the initial state of its input, and round `i` ran on that
state. -/
theorem forwardBatch_ok (L : ConvolutionLayer) :
    ∀ (inputs : List (Option Nat)) (outputs : List (Option Tensor)) (store : Nat → Tensor),
      inputs.length = outputs.length → inputs.Nodup →
      (∀ (i : Nat) (a : Option Nat) (y : Option Tensor), inputs[i]? = some a →
        outputs[i]? = some y → ∃ p, forwardElem L (a.map store) y = .ok p) →
      ∃ (store' : Nat → Tensor) (outputs' : List (Option Tensor)),
        forwardBatch L store inputs outputs = .ok (store', outputs') ∧
        ∀ (i : Nat) (a : Option Nat) (y : Option Tensor), inputs[i]? = some a →
          outputs[i]? = some y →
          ∃ x' y', forwardElem L (a.map store) y = .ok (x', y') ∧ outputs'[i]? = some y' := by
  intro inputs
  induction inputs with
  | nil =>
    intro outputs store _ _ _
    refine ⟨store, [], by cases outputs <;> rfl, ?_⟩
    intro i a y hx
    simp at hx
  | cons a0 inputs ih =>
    intro outputs store hlen hnd h
    cases outputs with
    | nil => simp at hlen
    | cons b0 outputs =>
      obtain ⟨p, hp⟩ := h 0 a0 b0 (by simp) (by simp)
      have hnot : a0 ∉ inputs := (List.nodup_cons.mp hnd).1
      have hsame : ∀ (a : Option Nat), a ∈ inputs →
          a.map (writeBack store a0 p.1) = a.map store := by
        intro a ha
        cases a with
        | none => rfl
        | some c =>
          simp only [Option.map_some']
          rw [writeBack_other store a0 p.1 c (fun e => hnot (by rw [e]; exact ha))]
      obtain ⟨st', os', hq, hq'⟩ := ih outputs (writeBack store a0 p.1) (by simpa using hlen)
        (List.nodup_cons.mp hnd).2
        (fun i a y hx hy => by
          rw [hsame a (List.getElem?_mem hx)]
          exact h (i + 1) a y (by simpa using hx) (by simpa using hy))
      refine ⟨st', p.2 :: os', by simp only [forwardBatch, hp, hq], ?_⟩
      intro i a y hx hy
      cases i with
      | zero =>
        simp only [List.getElem?_cons_zero, Option.some.injEq] at hx hy
        subst hx hy
        exact ⟨p.1, p.2, hp, by simp⟩
      | succ i =>
        simp only [List.getElem?_cons_succ] at hx hy
        obtain ⟨x', y', g1, g2⟩ := hq' i a y hx hy
        rw [hsame a (List.getElem?_mem hx)] at g1
        exact ⟨x', y', g1, by simpa using g2⟩

/-- A call that returns success passed the four guards and ran the batch
loop. -/
theorem Forward_success_inv (L : ConvolutionLayer) (store : Nat → Tensor)
    (inputs : List (Option Nat)) (outputs : List (Option Tensor))
    (R : Returned) (h : Forward L store inputs outputs = .ok R)
    (hs : R.status = InferStatus.kInferSuccess) :
    inputs ≠ [] ∧ inputs.length = outputs.length ∧ L.weights_ ≠ [] ∧
      (L.use_bias_ = true → L.bias_.length = L.weights_.length) ∧
      L.stride_h_ ≠ 0 ∧ L.stride_w_ ≠ 0 ∧
      ∃ store' : Nat → Tensor, forwardBatch L store inputs outputs = .ok (store', R.outputs) ∧
        R.inputs = valuesOf store' inputs := by
  unfold Forward at h
  split_ifs at h with h1 h2 h3 h4
  · cases h; cases hs
  · cases h; cases hs
  · cases h; cases hs
  · cases h; cases hs
  · cases hb : forwardBatch L store inputs outputs with
    | error e => rw [hb] at h; cases h
    | ok p =>
      obtain ⟨store', outputs'⟩ := p
      rw [hb] at h
      cases h
      refine ⟨?_, ?_, ?_, ?_, ?_, ?_, store', rfl, rfl⟩
      · intro hn; exact h1 (Or.inl (by simp [hn]))
      · by_contra hn; exact h1 (Or.inr hn)
      · intro hn; exact h2 (by simp [hn])
      · intro hb'; by_contra hn; exact h3 ⟨hb', hn⟩
      · intro hn; exact h4 (Or.inl hn)
      · intro hn; exact h4 (Or.inr hn)

/-- The batch loop is all that is left of `Forward` once the four guards are
passed. -/
theorem Forward_of_guards (L : ConvolutionLayer) (store : Nat → Tensor)
    (inputs : List (Option Nat)) (outputs : List (Option Tensor))
    (hin : inputs ≠ []) (hlen : inputs.length = outputs.length) (hw : L.weights_ ≠ [])
    (hb : L.use_bias_ = true → L.bias_.length = L.weights_.length)
    (hsh : L.stride_h_ ≠ 0) (hsw : L.stride_w_ ≠ 0) :
    Forward L store inputs outputs =
      match forwardBatch L store inputs outputs with
      | .error e => .error e
      | .ok (store', outputs') =>
        .ok ⟨InferStatus.kInferSuccess, valuesOf store' inputs, outputs'⟩ := by
  have h1 : ¬ (inputs.isEmpty = true ∨ inputs.length ≠ outputs.length) := by
    simp [List.isEmpty_iff, hin, hlen]
  have h2 : ¬ (L.weights_.isEmpty = true) := by simp [List.isEmpty_iff, hw]
  have h3 : ¬ (L.use_bias_ = true ∧ L.bias_.length ≠ L.weights_.length) :=
    fun h => h.2 (hb h.1)
  have h4 : ¬ (L.stride_h_ = 0 ∨ L.stride_w_ = 0) := by
    intro h; cases h with
    | inl h => exact hsh h
    | inr h => exact hsw h
  simp only [Forward, if_neg h1, if_neg h2, if_neg h3, if_neg h4]

theorem checkKernels_ok_iff (L : ConvolutionLayer) (kernel_h kernel_w input_c : Nat) :
    ∀ (ws : List Tensor), checkKernels L kernel_h kernel_w input_c ws = .ok () ↔
      ∀ w ∈ ws, w.rows = kernel_h ∧ w.cols = kernel_w ∧ L.groups_ ≠ 0 ∧
        w.channels = input_c / L.groups_ := by
  intro ws
  induction ws with
  | nil => simp [checkKernels]
  | cons w ws ih =>
    simp only [checkKernels, List.mem_cons, forall_eq_or_imp]
    split_ifs with h1 h2 h3 h4
    · simp [h1]
    · simp [h2]
    · simp [h3]
    · simp [h4]
    · rw [ih]
      simp only [ne_eq, not_not] at h1 h2 h4
      simp [h1, h2, h3, h4]

theorem checkGroups_ok_iff (L : ConvolutionLayer) (kernel_count input_c : Nat) :
    checkGroups L kernel_count input_c = .ok () ↔
      (L.groups_ ≠ 1 → L.groups_ ≠ 0 ∧ kernel_count % L.groups_ = 0 ∧
        input_c % L.groups_ = 0) := by
  unfold checkGroups
  split_ifs with h1 h2 h3 h4
  · simp [h1, h2]
  · simp [h1, h3]
  · simp [h1, h4]
  · simp only [ne_eq, not_not] at h3 h4
    simp [h2, h3, h4]
  · simp only [ne_eq, not_not] at h1
    simp [h1]

/-- What a successful round of the batch loop went through. -/
theorem forwardBody_inv (L : ConvolutionLayer) (input_ : Tensor) (output_tensor : Option Tensor)
    (res : Tensor × Option Tensor) (h : forwardBody L input_ output_tensor = .ok res) :
    ∃ kernel0 rest, L.weights_ = kernel0 :: rest ∧
      0 < outputSize input_.rows kernel0.rows L.stride_h_ ∧
      0 < outputSize input_.cols kernel0.cols L.stride_w_ ∧
      checkGroups L L.weights_.length input_.channels = .ok () ∧
      checkKernels L kernel0.rows kernel0.cols input_.channels L.weights_ = .ok () ∧
      ((useWinograd L kernel0.rows kernel0.cols = true ∧
          winogradBranch L input_ output_tensor input_.rows input_.cols input_.channels
            kernel0.rows (outputSize input_.rows kernel0.rows L.stride_h_)
            (outputSize input_.cols kernel0.cols L.stride_w_) = .ok res) ∨
        (useWinograd L kernel0.rows kernel0.cols = false ∧ res.1 = input_ ∧
          genericBranch L input_ output_tensor input_.rows input_.cols input_.channels
            L.weights_.length kernel0.rows kernel0.cols
            (outputSize input_.rows kernel0.rows L.stride_h_)
            (outputSize input_.cols kernel0.cols L.stride_w_) = .ok res.2)) := by
  unfold forwardBody at h
  cases hw : L.weights_ with
  | nil => rw [hw] at h; cases h
  | cons kernel0 rest =>
    rw [hw] at h
    simp only at h
    refine ⟨kernel0, rest, rfl, ?_⟩
    by_cases h1 : outputSize input_.rows kernel0.rows L.stride_h_ > 0 ∧
        outputSize input_.cols kernel0.cols L.stride_w_ > 0
    · rw [if_neg (not_not.mpr h1)] at h
      cases hg : checkGroups L (kernel0 :: rest).length input_.channels with
      | error e => rw [hg] at h; cases h
      | ok u =>
        rw [hg] at h
        simp only at h
        cases hk : checkKernels L kernel0.rows kernel0.cols input_.channels (kernel0 :: rest) with
        | error e => rw [hk] at h; cases h
        | ok u' =>
          rw [hk] at h
          simp only at h
          refine ⟨h1.1, h1.2, rfl, rfl, ?_⟩
          by_cases h2 : useWinograd L kernel0.rows kernel0.cols = true
          · rw [if_pos h2] at h
            exact Or.inl ⟨h2, h⟩
          · rw [if_neg h2] at h
            right
            refine ⟨by simpa using h2, ?_⟩
            cases hgb : genericBranch L input_ output_tensor input_.rows input_.cols
                input_.channels (kernel0 :: rest).length kernel0.rows kernel0.cols
                (outputSize input_.rows kernel0.rows L.stride_h_)
                (outputSize input_.cols kernel0.cols L.stride_w_) with
            | error e => rw [hgb] at h; cases h
            | ok out =>
              rw [hgb] at h
              cases h
              exact ⟨rfl, rfl⟩
    · rw [if_pos h1] at h
      cases h

theorem forwardElem_inv (L : ConvolutionLayer) (x : Tensor) (y : Option Tensor)
    (x' y' : Option Tensor) (h : forwardElem L (some x) y = .ok (x', y')) :
    ∃ input_, forwardBody L (paddedInput L x).1 y = .ok (input_, y') ∧
      x' = if (paddedInput L x).2 = true then some input_ else some x := by
  simp only [forwardElem] at h
  cases hb : forwardBody L (paddedInput L x).1 y with
  | error e => rw [hb] at h; cases h
  | ok p =>
    obtain ⟨input_, out⟩ := p
    rw [hb] at h
    simp only [Except.ok.injEq, Prod.mk.injEq] at h
    exact ⟨input_, by rw [h.2], h.1.symm⟩

/-- When `input_` is the caller's own tensor, it is the input itself. -/
theorem paddedInput_alias (L : ConvolutionLayer) (x : Tensor) (h : (paddedInput L x).2 = true) :
    (paddedInput L x).1 = x := by
  unfold paddedInput at h ⊢
  by_cases hp : L.padding_h_ > 0 ∨ L.padding_w_ > 0
  · rw [if_pos hp] at h
    cases h
  · rw [if_neg hp]

/-- A round that takes the generic branch leaves the object behind its input
pointer as it was. -/
theorem forwardElem_generic_frame (L : ConvolutionLayer) (kernel0 : Tensor)
    (hk0 : L.weights_.head? = some kernel0)
    (hgen : useWinograd L kernel0.rows kernel0.cols = false)
    (x : Tensor) (y x' y' : Option Tensor) (h : forwardElem L (some x) y = .ok (x', y')) :
    x' = some x := by
  obtain ⟨input_, b1, b2⟩ := forwardElem_inv L x y x' y' h
  obtain ⟨k0, rest, w1, _, _, _, _, w6⟩ := forwardBody_inv L _ _ _ b1
  have hk : k0 = kernel0 := by
    rw [w1] at hk0
    simpa using hk0
  subst hk
  rcases w6 with ⟨hwin, _⟩ | ⟨_, hin, _⟩
  · rw [hgen] at hwin
    cases hwin
  · simp only at hin
    rw [b2]
    by_cases ha : (paddedInput L x).2 = true
    · rw [if_pos ha, hin, paddedInput_alias L x ha]
    · rw [if_neg ha]

end ConvolutionLayer

/-! ### Sums and offsets -/

theorem sumTo_congr (n : Nat) (f g : Nat → Int) (h : ∀ i, i < n → f i = g i) :
    sumTo n f = sumTo n g := by
  induction n with
  | zero => rfl
  | succ n ih =>
    simp only [sumTo]
    rw [ih (fun i hi => h i (Nat.lt_succ_of_lt hi)), h n (Nat.lt_succ_self n)]

theorem sumTo_zero (n : Nat) : sumTo n (fun _ => 0) = 0 := by
  induction n with
  | zero => rfl
  | succ n ih => simp [sumTo, ih]

/-- A sum with a single non-zero term. -/
theorem sumTo_single (n a : Nat) (v : Int) :
    sumTo n (fun i => if i = a then v else 0) = if a < n then v else 0 := by
  induction n with
  | zero => simp [sumTo]
  | succ n ih =>
    simp only [sumTo, ih]
    by_cases h1 : a < n
    · have h2 : ¬ n = a := by omega
      have h3 : a < n + 1 := by omega
      simp [h1, h2, h3]
    · by_cases h2 : n = a
      · subst h2
        simp
      · have h3 : ¬ a < n + 1 := by omega
        simp [h1, h2, h3]

theorem sumTo_add (n : Nat) (f g : Nat → Int) :
    sumTo n (fun i => f i + g i) = sumTo n f + sumTo n g := by
  induction n with
  | zero => rfl
  | succ n ih => simp only [sumTo, ih]; ring

/-- Exchange of two nested sums. -/
theorem sumTo_comm (n m : Nat) (f : Nat → Nat → Int) :
    sumTo n (fun i => sumTo m (fun j => f i j)) = sumTo m (fun j => sumTo n (fun i => f i j)) := by
  induction n with
  | zero => simp [sumTo, sumTo_zero]
  | succ n ih => simp only [sumTo, ih, sumTo_add]

/-- A sum over `a * b` indices as a double sum, block by block. -/
theorem sumTo_mul (a b : Nat) (f : Nat → Int) :
    sumTo (a * b) f = sumTo b (fun i => sumTo a (fun q => f (a * i + q))) := by
  have hadd : ∀ (m n : Nat) (g : Nat → Int),
      sumTo (m + n) g = sumTo m g + sumTo n (fun q => g (m + q)) := by
    intro m n g
    induction n with
    | zero => simp [sumTo]
    | succ n ih =>
      rw [← Nat.add_assoc]
      simp only [sumTo, ih]
      ring
  induction b with
  | zero => simp [sumTo]
  | succ b ih =>
    rw [Nat.mul_succ, hadd, ih]
    simp only [sumTo]

/-- Column-major offsets determine the cell. -/
theorem offset_inj {n r c r' c' : Nat} (hr : r < n) (hr' : r' < n) :
    r + c * n = r' + c' * n ↔ r = r' ∧ c = c' := by
  constructor
  · intro h
    have h1 : (r + c * n) % n = (r' + c' * n) % n := by rw [h]
    have h2 : (r + c * n) / n = (r' + c' * n) / n := by rw [h]
    rw [Nat.add_mul_mod_self_right, Nat.add_mul_mod_self_right, Nat.mod_eq_of_lt hr,
      Nat.mod_eq_of_lt hr'] at h1
    have hn : 0 < n := by omega
    rw [Nat.add_mul_div_right _ _ hn, Nat.add_mul_div_right _ _ hn, Nat.div_eq_of_lt hr,
      Nat.div_eq_of_lt hr'] at h2
    exact ⟨h1, by omega⟩
  · rintro ⟨h1, h2⟩
    rw [h1, h2]

theorem offset_mod {n r : Nat} (c : Nat) (hr : r < n) : (r + c * n) % n = r := by
  rw [Nat.add_mul_mod_self_right, Nat.mod_eq_of_lt hr]

theorem offset_div {n r : Nat} (c : Nat) (hr : r < n) : (r + c * n) / n = c := by
  have hn : 0 < n := by omega
  rw [Nat.add_mul_div_right _ _ hn, Nat.div_eq_of_lt hr, Nat.zero_add]

/-! ### The tile loops -/

namespace ConvolutionLayer

theorem tileMat_at (input_channel : Mat) (h_tile w_tile i j : Nat) (hi : i < 4) (hj : j < 4) :
    (tileMat input_channel h_tile w_tile).at_ i j =
      input_channel.at_ (h_tile + i) (w_tile + j) := by
  have hidx : (j + w_tile) * input_channel.n_rows + h_tile + i =
      h_tile + i + (w_tile + j) * input_channel.n_rows := by ring
  simp only [tileMat, Mat.at_, List.range, List.range.loop, List.foldl, memcpy]
  rw [← hidx]
  interval_cases j <;> interval_cases i <;> simp

theorem Winograd_tile (g_ input_channel : Mat) (h_tile w_tile a b : Nat) (ha : a < 2)
    (hb : b < 2) :
    (Winograd g_ (tileMat input_channel h_tile w_tile)).mem (a + 2 * b) =
      sumTo 3 (fun kh => sumTo 3 (fun kw =>
        g_.at_ kh kw * input_channel.at_ (h_tile + a + kh) (w_tile + b + kw))) := by
  have h1 : (a + 2 * b) % 2 = a := by omega
  have h2 : (a + 2 * b) / 2 = b := by omega
  simp only [Winograd, corr3x3, h1, h2]
  apply sumTo_congr
  intro kh hkh
  apply sumTo_congr
  intro kw hkw
  rw [tileMat_at _ _ _ _ _ (by omega) (by omega)]
  simp only [Nat.add_assoc]

theorem addTile_at (m t : Mat) (h_tile w_tile r c : Nat) (hr : r < m.n_rows)
    (hh : h_tile + 2 ≤ m.n_rows) :
    (addTile m h_tile w_tile t).at_ r c =
      m.at_ r c +
        if (r = h_tile ∨ r = h_tile + 1) ∧ (c = w_tile ∨ c = w_tile + 1) then
          t.mem ((r - h_tile) + 2 * (c - w_tile))
        else 0 := by
  have i1 : r + c * m.n_rows = w_tile * m.n_rows + h_tile ↔ r = h_tile ∧ c = w_tile := by
    rw [show w_tile * m.n_rows + h_tile = h_tile + w_tile * m.n_rows by ring]
    exact offset_inj hr (by omega)
  have i2 : r + c * m.n_rows = w_tile * m.n_rows + h_tile + 1 ↔ r = h_tile + 1 ∧ c = w_tile := by
    rw [show w_tile * m.n_rows + h_tile + 1 = (h_tile + 1) + w_tile * m.n_rows by ring]
    exact offset_inj hr (by omega)
  have i3 : r + c * m.n_rows = (w_tile + 1) * m.n_rows + h_tile ↔
      r = h_tile ∧ c = w_tile + 1 := by
    rw [show (w_tile + 1) * m.n_rows + h_tile = h_tile + (w_tile + 1) * m.n_rows by ring]
    exact offset_inj hr (by omega)
  have i4 : r + c * m.n_rows = (w_tile + 1) * m.n_rows + h_tile + 1 ↔
      r = h_tile + 1 ∧ c = w_tile + 1 := by
    rw [show (w_tile + 1) * m.n_rows + h_tile + 1 =
      (h_tile + 1) + (w_tile + 1) * m.n_rows by ring]
    exact offset_inj hr (by omega)
  simp only [addTile, Mat.addAt, Mat.at_, i1, i2, i3, i4]
  by_cases c1 : r = h_tile
  · by_cases c2 : c = w_tile
    · subst c1 c2; simp
    · by_cases c3 : c = w_tile + 1
      · subst c1 c3; simp
      · simp [c1, c2, c3]
  · by_cases c1' : r = h_tile + 1
    · by_cases c2 : c = w_tile
      · subst c1' c2; simp
      · by_cases c3 : c = w_tile + 1
        · subst c1' c3; simp
        · simp [c1', c2, c3]
    · simp [c1, c1']

end ConvolutionLayer

namespace ConvolutionLayer

theorem tileStep_n_rows (kg ic : Mat) (ohp owp : Nat) (acc : Mat) (h w : Nat) :
    (tileStep kg ic ohp owp acc h w).n_rows = acc.n_rows := by
  unfold tileStep
  split_ifs <;> rfl

theorem tileStep_n_cols (kg ic : Mat) (ohp owp : Nat) (acc : Mat) (h w : Nat) :
    (tileStep kg ic ohp owp acc h w).n_cols = acc.n_cols := by
  unfold tileStep
  split_ifs <;> rfl

/-- One round of the tile loops adds the correlation to the cells it writes and
leaves the other cells alone. -/
theorem tileStep_at (kg ic : Mat) (ohp owp : Nat) (acc : Mat) (h w r c : Nat)
    (hacc : acc.n_rows = ohp) (hr : r < ohp) :
    (tileStep kg ic ohp owp acc h w).at_ r c =
      acc.at_ r c +
        if tileWrites ic.n_rows ic.n_cols ohp owp h w r c then corr3x3 kg ic r c else 0 := by
  unfold tileStep tileWrites
  by_cases g1 : h + 4 ≤ ic.n_rows ∧ w + 4 ≤ ic.n_cols
  · by_cases g2 : w + 2 ≤ owp ∧ h + 2 ≤ ohp
    · rw [if_pos g1, if_pos g2, addTile_at _ _ _ _ _ _ (by omega) (by omega)]
      by_cases g3 : (r = h ∨ r = h + 1) ∧ (c = w ∨ c = w + 1)
      · rw [if_pos g3, if_pos ⟨g1, g2, g3⟩,
          Winograd_tile _ _ _ _ _ _ (by omega) (by omega)]
        have e1 : h + (r - h) = r := by omega
        have e2 : w + (c - w) = c := by omega
        simp only [corr3x3, e1, e2]
      · rw [if_neg g3, if_neg (fun hh => g3 hh.2.2)]
    · rw [if_pos g1, if_neg g2, if_neg (fun hh => g2 hh.2.1)]
      simp
  · rw [if_neg g1, if_neg (fun hh => g1 hh.1)]
    simp

/-- The loop over the tiles of one tile row. -/
theorem tileRow_spec (kg ic : Mat) (ohp owp : Nat) (acc : Mat) (h n : Nat) (hacc : acc.n_rows = ohp) :
    ((List.range n).foldl (fun a i => tileStep kg ic ohp owp a h (i * 2)) acc).n_rows =
        acc.n_rows ∧
      ((List.range n).foldl (fun a i => tileStep kg ic ohp owp a h (i * 2)) acc).n_cols =
        acc.n_cols ∧
      ∀ r c, r < ohp →
        ((List.range n).foldl (fun a i => tileStep kg ic ohp owp a h (i * 2)) acc).at_ r c =
          acc.at_ r c + sumTo n (fun i =>
            if tileWrites ic.n_rows ic.n_cols ohp owp h (i * 2) r c then corr3x3 kg ic r c
            else 0) := by
  apply foldl_range_inv (fun a i => tileStep kg ic ohp owp a h (i * 2))
    (fun j s => s.n_rows = acc.n_rows ∧ s.n_cols = acc.n_cols ∧
      ∀ r c, r < ohp → s.at_ r c = acc.at_ r c + sumTo j (fun i =>
        if tileWrites ic.n_rows ic.n_cols ohp owp h (i * 2) r c then corr3x3 kg ic r c else 0))
  · exact ⟨rfl, rfl, fun r c _ => by simp [sumTo]⟩
  · intro i s _ hP
    obtain ⟨h1, h2, h3⟩ := hP
    refine ⟨by rw [tileStep_n_rows, h1], by rw [tileStep_n_cols, h2], ?_⟩
    intro r c hr
    rw [tileStep_at _ _ _ _ _ _ _ _ _ (by rw [h1, hacc]) hr, h3 r c hr]
    simp only [sumTo]
    ring

/-- The two tile loops add, to every accumulator cell, the correlation once
for every tile that writes the cell. -/
theorem tileLoops_spec (kg ic : Mat) (ohp owp : Nat) (acc : Mat) (hacc : acc.n_rows = ohp) :
    (tileLoops kg ic ohp owp acc).n_rows = acc.n_rows ∧
      (tileLoops kg ic ohp owp acc).n_cols = acc.n_cols ∧
      ∀ r c, r < ohp →
        (tileLoops kg ic ohp owp acc).at_ r c =
          acc.at_ r c + sumTo ((ic.n_rows + 2 - 1) / 2) (fun a =>
            sumTo ((ic.n_cols + 2 - 1) / 2) (fun b =>
              if tileWrites ic.n_rows ic.n_cols ohp owp (a * 2) (b * 2) r c then
                corr3x3 kg ic r c
              else 0)) := by
  unfold tileLoops steps
  rw [List.foldl_map]
  apply foldl_range_inv
    (fun a h => List.foldl (fun acc w_tile => tileStep kg ic ohp owp acc (h * 2) w_tile) a
      (List.map (fun i => i * 2) (List.range ((ic.n_cols + 2 - 1) / 2))))
    (fun j s => s.n_rows = acc.n_rows ∧ s.n_cols = acc.n_cols ∧
      ∀ r c, r < ohp → s.at_ r c = acc.at_ r c + sumTo j (fun a =>
        sumTo ((ic.n_cols + 2 - 1) / 2) (fun b =>
          if tileWrites ic.n_rows ic.n_cols ohp owp (a * 2) (b * 2) r c then corr3x3 kg ic r c
          else 0)))
  · exact ⟨rfl, rfl, fun r c _ => by simp [sumTo]⟩
  · intro i s _ hP
    obtain ⟨h1, h2, h3⟩ := hP
    rw [List.foldl_map]
    obtain ⟨k1, k2, k3⟩ := tileRow_spec kg ic ohp owp s (i * 2) ((ic.n_cols + 2 - 1) / 2)
      (by rw [h1, hacc])
    refine ⟨by rw [k1, h1], by rw [k2, h2], ?_⟩
    intro r c hr
    rw [k3 r c hr, h3 r c hr]
    simp only [sumTo]
    ring

/-- With aligned sizes every accumulator cell is written by the tile at
`(2 * (r / 2), 2 * (c / 2))` and by no other. -/
theorem tileWrites_iff (H W r c a b : Nat) (hH : H % 2 = 0) (hW : W % 2 = 0)
    (hr : r + 2 < H) (hc : c + 2 < W) :
    tileWrites H W (H - 2) (W - 2) (a * 2) (b * 2) r c ↔ a = r / 2 ∧ b = c / 2 := by
  unfold tileWrites
  constructor
  · rintro ⟨_, _, h3, h4⟩
    omega
  · rintro ⟨h1, h2⟩
    subst h1 h2
    omega

/-- With aligned sizes the two tile loops add the correlation exactly once to
every cell of the accumulator. -/
theorem tileLoops_aligned (kg ic : Mat) (acc : Mat) (hH : ic.n_rows % 2 = 0)
    (hW : ic.n_cols % 2 = 0) (hacc : acc.n_rows = ic.n_rows - 2) (r c : Nat)
    (hr : r + 2 < ic.n_rows) (hc : c + 2 < ic.n_cols) :
    (tileLoops kg ic (ic.n_rows - 2) (ic.n_cols - 2) acc).at_ r c =
      acc.at_ r c + corr3x3 kg ic r c := by
  rw [(tileLoops_spec kg ic (ic.n_rows - 2) (ic.n_cols - 2) acc hacc).2.2 r c (by omega)]
  congr 1
  rw [sumTo_congr _ _ (fun a => if a = r / 2 then corr3x3 kg ic r c else 0)]
  · rw [sumTo_single, if_pos (by omega)]
  · intro a _
    rw [sumTo_congr _ _ (fun b => if b = c / 2 then (if a = r / 2 then corr3x3 kg ic r c else 0)
      else 0)]
    · rw [sumTo_single, if_pos (by omega)]
    · intro b _
      by_cases hb : b = c / 2
      · by_cases ha : a = r / 2
        · rw [if_pos ((tileWrites_iff _ _ _ _ _ _ hH hW hr hc).mpr ⟨ha, hb⟩), if_pos hb,
            if_pos ha]
        · rw [if_neg (fun hh => ha ((tileWrites_iff _ _ _ _ _ _ hH hW hr hc).mp hh).1),
            if_pos hb, if_neg ha]
      · rw [if_neg (fun hh => hb ((tileWrites_iff _ _ _ _ _ _ hH hW hr hc).mp hh).2),
          if_neg hb]

end ConvolutionLayer

namespace ConvolutionLayer

/-- The channel `ic` of a tensor as a matrix. -/
theorem Tensor_at_ok (t : Tensor) (ic : Nat) (h : ic < t.channels) :
    t.at_ ic = .ok { n_rows := t.rows, n_cols := t.cols, mem := t.mem ic } := by
  simp [Tensor.at_, h]

theorem winogradChannel_ok (input_ kernel : Tensor) (ohp owp : Nat) (acc : Mat) (ic : Nat)
    (h1 : ic < input_.channels) (h2 : ic < kernel.channels) (h3 : kernel.rows = 3)
    (h4 : kernel.cols = 3) (h5 : input_.rows % 4 = 0) (h6 : input_.cols % 4 = 0) :
    winogradChannel input_ kernel ohp owp acc ic =
      .ok (tileLoops { n_rows := kernel.rows, n_cols := kernel.cols, mem := kernel.mem ic }
        { n_rows := input_.rows, n_cols := input_.cols, mem := input_.mem ic } ohp owp acc) := by
  simp [winogradChannel, Tensor_at_ok, h1, h2, h3, h4, h5, h6, WinogradTransformG]

/-- The loop over the input channels accumulates the channel sum of the
correlations. -/
theorem winogradChannels_spec (input_ kernel : Tensor) (acc₀ : Mat) (n : Nat)
    (hn1 : n ≤ input_.channels) (hn2 : n ≤ kernel.channels) (h3 : kernel.rows = 3)
    (h4 : kernel.cols = 3) (h5 : input_.rows % 4 = 0) (h6 : input_.cols % 4 = 0)
    (hacc : acc₀.n_rows = input_.rows - 2) :
    ∃ acc, loopM (winogradChannel input_ kernel (input_.rows - 2) (input_.cols - 2))
        (List.range n) acc₀ = .ok acc ∧
      acc.n_rows = acc₀.n_rows ∧ acc.n_cols = acc₀.n_cols ∧
      ∀ r c, r + 2 < input_.rows → c + 2 < input_.cols →
        acc.at_ r c = acc₀.at_ r c + sumTo n (fun ic =>
          sumTo 3 (fun kh => sumTo 3 (fun kw =>
            kernel.get ic kh kw * input_.get ic (r + kh) (c + kw)))) := by
  apply loopM_range_ok (winogradChannel input_ kernel (input_.rows - 2) (input_.cols - 2))
    (fun j acc => acc.n_rows = acc₀.n_rows ∧ acc.n_cols = acc₀.n_cols ∧
      ∀ r c, r + 2 < input_.rows → c + 2 < input_.cols →
        acc.at_ r c = acc₀.at_ r c + sumTo j (fun ic =>
          sumTo 3 (fun kh => sumTo 3 (fun kw =>
            kernel.get ic kh kw * input_.get ic (r + kh) (c + kw)))))
  · exact ⟨rfl, rfl, fun r c _ _ => by simp [sumTo]⟩
  · intro i s hi hP
    obtain ⟨p1, p2, p3⟩ := hP
    refine ⟨_, winogradChannel_ok input_ kernel _ _ s i (by omega) (by omega) h3 h4 h5 h6, ?_⟩
    have hs : s.n_rows = input_.rows - 2 := by rw [p1, hacc]
    obtain ⟨q1, q2, _⟩ := tileLoops_spec
      { n_rows := kernel.rows, n_cols := kernel.cols, mem := kernel.mem i }
      { n_rows := input_.rows, n_cols := input_.cols, mem := input_.mem i }
      (input_.rows - 2) (input_.cols - 2) s hs
    refine ⟨by rw [q1, p1], by rw [q2, p2], ?_⟩
    intro r c hr hc
    have := tileLoops_aligned
      { n_rows := kernel.rows, n_cols := kernel.cols, mem := kernel.mem i }
      { n_rows := input_.rows, n_cols := input_.cols, mem := input_.mem i } s
      (by show input_.rows % 2 = 0; omega) (by show input_.cols % 2 = 0; omega) hs r c hr hc
    rw [this, p3 r c hr hc]
    simp only [sumTo, corr3x3, Mat.at_, Tensor.get]
    ring

/-- The clipped accumulator, once assigned, is read back cell by cell. -/
theorem clip_assign_spec (acc : Mat) (t : Tensor) (oc oh ow : Nat) (hoc : oc < t.channels)
    (hoh : 0 < oh) (how : 0 < ow) (hoh' : oh ≤ acc.n_rows) (how' : ow ≤ acc.n_cols)
    (hU1 : oh < U32) (hU2 : ow < U32) (ht1 : t.rows = oh) (ht2 : t.cols = ow) :
    ∃ clipped t', submat acc (sub32 oh 1) (sub32 ow 1) = .ok clipped ∧
      t.assign oc clipped = .ok t' ∧
      t'.channels = t.channels ∧ t'.rows = t.rows ∧ t'.cols = t.cols ∧
      (∀ ch, ch ≠ oc → t'.mem ch = t.mem ch) ∧
      ∀ r c, r < oh → t'.get oc r c = acc.at_ r c := by
  have e1 : sub32 oh 1 = oh - 1 := sub32_of_le hU1 hoh
  have e2 : sub32 ow 1 = ow - 1 := sub32_of_le hU2 how
  have e3 : oh - 1 + 1 = oh := by omega
  have e4 : ow - 1 + 1 = ow := by omega
  have c1 : oh - 1 < acc.n_rows ∧ ow - 1 < acc.n_cols := by omega
  refine ⟨Mat.mk (oh - 1 + 1) (ow - 1 + 1)
      (fun k => acc.mem (k % (oh - 1 + 1) + (k / (oh - 1 + 1)) * acc.n_rows)),
    Tensor.mk t.channels t.rows t.cols (fun ch => if ch = oc then
        (fun k => acc.mem (k % (oh - 1 + 1) + (k / (oh - 1 + 1)) * acc.n_rows)) else t.mem ch),
    ?_, ?_, rfl, rfl, rfl, ?_, ?_⟩
  · rw [e1, e2]
    simp only [submat, if_pos c1]
  · simp only [Tensor.assign, if_pos hoc, e3, e4, ht1, ht2, and_self, if_true]
  · intro ch hch
    simp only [if_neg hch]
  · intro r c hr
    simp only [Tensor.get, if_true, e3, ht1, Mat.at_, offset_mod c hr, offset_div c hr]

theorem winogradOutput_spec (L : ConvolutionLayer) (input_ : Tensor) (n oh ow : Nat) (t : Tensor)
    (oc : Nat) (kernel : Tensor) (hk : L.weights_[oc]? = some kernel) (hoc : oc < t.channels)
    (hn1 : n ≤ input_.channels) (hn2 : n ≤ kernel.channels) (h3 : kernel.rows = 3)
    (h4 : kernel.cols = 3) (h5 : input_.rows % 4 = 0) (h6 : input_.cols % 4 = 0)
    (hoh : 0 < oh) (how : 0 < ow) (hoh' : oh + 2 ≤ input_.rows) (how' : ow + 2 ≤ input_.cols)
    (hU1 : oh < U32) (hU2 : ow < U32) (ht1 : t.rows = oh) (ht2 : t.cols = ow) :
    ∃ t', winogradOutput L input_ n oh ow (input_.rows - 2) (input_.cols - 2) t oc = .ok t' ∧
      t'.channels = t.channels ∧ t'.rows = t.rows ∧ t'.cols = t.cols ∧
      (∀ ch, ch ≠ oc → t'.mem ch = t.mem ch) ∧
      ∀ r c, r < oh → c < ow →
        t'.get oc r c = sumTo n (fun ic =>
          sumTo 3 (fun kh => sumTo 3 (fun kw =>
            kernel.get ic kh kw * input_.get ic (r + kh) (c + kw)))) := by
  have hlen : oc < L.weights_.length := by
    rcases Nat.lt_or_ge oc L.weights_.length with h | h
    · exact h
    · rw [List.getElem?_eq_none h] at hk; cases hk
  obtain ⟨acc, a1, a2, a3, a4⟩ := winogradChannels_spec input_ kernel
    { n_rows := input_.rows - 2, n_cols := input_.cols - 2, mem := fun _ => 0 } n hn1 hn2 h3 h4
    h5 h6 rfl
  obtain ⟨clipped, t', b1, b2, b3, b4, b5, b6, b7⟩ := clip_assign_spec acc t oc oh ow hoc hoh how
    (by rw [a2]; show oh ≤ input_.rows - 2; omega) (by rw [a3]; show ow ≤ input_.cols - 2; omega)
    hU1 hU2 ht1 ht2
  refine ⟨t', ?_, b3, b4, b5, b6, ?_⟩
  · simp only [winogradOutput, hk, Tensor.create, Tensor.at_, if_pos hlen, if_pos hoc, a1, b1, b2]
  · intro r c hr hc
    rw [b7 r c hr, a4 r c (by omega) (by omega)]
    simp [Mat.at_]

end ConvolutionLayer

namespace ConvolutionLayer

/-- The loop over the output channels of the Winograd branch. -/
theorem winogradOutputs_spec (L : ConvolutionLayer) (input_ : Tensor) (n oh ow : Nat)
    (y : Tensor) (m : Nat) (hm : m ≤ y.channels)
    (hw : ∀ w ∈ L.weights_, w.rows = 3 ∧ w.cols = 3 ∧ n ≤ w.channels)
    (hm' : m ≤ L.weights_.length)
    (hn1 : n ≤ input_.channels) (h5 : input_.rows % 4 = 0) (h6 : input_.cols % 4 = 0)
    (hoh : 0 < oh) (how : 0 < ow) (hoh' : oh + 2 ≤ input_.rows) (how' : ow + 2 ≤ input_.cols)
    (hU1 : oh < U32) (hU2 : ow < U32) (ht1 : y.rows = oh) (ht2 : y.cols = ow) :
    ∃ y', loopM (winogradOutput L input_ n oh ow (input_.rows - 2) (input_.cols - 2))
        (List.range m) y = .ok y' ∧
      y'.channels = y.channels ∧ y'.rows = y.rows ∧ y'.cols = y.cols ∧
      ∀ oc kernel, oc < m → L.weights_[oc]? = some kernel → ∀ r c, r < oh → c < ow →
        y'.get oc r c = sumTo n (fun ic =>
          sumTo 3 (fun kh => sumTo 3 (fun kw =>
            kernel.get ic kh kw * input_.get ic (r + kh) (c + kw)))) := by
  apply loopM_range_ok (winogradOutput L input_ n oh ow (input_.rows - 2) (input_.cols - 2))
    (fun j t => t.channels = y.channels ∧ t.rows = y.rows ∧ t.cols = y.cols ∧
      ∀ oc kernel, oc < j → L.weights_[oc]? = some kernel → ∀ r c, r < oh → c < ow →
        t.get oc r c = sumTo n (fun ic =>
          sumTo 3 (fun kh => sumTo 3 (fun kw =>
            kernel.get ic kh kw * input_.get ic (r + kh) (c + kw)))))
  · exact ⟨rfl, rfl, rfl, fun oc kernel hoc => absurd hoc (Nat.not_lt_zero oc)⟩
  · intro i t hi hP
    obtain ⟨p1, p2, p3, p4⟩ := hP
    have hlen : i < L.weights_.length := by omega
    have hk : L.weights_[i]? = some (L.weights_[i]) := List.getElem?_eq_getElem hlen
    obtain ⟨k1, k2, k3⟩ := hw (L.weights_[i]) (List.getElem_mem hlen)
    obtain ⟨t', q1, q2, q3, q4, q5, q6⟩ := winogradOutput_spec L input_ n oh ow t i
      (L.weights_[i]) hk (by omega) hn1 k3 k1 k2 h5 h6 hoh how hoh' how' hU1 hU2
      (by rw [p2, ht1]) (by rw [p3, ht2])
    refine ⟨t', q1, by rw [q2, p1], by rw [q3, p2], by rw [q4, p3], ?_⟩
    intro oc kernel hoc hker r c hr hc
    rcases Nat.lt_or_ge oc i with hlt | hge
    · have hne : oc ≠ i := by omega
      have := p4 oc kernel hlt hker r c hr hc
      rw [← this]
      simp only [Tensor.get, q5 oc hne, q3]
    · have heq : oc = i := by omega
      subst heq
      rw [hk] at hker
      cases hker
      exact q6 r c hr hc

/-- The alignment padding (bottom and right only) leaves the cells of the
tensor where they were. -/
theorem Padding_get (t : Tensor) (bottom right : Nat) (v : Int) (ch r c : Nat)
    (hr : r < t.rows) (hc : c < t.cols) :
    (t.Padding 0 bottom 0 right v).get ch r c = t.get ch r c := by
  have hr' : r < t.rows + 0 + bottom := by omega
  simp only [Tensor.get, Tensor.Padding, offset_mod c hr', offset_div c hr']
  simp [hr, hc]

/-- The Winograd branch on a valid call: it succeeds and every cell of every
output channel is the channel sum of the 3x3 correlations. -/
theorem winogradBranch_spec (L : ConvolutionLayer) (input_ y : Tensor)
    (hw : ∀ w ∈ L.weights_, w.rows = 3 ∧ w.cols = 3 ∧ w.channels = input_.channels)
    (h3r : 3 ≤ input_.rows) (h3c : 3 ≤ input_.cols)
    (hUr : input_.rows + 4 < U32) (hUc : input_.cols + 4 < U32)
    (hy1 : y.rows = input_.rows - 2) (hy2 : y.cols = input_.cols - 2)
    (hy3 : L.weights_.length ≤ y.channels) :
    ∃ y', winogradBranch L input_ (some y) input_.rows input_.cols input_.channels 3
        (input_.rows - 2) (input_.cols - 2) =
          .ok (input_.Padding 0 (4 - input_.rows % 4) 0 (4 - input_.cols % 4) 0, some y') ∧
      y'.channels = y.channels ∧ y'.rows = y.rows ∧ y'.cols = y.cols ∧
      ∀ oc kernel, L.weights_[oc]? = some kernel →
        ∀ r c, r < input_.rows - 2 → c < input_.cols - 2 →
          y'.get oc r c = sumTo input_.channels (fun ic =>
            sumTo 3 (fun kh => sumTo 3 (fun kw =>
              kernel.get ic kh kw * input_.get ic (r + kh) (c + kw)))) := by
  have hU : U32 = 4294967296 := rfl
  have hPr : (input_.Padding 0 (4 - input_.rows % 4) 0 (4 - input_.cols % 4) 0).rows =
      input_.rows + (4 - input_.rows % 4) := by simp [Tensor.Padding]
  have hPc : (input_.Padding 0 (4 - input_.rows % 4) 0 (4 - input_.cols % 4) 0).cols =
      input_.cols + (4 - input_.cols % 4) := by simp [Tensor.Padding]
  have hPch : (input_.Padding 0 (4 - input_.rows % 4) 0 (4 - input_.cols % 4) 0).channels =
      input_.channels := rfl
  have e1 : u32 (sub32 (u32 ((4 - input_.rows % 4) + input_.rows)) 3 + 1) =
      (input_.Padding 0 (4 - input_.rows % 4) 0 (4 - input_.cols % 4) 0).rows - 2 := by
    have a1 : u32 ((4 - input_.rows % 4) + input_.rows) = (4 - input_.rows % 4) + input_.rows :=
      u32_of_lt (by omega)
    have a2 : sub32 ((4 - input_.rows % 4) + input_.rows) 3 =
        (4 - input_.rows % 4) + input_.rows - 3 := sub32_of_le (by omega) (by omega)
    have a3 : u32 ((4 - input_.rows % 4) + input_.rows - 3 + 1) =
        (4 - input_.rows % 4) + input_.rows - 3 + 1 := u32_of_lt (by omega)
    rw [hPr, a1, a2, a3]
    omega
  have e2 : u32 (sub32 (u32 ((4 - input_.cols % 4) + input_.cols)) 3 + 1) =
      (input_.Padding 0 (4 - input_.rows % 4) 0 (4 - input_.cols % 4) 0).cols - 2 := by
    have a1 : u32 ((4 - input_.cols % 4) + input_.cols) = (4 - input_.cols % 4) + input_.cols :=
      u32_of_lt (by omega)
    have a2 : sub32 ((4 - input_.cols % 4) + input_.cols) 3 =
        (4 - input_.cols % 4) + input_.cols - 3 := sub32_of_le (by omega) (by omega)
    have a3 : u32 ((4 - input_.cols % 4) + input_.cols - 3 + 1) =
        (4 - input_.cols % 4) + input_.cols - 3 + 1 := u32_of_lt (by omega)
    rw [hPc, a1, a2, a3]
    omega
  obtain ⟨y', q1, q2, q3, q4, q5⟩ := winogradOutputs_spec L
    (input_.Padding 0 (4 - input_.rows % 4) 0 (4 - input_.cols % 4) 0) input_.channels
    (input_.rows - 2) (input_.cols - 2) y L.weights_.length hy3
    (fun w hmem => by
      obtain ⟨a, b, c⟩ := hw w hmem
      exact ⟨a, b, by omega⟩)
    (Nat.le_refl _) (by rw [hPch]) (by rw [hPr]; omega) (by rw [hPc]; omega)
    (by omega) (by omega) (by rw [hPr]; omega) (by rw [hPc]; omega) (by omega) (by omega)
    hy1 hy2
  refine ⟨y', ?_, q2, q3, q4, ?_⟩
  · simp only [winogradBranch, e1, e2, q1]
  · intro oc kernel hk r c hr hc
    have hoc : oc < L.weights_.length := by
      rcases Nat.lt_or_ge oc L.weights_.length with h | h
      · exact h
      · rw [List.getElem?_eq_none h] at hk; cases hk
    rw [q5 oc kernel hoc hk r c hr hc]
    apply sumTo_congr
    intro ic _
    apply sumTo_congr
    intro kh hkh
    apply sumTo_congr
    intro kw hkw
    rw [Padding_get _ _ _ _ _ _ _ (by omega) (by omega)]

end ConvolutionLayer

namespace ConvolutionLayer

theorem paddedInput_rows (L : ConvolutionLayer) (x : Tensor) :
    (paddedInput L x).1.rows = x.rows + 2 * L.padding_h_ := by
  unfold paddedInput
  split_ifs with h
  · simp only [Tensor.Padding, Tensor.Clone]; omega
  · simp only; omega

theorem paddedInput_cols (L : ConvolutionLayer) (x : Tensor) :
    (paddedInput L x).1.cols = x.cols + 2 * L.padding_w_ := by
  unfold paddedInput
  split_ifs with h
  · simp only [Tensor.Padding, Tensor.Clone]; omega
  · simp only; omega

theorem paddedInput_channels (L : ConvolutionLayer) (x : Tensor) :
    (paddedInput L x).1.channels = x.channels := by
  unfold paddedInput
  split_ifs with h <;> rfl

/-- The output size of lines 80-81 when nothing wraps around. -/
theorem outputSize_eq (input kernel stride : Nat) (h1 : kernel ≤ input) (h2 : input < U32)
    (h3 : (input - kernel) / stride + 1 < U32) :
    outputSize input kernel stride = (input - kernel) / stride + 1 := by
  unfold outputSize
  rw [sub32_of_le h2 h1, u32_of_lt h3]

/-- Every accumulator cell is written by exactly one of the tiles the loops
visit. -/
theorem tile_unique (H W r c : Nat) (hH : H % 2 = 0) (hW : W % 2 = 0) (hr : r + 2 < H)
    (hc : c + 2 < W) :
    ∃! t : Nat × Nat, t.1 ∈ steps H 2 ∧ t.2 ∈ steps W 2 ∧
      tileWrites H W (H - 2) (W - 2) t.1 t.2 r c := by
  refine ⟨(r / 2 * 2, c / 2 * 2), ⟨?_, ?_, ?_⟩, ?_⟩
  · simp only [steps, List.mem_map, List.mem_range]
    exact ⟨r / 2, by omega, rfl⟩
  · simp only [steps, List.mem_map, List.mem_range]
    exact ⟨c / 2, by omega, rfl⟩
  · exact (tileWrites_iff H W r c (r / 2) (c / 2) hH hW hr hc).mpr ⟨rfl, rfl⟩
  · rintro ⟨t1, t2⟩ ⟨h1, h2, h3⟩
    simp only [steps, List.mem_map, List.mem_range] at h1 h2
    obtain ⟨a, _, ha⟩ := h1
    obtain ⟨b, _, hb⟩ := h2
    subst ha hb
    obtain ⟨e1, e2⟩ := (tileWrites_iff H W r c a b hH hW hr hc).mp h3
    subst e1 e2
    rfl

/-- A round of the batch loop that takes the Winograd branch, on a valid
call. -/
theorem forwardBody_winograd (L : ConvolutionLayer) (input_ y : Tensor)
    (hs1 : L.stride_h_ = 1) (hs2 : L.stride_w_ = 1) (hg : L.groups_ = 1)
    (hw0 : L.weights_ ≠ [])
    (hw : ∀ w ∈ L.weights_, w.rows = 3 ∧ w.cols = 3 ∧ w.channels = input_.channels)
    (h3r : 3 ≤ input_.rows) (h3c : 3 ≤ input_.cols)
    (hUr : input_.rows + 4 < U32) (hUc : input_.cols + 4 < U32)
    (hy1 : y.rows = input_.rows - 2) (hy2 : y.cols = input_.cols - 2)
    (hy3 : L.weights_.length ≤ y.channels) :
    ∃ y', forwardBody L input_ (some y) =
          .ok (input_.Padding 0 (4 - input_.rows % 4) 0 (4 - input_.cols % 4) 0, some y') ∧
      y'.channels = y.channels ∧ y'.rows = y.rows ∧ y'.cols = y.cols ∧
      ∀ oc kernel, L.weights_[oc]? = some kernel →
        ∀ r c, r < input_.rows - 2 → c < input_.cols - 2 →
          y'.get oc r c = sumTo input_.channels (fun ic =>
            sumTo 3 (fun kh => sumTo 3 (fun kw =>
              kernel.get ic kh kw * input_.get ic (r + kh) (c + kw)))) := by
  have hU : U32 = 4294967296 := rfl
  obtain ⟨y', q1, q2⟩ := winogradBranch_spec L input_ y hw h3r h3c hUr hUc hy1 hy2 hy3
  refine ⟨y', ?_, q2⟩
  cases hws : L.weights_ with
  | nil => exact absurd hws hw0
  | cons kernel0 rest =>
    obtain ⟨k1, k2, k3⟩ := hw kernel0 (by rw [hws]; exact List.mem_cons_self _ _)
    have o1 : outputSize input_.rows kernel0.rows L.stride_h_ = input_.rows - 2 := by
      rw [k1, hs1, outputSize_eq _ _ _ h3r (by omega) (by rw [Nat.div_one]; omega), Nat.div_one]
      omega
    have o2 : outputSize input_.cols kernel0.cols L.stride_w_ = input_.cols - 2 := by
      rw [k2, hs2, outputSize_eq _ _ _ h3c (by omega) (by rw [Nat.div_one]; omega), Nat.div_one]
      omega
    have c1 : checkGroups L L.weights_.length input_.channels = .ok () :=
      (checkGroups_ok_iff L _ _).mpr (fun h => absurd hg h)
    have c2 : checkKernels L kernel0.rows kernel0.cols input_.channels L.weights_ = .ok () := by
      rw [checkKernels_ok_iff]
      intro w hmem
      obtain ⟨a, b, c⟩ := hw w hmem
      refine ⟨by rw [a, k1], by rw [b, k2], by rw [hg]; decide, by rw [hg, Nat.div_one]; exact c⟩
    have c3 : useWinograd L kernel0.rows kernel0.cols = true := by
      simp [useWinograd, hs1, hs2, hg, k1, k2]
    have hpos : outputSize input_.rows kernel0.rows L.stride_h_ > 0 ∧
        outputSize input_.cols kernel0.cols L.stride_w_ > 0 := by
      rw [o1, o2]; omega
    rw [hws] at c1 c2
    simp only [forwardBody, hws, if_neg (not_not.mpr hpos), c1, c2, c3, if_true]
    rw [o1, o2, k1]
    exact q1

end ConvolutionLayer

/-! ### The generic branch: weight rows -/

theorem block_lt {n a b q : Nat} (ha : a < b) (hq : q < n) : n * a + q < n * b := by
  have h : n * (a + 1) ≤ n * b := Nat.mul_le_mul_left n ha
  rw [Nat.mul_succ] at h
  omega

theorem memcpyM_inv (dst : Mat) (d : Nat) (src : Mat) (s n : Nat) (m : Mat)
    (h : memcpyM dst d src s n = .ok m) :
    m.n_rows = dst.n_rows ∧ m.n_cols = dst.n_cols ∧
      (∀ k, d ≤ k → k < d + n → m.mem k = src.mem (s + (k - d))) ∧
      (∀ k, k < d ∨ d + n ≤ k → m.mem k = dst.mem k) ∧
      d + n ≤ dst.n_rows * dst.n_cols ∧ s + n ≤ src.n_rows * src.n_cols := by
  unfold memcpyM at h
  split_ifs at h with hc
  cases h
  refine ⟨rfl, rfl, ?_, ?_, hc.1, hc.2⟩
  · intro k h1 h2
    simp only [memcpy, if_pos (And.intro h1 h2)]
  · intro k hk
    have : ¬ (d ≤ k ∧ k < d + n) := by omega
    simp only [memcpy, if_neg this]

namespace ConvolutionLayer

/-- A successful `weightRow` leaves in the row buffer the weights of the
kernel, channel after channel. -/
theorem weightRow_inv (kernel : Tensor) (row_len n : Nat) (buf m : Mat)
    (h : weightRow kernel row_len n buf = .ok m) :
    m.n_rows = buf.n_rows ∧ m.n_cols = buf.n_cols ∧
      ∀ ic q, ic < n → q < row_len → m.mem (row_len * ic + q) = kernel.mem ic q := by
  unfold weightRow at h
  refine loopM_range_inv _
    (fun j (s : Mat) => s.n_rows = buf.n_rows ∧ s.n_cols = buf.n_cols ∧
      ∀ ic q, ic < j → q < row_len → s.mem (row_len * ic + q) = kernel.mem ic q)
    n buf ⟨rfl, rfl, fun ic q hic => absurd hic (Nat.not_lt_zero ic)⟩ ?_ m h
  intro i s s' _ hP hstep
  obtain ⟨p1, p2, p3⟩ := hP
  simp only at hstep
  cases hat : kernel.at_ i with
  | error e => rw [hat] at hstep; cases hstep
  | ok kc =>
    rw [hat] at hstep
    simp only at hstep
    have hkc : kc.mem = kernel.mem i := by
      unfold Tensor.at_ at hat
      split_ifs at hat
      cases hat
      rfl
    obtain ⟨q1, q2, q3, q4, _, _⟩ := memcpyM_inv _ _ _ _ _ _ hstep
    refine ⟨by rw [q1, p1], by rw [q2, p2], ?_⟩
    intro ic q hic hq
    rcases Nat.lt_or_ge ic i with hlt | hge
    · rw [q4 _ (Or.inl (block_lt hlt hq))]
      exact p3 ic q hlt hq
    · have heq : ic = i := by omega
      subst heq
      rw [q3 _ (by omega) (by omega), hkc]
      congr 1
      omega

/-- A successful `kernelRows` holds one row per output channel of the group,
with the flattened weights of that channel. -/
theorem kernelRows_inv (L : ConvolutionLayer) (g kcg row_len icg : Nat) (arr : List Mat)
    (h : kernelRows L g kcg row_len icg = .ok arr) :
    ∀ k, k < kcg → ∃ row kernel, arr[k]? = some row ∧ L.weights_[k + g * kcg]? = some kernel ∧
      row.n_rows = 1 ∧ row.n_cols = row_len * icg ∧
      ∀ ic q, ic < icg → q < row_len → row.mem (row_len * ic + q) = kernel.mem ic q := by
  unfold kernelRows at h
  cases hl : loopM
      (fun (st : Mat × List Mat) k =>
        match L.weights_[k + g * kcg]? with
        | none => Except.error Fault.vectorAt
        | some kernel =>
          match weightRow kernel row_len icg st.1 with
          | .error e => .error e
          | .ok m => .ok (m, st.2 ++ [m]))
      (List.range kcg) (Mat.zeros 1 (row_len * icg), []) with
  | error e => rw [hl] at h; cases h
  | ok st =>
    rw [hl] at h
    cases h
    have key := loopM_range_inv _
      (fun j (s : Mat × List Mat) => s.1.n_rows = 1 ∧ s.1.n_cols = row_len * icg ∧
        s.2.length = j ∧
        ∀ k, k < j → ∃ row kernel, s.2[k]? = some row ∧
          L.weights_[k + g * kcg]? = some kernel ∧
          row.n_rows = 1 ∧ row.n_cols = row_len * icg ∧
          ∀ ic q, ic < icg → q < row_len → row.mem (row_len * ic + q) = kernel.mem ic q)
      kcg (Mat.zeros 1 (row_len * icg), [])
      ⟨rfl, rfl, rfl, fun k hk => absurd hk (Nat.not_lt_zero k)⟩ ?_ st hl
    · exact key.2.2.2
    · intro i s s' _ hP hstep
      obtain ⟨p1, p2, p3, p4⟩ := hP
      simp only at hstep
      cases hw : L.weights_[i + g * kcg]? with
      | none => rw [hw] at hstep; cases hstep
      | some kernel =>
        rw [hw] at hstep
        simp only at hstep
        cases hr : weightRow kernel row_len icg s.1 with
        | error e => rw [hr] at hstep; cases hstep
        | ok m =>
          rw [hr] at hstep
          cases hstep
          obtain ⟨q1, q2, q3⟩ := weightRow_inv kernel row_len icg s.1 m hr
          refine ⟨by rw [q1, p1], by rw [q2, p2], by simp [p3], ?_⟩
          intro k hk
          rcases Nat.lt_or_ge k i with hlt | hge
          · obtain ⟨row, ker, a1, a2⟩ := p4 k hlt
            refine ⟨row, ker, ?_, a2⟩
            rw [List.getElem?_append_left (by omega)]
            exact a1
          · have heq : k = i := by omega
            subst heq
            refine ⟨m, kernel, ?_, hw, by rw [q1, p1], by rw [q2, p2], q3⟩
            rw [List.getElem?_append_right (by omega), p3]
            simp

end ConvolutionLayer

/-! ### The generic branch: the im2col fill -/

theorem block_lt_right {n a b q : Nat} (ha : a < b) (hq : q < n) : a * n + q < b * n := by
  rw [Nat.mul_comm a n, Nat.mul_comm b n]
  exact block_lt ha hq

namespace ConvolutionLayer

/-- The loop over the kernel columns at one window position appends
`kernel_w` runs of `kernel_h` values to the buffer. -/
theorem im2colWindow_inv (ic : Mat) (kernel_h kernel_w c r : Nat) (m₀ : Mat) (off₀ : Nat)
    (res : Mat × Nat) (h : im2colWindow ic kernel_h kernel_w c r (m₀, off₀) = .ok res) :
    res.2 = off₀ + kernel_w ∧ res.1.n_rows = m₀.n_rows ∧ res.1.n_cols = m₀.n_cols ∧
      (∀ o kh, o < off₀ → kh < kernel_h →
        res.1.mem (o * kernel_h + kh) = m₀.mem (o * kernel_h + kh)) ∧
      (∀ kw kh, kw < kernel_w → kh < kernel_h →
        res.1.mem ((off₀ + kw) * kernel_h + kh) = ic.mem ((c + kw) * ic.n_rows + r + kh)) := by
  unfold im2colWindow at h
  refine loopM_range_inv _
    (fun j (s : Mat × Nat) => s.2 = off₀ + j ∧ s.1.n_rows = m₀.n_rows ∧
      s.1.n_cols = m₀.n_cols ∧
      (∀ o kh, o < off₀ → kh < kernel_h →
        s.1.mem (o * kernel_h + kh) = m₀.mem (o * kernel_h + kh)) ∧
      (∀ kw kh, kw < j → kh < kernel_h →
        s.1.mem ((off₀ + kw) * kernel_h + kh) = ic.mem ((c + kw) * ic.n_rows + r + kh)))
    kernel_w (m₀, off₀)
    ⟨rfl, rfl, rfl, fun _ _ _ _ => rfl, fun kw _ hkw => absurd hkw (Nat.not_lt_zero kw)⟩ ?_ res h
  intro i s s' _ hP hstep
  obtain ⟨p1, p2, p3, p4, p5⟩ := hP
  simp only at hstep
  cases hm : memcpyM s.1 (s.2 * kernel_h) ic ((c + i) * ic.n_rows + r) kernel_h with
  | error e => rw [hm] at hstep; cases hstep
  | ok m =>
    rw [hm] at hstep
    cases hstep
    obtain ⟨q1, q2, q3, q4, _, _⟩ := memcpyM_inv _ _ _ _ _ _ hm
    refine ⟨by simp only [p1]; omega, by rw [q1, p2], by rw [q2, p3], ?_, ?_⟩
    · intro o kh ho hkh
      rw [q4 _ (Or.inl (by rw [p1]; exact block_lt_right (by omega) hkh))]
      exact p4 o kh ho hkh
    · intro kw kh hkw hkh
      rcases Nat.lt_or_ge kw i with hlt | hge
      · rw [q4 _ (Or.inl (by rw [p1]; exact block_lt_right (by omega) hkh))]
        exact p5 kw kh hlt hkh
      · have heq : kw = i := by omega
        subst heq
        rw [q3 _ (by rw [p1]; omega) (by rw [p1]; omega), p1]
        congr 1
        omega

/-- The loop over the window rows of one window column. -/
theorem im2colColumn_inv (ic : Mat) (kernel_h kernel_w c stride n : Nat) (m₀ : Mat)
    (off₀ : Nat) (res : Mat × Nat)
    (h : loopM (fun st r => im2colWindow ic kernel_h kernel_w c r st)
      ((List.range n).map (fun i => i * stride)) (m₀, off₀) = .ok res) :
    res.2 = off₀ + n * kernel_w ∧ res.1.n_rows = m₀.n_rows ∧ res.1.n_cols = m₀.n_cols ∧
      (∀ o kh, o < off₀ → kh < kernel_h →
        res.1.mem (o * kernel_h + kh) = m₀.mem (o * kernel_h + kh)) ∧
      (∀ ri kw kh, ri < n → kw < kernel_w → kh < kernel_h →
        res.1.mem ((off₀ + ri * kernel_w + kw) * kernel_h + kh) =
          ic.mem ((c + kw) * ic.n_rows + ri * stride + kh)) := by
  rw [loopM_map] at h
  refine loopM_range_inv _
    (fun j (s : Mat × Nat) => s.2 = off₀ + j * kernel_w ∧ s.1.n_rows = m₀.n_rows ∧
      s.1.n_cols = m₀.n_cols ∧
      (∀ o kh, o < off₀ → kh < kernel_h →
        s.1.mem (o * kernel_h + kh) = m₀.mem (o * kernel_h + kh)) ∧
      (∀ ri kw kh, ri < j → kw < kernel_w → kh < kernel_h →
        s.1.mem ((off₀ + ri * kernel_w + kw) * kernel_h + kh) =
          ic.mem ((c + kw) * ic.n_rows + ri * stride + kh)))
    n (m₀, off₀)
    ⟨by simp, rfl, rfl, fun _ _ _ _ => rfl, fun ri _ _ hri => absurd hri (Nat.not_lt_zero ri)⟩
    ?_ res h
  intro i s s' _ hP hstep
  obtain ⟨p1, p2, p3, p4, p5⟩ := hP
  obtain ⟨q1, q2, q3, q4, q5⟩ := im2colWindow_inv ic kernel_h kernel_w c (i * stride) s.1 s.2 s'
    hstep
  refine ⟨by rw [q1, p1, Nat.succ_mul]; omega, by rw [q2, p2], by rw [q3, p3], ?_, ?_⟩
  · intro o kh ho hkh
    rw [q4 o kh (by rw [p1]; omega) hkh]
    exact p4 o kh ho hkh
  · intro ri kw kh hri hkw hkh
    rcases Nat.lt_or_ge ri i with hlt | hge
    · have hlt' : off₀ + ri * kernel_w + kw < s.2 := by
        rw [p1]
        have := block_lt_right hlt hkw
        omega
      rw [q4 _ kh hlt' hkh]
      exact p5 ri kw kh hlt hkw hkh
    · have heq : ri = i := by omega
      subst heq
      rw [← p1]
      exact q5 kw kh hkw hkh

/-- The im2col fill of one input channel: window `(ri, ci)` (row `ri * stride_h`,
column `ci * stride_w`) occupies position `ci * n_r + ri` of the buffer, one run
of `kernel_h` values per kernel column. -/
theorem im2colFill_inv (ic : Mat) (kernel_h kernel_w stride_h stride_w n_r n_c : Nat)
    (m₀ : Mat) (res : Mat × Nat)
    (h : loopM
      (fun st c =>
        loopM (fun st r => im2colWindow ic kernel_h kernel_w c r st)
          ((List.range n_r).map (fun i => i * stride_h)) st)
      ((List.range n_c).map (fun i => i * stride_w)) (m₀, 0) = .ok res) :
    res.1.n_rows = m₀.n_rows ∧ res.1.n_cols = m₀.n_cols ∧
      ∀ ci ri kw kh, ci < n_c → ri < n_r → kw < kernel_w → kh < kernel_h →
        res.1.mem (((ci * n_r + ri) * kernel_w + kw) * kernel_h + kh) =
          ic.mem ((ci * stride_w + kw) * ic.n_rows + ri * stride_h + kh) := by
  rw [loopM_map] at h
  have key := loopM_range_inv _
    (fun j (s : Mat × Nat) => s.2 = j * n_r * kernel_w ∧ s.1.n_rows = m₀.n_rows ∧
      s.1.n_cols = m₀.n_cols ∧
      ∀ ci ri kw kh, ci < j → ri < n_r → kw < kernel_w → kh < kernel_h →
        s.1.mem (((ci * n_r + ri) * kernel_w + kw) * kernel_h + kh) =
          ic.mem ((ci * stride_w + kw) * ic.n_rows + ri * stride_h + kh))
    n_c (m₀, 0)
    ⟨by simp, rfl, rfl, fun ci _ _ _ hci => absurd hci (Nat.not_lt_zero ci)⟩ ?_ res h
  · exact ⟨key.2.1, key.2.2.1, key.2.2.2⟩
  · intro i s s' _ hP hstep
    obtain ⟨p1, p2, p3, p4⟩ := hP
    obtain ⟨q1, q2, q3, q4, q5⟩ := im2colColumn_inv ic kernel_h kernel_w (i * stride_w) stride_h
      n_r s.1 s.2 s' hstep
    refine ⟨by rw [q1, p1]; ring, by rw [q2, p2], by rw [q3, p3], ?_⟩
    intro ci ri kw kh hci hri hkw hkh
    rcases Nat.lt_or_ge ci i with hlt | hge
    · have h1 : ci * n_r + ri < i * n_r := block_lt_right hlt hri
      have h2 : (ci * n_r + ri) * kernel_w + kw < s.2 := by
        rw [p1]
        exact block_lt_right h1 hkw
      rw [q4 _ kh h2 hkh]
      exact p4 ci ri kw kh hlt hri hkw hkh
    · have heq : ci = i := by omega
      subst heq
      have := q5 ri kw kh hri hkw hkh
      rw [p1] at this
      rw [show (ci * n_r + ri) * kernel_w + kw = ci * n_r * kernel_w + ri * kernel_w + kw by ring]
      exact this

end ConvolutionLayer

namespace ConvolutionLayer

theorem setRows_inv (M : Mat) (first_row : Nat) (block M' : Mat)
    (h : setRows M first_row block = .ok M') :
    M'.n_rows = M.n_rows ∧ M'.n_cols = M.n_cols ∧
      ∀ k, M'.mem k =
        if first_row ≤ k % M.n_rows ∧ k % M.n_rows < first_row + block.n_rows ∧
            k / M.n_rows < block.n_cols then
          block.mem ((k % M.n_rows - first_row) + (k / M.n_rows) * block.n_rows)
        else M.mem k := by
  unfold setRows at h
  split_ifs at h
  cases h
  exact ⟨rfl, rfl, fun _ => rfl⟩

/-- A successful im2col of group `g`: the row block of channel `ic` holds, in
column `ci * n_r + ri`, the receptive field of the window at row
`ri * stride_h` and column `ci * stride_w`, one kernel column after the
other. -/
theorem im2col_inv (L : ConvolutionLayer) (input_ : Tensor) (g icg row_len col_len input_h
    input_w kernel_h kernel_w : Nat) (M : Mat) (hrow : row_len = kernel_w * kernel_h)
    (h : im2col L input_ g icg row_len col_len input_h input_w kernel_h kernel_w = .ok M) :
    M.n_rows = icg * row_len ∧ M.n_cols = col_len ∧
      ∀ ic ci ri kw kh, ic < icg →
        ci < (u32 (sub32 input_w kernel_w + 1) + L.stride_w_ - 1) / L.stride_w_ →
        ri < (u32 (sub32 input_h kernel_h + 1) + L.stride_h_ - 1) / L.stride_h_ →
        kw < kernel_w → kh < kernel_h →
        ci * ((u32 (sub32 input_h kernel_h + 1) + L.stride_h_ - 1) / L.stride_h_) + ri <
          col_len →
        M.mem ((ic * row_len + (kw * kernel_h + kh)) +
            (ci * ((u32 (sub32 input_h kernel_h + 1) + L.stride_h_ - 1) / L.stride_h_) + ri) *
              (icg * row_len)) =
          input_.mem (ic + g * icg)
            ((ci * L.stride_w_ + kw) * input_.rows + ri * L.stride_h_ + kh) := by
  unfold im2col at h
  cases hl : loopM
      (fun (st : Mat × Mat) ic =>
        match input_.at_ (ic + g * icg) with
        | .error e => Except.error e
        | .ok input_channel =>
          match im2colChannel L input_channel input_h input_w kernel_h kernel_w st.2 with
          | .error e => .error e
          | .ok input_matrix_c =>
            match setRows st.1 (ic * row_len) input_matrix_c with
            | .error e => .error e
            | .ok input_matrix => .ok (input_matrix, input_matrix_c))
      (List.range icg) (Mat.zeros (icg * row_len) col_len, Mat.zeros row_len col_len) with
  | error e => rw [hl] at h; cases h
  | ok st =>
    rw [hl] at h
    cases h
    have key := loopM_range_inv _
      (fun j (s : Mat × Mat) => s.1.n_rows = icg * row_len ∧ s.1.n_cols = col_len ∧
        s.2.n_rows = row_len ∧ s.2.n_cols = col_len ∧
        ∀ ic ci ri kw kh, ic < j →
          ci < (u32 (sub32 input_w kernel_w + 1) + L.stride_w_ - 1) / L.stride_w_ →
          ri < (u32 (sub32 input_h kernel_h + 1) + L.stride_h_ - 1) / L.stride_h_ →
          kw < kernel_w → kh < kernel_h →
          ci * ((u32 (sub32 input_h kernel_h + 1) + L.stride_h_ - 1) / L.stride_h_) + ri <
            col_len →
          s.1.mem ((ic * row_len + (kw * kernel_h + kh)) +
              (ci * ((u32 (sub32 input_h kernel_h + 1) + L.stride_h_ - 1) / L.stride_h_) + ri) *
                (icg * row_len)) =
            input_.mem (ic + g * icg)
              ((ci * L.stride_w_ + kw) * input_.rows + ri * L.stride_h_ + kh))
      icg (Mat.zeros (icg * row_len) col_len, Mat.zeros row_len col_len)
      ⟨rfl, rfl, rfl, rfl, fun ic _ _ _ _ hic => absurd hic (Nat.not_lt_zero ic)⟩ ?_ st hl
    · exact ⟨key.1, key.2.1, fun ic ci ri kw kh hic => key.2.2.2.2 ic ci ri kw kh hic⟩
    · intro i s s' hi hP hstep
      obtain ⟨p1, p2, p3, p4, p5⟩ := hP
      simp only at hstep
      cases hat : input_.at_ (i + g * icg) with
      | error e => rw [hat] at hstep; cases hstep
      | ok input_channel =>
        rw [hat] at hstep
        simp only at hstep
        have hch : input_channel.mem = input_.mem (i + g * icg) ∧
            input_channel.n_rows = input_.rows := by
          unfold Tensor.at_ at hat
          split_ifs at hat
          cases hat
          exact ⟨rfl, rfl⟩
        cases hc : im2colChannel L input_channel input_h input_w kernel_h kernel_w s.2 with
        | error e => rw [hc] at hstep; cases hstep
        | ok C =>
          rw [hc] at hstep
          simp only at hstep
          cases hs : setRows s.1 (i * row_len) C with
          | error e => rw [hs] at hstep; cases hstep
          | ok M' =>
            rw [hs] at hstep
            cases hstep
            unfold im2colChannel steps at hc
            cases hf : loopM
                (fun st c =>
                  loopM (fun st r => im2colWindow input_channel kernel_h kernel_w c r st)
                    ((List.range
                      ((u32 (sub32 input_h kernel_h + 1) + L.stride_h_ - 1) / L.stride_h_)).map
                      (fun i => i * L.stride_h_)) st)
                ((List.range
                  ((u32 (sub32 input_w kernel_w + 1) + L.stride_w_ - 1) / L.stride_w_)).map
                  (fun i => i * L.stride_w_)) (s.2, 0) with
            | error e => rw [hf] at hc; cases hc
            | ok res =>
              rw [hf] at hc
              cases hc
              obtain ⟨f1, f2, f3⟩ := im2colFill_inv input_channel kernel_h kernel_w L.stride_h_
                L.stride_w_ _ _ s.2 res hf
              obtain ⟨r1, r2, r3⟩ := setRows_inv _ _ _ _ hs
              refine ⟨by rw [r1, p1], by rw [r2, p2], by rw [f1, p3], by rw [f2, p4], ?_⟩
              intro ic ci ri kw kh hic hci hri hkw hkh hcol
              have hq : kw * kernel_h + kh < row_len := by
                rw [hrow]
                exact block_lt_right hkw hkh
              have hlt : ic * row_len + (kw * kernel_h + kh) < icg * row_len :=
                block_lt_right (by omega) hq
              rw [r3, p1, offset_mod _ hlt, offset_div _ hlt, f1, p3, f2, p4]
              rcases Nat.lt_or_ge ic i with hlt' | hge
              · have hno : ¬ (i * row_len ≤ ic * row_len + (kw * kernel_h + kh) ∧
                    ic * row_len + (kw * kernel_h + kh) < i * row_len + row_len ∧
                    ci * ((u32 (sub32 input_h kernel_h + 1) + L.stride_h_ - 1) / L.stride_h_)
                      + ri < col_len) := by
                  intro hh
                  have := block_lt_right hlt' hq
                  omega
                rw [if_neg hno]
                exact p5 ic ci ri kw kh hlt' hci hri hkw hkh hcol
              · have heq : ic = i := by omega
                subst heq
                rw [if_pos ⟨by omega, by omega, hcol⟩]
                have := f3 ci ri kw kh hci hri hkw hkh
                rw [hch.1, hch.2] at this
                rw [← this]
                congr 1
                rw [hrow]
                have e : ic * (kernel_w * kernel_h) + (kw * kernel_h + kh) -
                    ic * (kernel_w * kernel_h) = kw * kernel_h + kh := by omega
                rw [e]
                ring

end ConvolutionLayer

/-! ### The generic branch: products and outputs -/

namespace ConvolutionLayer

theorem assign_inv (t : Tensor) (ch : Nat) (m : Mat) (t' : Tensor)
    (h : t.assign ch m = .ok t') :
    ch < t.channels ∧ m.n_rows = t.rows ∧ m.n_cols = t.cols ∧ t'.channels = t.channels ∧
      t'.rows = t.rows ∧ t'.cols = t.cols ∧ t'.mem ch = m.mem ∧
      ∀ ch', ch' ≠ ch → t'.mem ch' = t.mem ch' := by
  unfold Tensor.assign at h
  split_ifs at h with h1 h2
  cases h
  refine ⟨h1, h2.1, h2.2, rfl, rfl, rfl, by simp, ?_⟩
  intro ch' hne
  simp [hne]

/-- The number of iterates of a window loop is the output size. -/
theorem window_count (input kernel stride : Nat) (h1 : kernel ≤ input) (h2 : input + 1 < U32)
    (h3 : 0 < stride) :
    (u32 (sub32 input kernel + 1) + stride - 1) / stride = (input - kernel) / stride + 1 ∧
      outputSize input kernel stride = (input - kernel) / stride + 1 := by
  have hle : (input - kernel) / stride ≤ input - kernel := Nat.div_le_self _ _
  constructor
  · rw [sub32_of_le (by omega) h1, u32_of_lt (by omega)]
    have e : input - kernel + 1 + stride - 1 = input - kernel + stride := by omega
    rw [e, Nat.add_div_right _ h3]
  · exact outputSize_eq _ _ _ h1 (by omega) (by omega)

/-- What a successful round of the loop over the output channels of a group
went through. -/
theorem genericOutput_inv (L : ConvolutionLayer) (arr : List Mat) (M : Mat)
    (g kcg oh ow : Nat) (t : Tensor) (k : Nat) (t' : Tensor)
    (h : genericOutput L arr M g kcg oh ow t k = .ok t') :
    ∃ row biased, arr[k]? = some row ∧ row.n_cols = M.n_rows ∧
      row.n_rows * M.n_cols = u32 (oh * ow) ∧
      addBias L k (reshape
        { n_rows := row.n_rows, n_cols := M.n_cols,
          mem := fun p => sumTo row.n_cols (fun j => row.mem j * M.mem (j + p * M.n_rows)) }
        oh ow) = .ok biased ∧
      t.assign (k + g * kcg) biased = .ok t' := by
  unfold genericOutput at h
  cases ha : arr[k]? with
  | none => rw [ha] at h; cases h
  | some row =>
    rw [ha] at h
    simp only at h
    unfold rowTimes at h
    by_cases hd : row.n_cols ≠ M.n_rows
    · rw [if_pos hd] at h; cases h
    · rw [if_neg hd] at h
      simp only at h
      by_cases hc : row.n_rows * M.n_cols ≠ u32 (oh * ow)
      · rw [if_pos hc] at h; cases h
      · rw [if_neg hc] at h
        cases hb : addBias L k (reshape
            { n_rows := row.n_rows, n_cols := M.n_cols,
              mem := fun p => sumTo row.n_cols (fun j => row.mem j * M.mem (j + p * M.n_rows)) }
            oh ow) with
        | error e => rw [hb] at h; cases h
        | ok biased =>
          rw [hb] at h
          exact ⟨row, biased, rfl, not_not.mp hd, not_not.mp hc, hb, h⟩

theorem addBias_none (L : ConvolutionLayer) (k : Nat) (m : Mat) (hb : L.use_bias_ = false) :
    addBias L k m = .ok m := by
  simp [addBias, hb]

/-- What a successful round of the loop over the groups went through. -/
theorem genericGroup_inv (L : ConvolutionLayer) (input_ : Tensor)
    (input_h input_w input_c kernel_count kernel_h kernel_w oh ow row_len col_len : Nat)
    (s : Option Tensor) (g : Nat) (s' : Option Tensor)
    (h : genericGroup L input_ input_h input_w input_c kernel_count kernel_h kernel_w oh ow
      row_len col_len s g = .ok s') :
    ∃ arr M out out', kernelRows L g (kernel_count / L.groups_) row_len
          (input_c / L.groups_) = .ok arr ∧
      im2col L input_ g (input_c / L.groups_) row_len col_len input_h input_w kernel_h
          kernel_w = .ok M ∧
      s = some out ∧ out.channels = kernel_count ∧ out.rows = oh ∧ out.cols = ow ∧
      loopM (genericOutput L arr M g (kernel_count / L.groups_) oh ow)
          (List.range (kernel_count / L.groups_)) out = .ok out' ∧
      s' = some out' := by
  unfold genericGroup at h
  cases hk : kernelRows L g (kernel_count / L.groups_) row_len (input_c / L.groups_) with
  | error e => rw [hk] at h; cases h
  | ok arr =>
    rw [hk] at h
    simp only at h
    cases hi : im2col L input_ g (input_c / L.groups_) row_len col_len input_h input_w kernel_h
        kernel_w with
    | error e => rw [hi] at h; cases h
    | ok M =>
      rw [hi] at h
      simp only at h
      cases s with
      | none => cases h
      | some out =>
        simp only at h
        by_cases hc : out.channels = kernel_count ∧ out.rows = oh ∧ out.cols = ow
        · rw [if_neg (not_not.mpr hc)] at h
          cases hl : loopM (genericOutput L arr M g (kernel_count / L.groups_) oh ow)
              (List.range (kernel_count / L.groups_)) out with
          | error e => rw [hl] at h; cases h
          | ok out' =>
            rw [hl] at h
            cases h
            exact ⟨arr, M, out, out', rfl, rfl, rfl, hc.1, hc.2.1, hc.2.2, hl, rfl⟩
        · rw [if_pos hc] at h
          cases h

/-- The loop over the output channels of a group keeps the shape of the
output tensor. -/
theorem genericOutputs_dims (L : ConvolutionLayer) (arr : List Mat) (M : Mat)
    (g kcg oh ow n : Nat) (out out' : Tensor)
    (h : loopM (genericOutput L arr M g kcg oh ow) (List.range n) out = .ok out') :
    out'.channels = out.channels ∧ out'.rows = out.rows ∧ out'.cols = out.cols := by
  refine loopM_range_inv _
    (fun _ (t : Tensor) => t.channels = out.channels ∧ t.rows = out.rows ∧ t.cols = out.cols)
    n out ⟨rfl, rfl, rfl⟩ ?_ out' h
  intro i t t' _ hP hstep
  obtain ⟨row, biased, _, _, _, _, ha⟩ := genericOutput_inv L arr M g kcg oh ow t i t' hstep
  obtain ⟨_, _, _, a4, a5, a6, _⟩ := assign_inv _ _ _ _ ha
  exact ⟨by rw [a4, hP.1], by rw [a5, hP.2.1], by rw [a6, hP.2.2]⟩

end ConvolutionLayer

namespace ConvolutionLayer

/-- The product of a weight row with a column of the im2col matrix is the
convolution sum at the window of that column. -/
theorem genericCell (L : ConvolutionLayer) (input_ kernel : Tensor) (row M : Mat)
    (g icg row_len col_len kernel_h kernel_w n_r n_c r c : Nat)
    (hrow : row_len = kernel_w * kernel_h) (hkr : kernel.rows = kernel_h)
    (hkc : kernel.cols = kernel_w) (hrn : row.n_cols = row_len * icg)
    (hrm : ∀ ic q, ic < icg → q < row_len → row.mem (row_len * ic + q) = kernel.mem ic q)
    (hMr : M.n_rows = icg * row_len)
    (hM : ∀ ic ci ri kw kh, ic < icg → ci < n_c → ri < n_r → kw < kernel_w → kh < kernel_h →
      ci * n_r + ri < col_len →
      M.mem ((ic * row_len + (kw * kernel_h + kh)) + (ci * n_r + ri) * (icg * row_len)) =
        input_.mem (ic + g * icg)
          ((ci * L.stride_w_ + kw) * input_.rows + ri * L.stride_h_ + kh))
    (hr : r < n_r) (hc : c < n_c) (hp : r + c * n_r < col_len) :
    sumTo row.n_cols (fun j => row.mem j * M.mem (j + (r + c * n_r) * M.n_rows)) =
      convolutionSum L kernel input_ g icg r c := by
  rw [hrn, sumTo_mul, hMr]
  unfold convolutionSum
  apply sumTo_congr
  intro ic hic
  rw [hkr, hkc, sumTo_comm]
  have hrl : row_len = kernel_h * kernel_w := by rw [hrow, Nat.mul_comm]
  rw [sumTo_congr row_len _
    (fun q => kernel.mem ic q * M.mem (row_len * ic + q + (r + c * n_r) * (icg * row_len)))
    (fun q hq => by rw [hrm ic q hic hq])]
  rw [hrl, sumTo_mul]
  apply sumTo_congr
  intro kw hkw
  apply sumTo_congr
  intro kh hkh
  have e1 : kernel_h * kw + kh = kh + kw * kernel.rows := by rw [hkr]; ring
  have e2 : kernel_h * kernel_w * ic + (kernel_h * kw + kh) +
      (r + c * n_r) * (icg * (kernel_h * kernel_w)) =
      (ic * row_len + (kw * kernel_h + kh)) + (c * n_r + r) * (icg * row_len) := by
    rw [hrl]; ring
  have e3 : (c * L.stride_w_ + kw) * input_.rows + r * L.stride_h_ + kh =
      (r * L.stride_h_ + kh) + (c * L.stride_w_ + kw) * input_.rows := by ring
  have e4 : ic + g * icg = g * icg + ic := by ring
  rw [e2, hM ic c r kw kh hic hc hr hkw hkh (by omega), e1, e3, e4]
  rfl

/-- The loop over the output channels of group `g` when no bias is added:
every channel it has written holds the convolution sums, the other channels
are as before. -/
theorem genericOutputs_spec (L : ConvolutionLayer) (input_ : Tensor) (arr : List Mat) (M : Mat)
    (g kcg icg row_len col_len kernel_h kernel_w oh ow n_c n : Nat) (out out' : Tensor)
    (hbias : L.use_bias_ = false)
    (hrow : row_len = kernel_w * kernel_h)
    (hK : ∀ w ∈ L.weights_, w.rows = kernel_h ∧ w.cols = kernel_w)
    (hn : n ≤ kcg)
    (hArr : ∀ k, k < kcg → ∃ row kernel, arr[k]? = some row ∧
      L.weights_[k + g * kcg]? = some kernel ∧ row.n_rows = 1 ∧ row.n_cols = row_len * icg ∧
      ∀ ic q, ic < icg → q < row_len → row.mem (row_len * ic + q) = kernel.mem ic q)
    (hMr : M.n_rows = icg * row_len) (hMc : M.n_cols = col_len)
    (hM : ∀ ic ci ri kw kh, ic < icg → ci < n_c → ri < oh → kw < kernel_w → kh < kernel_h →
      ci * oh + ri < col_len →
      M.mem ((ic * row_len + (kw * kernel_h + kh)) + (ci * oh + ri) * (icg * row_len)) =
        input_.mem (ic + g * icg)
          ((ci * L.stride_w_ + kw) * input_.rows + ri * L.stride_h_ + kh))
    (hnc : n_c = ow) (hU : oh * ow < U32) (hor : out.rows = oh)
    (h : loopM (genericOutput L arr M g kcg oh ow) (List.range n) out = .ok out') :
    out'.channels = out.channels ∧ out'.rows = out.rows ∧ out'.cols = out.cols ∧
      (∀ ch, (∀ k, k < n → ch ≠ k + g * kcg) → out'.mem ch = out.mem ch) ∧
      ∀ k kernel, k < n → L.weights_[k + g * kcg]? = some kernel →
        ∀ r c, r < oh → c < ow →
          out'.get (k + g * kcg) r c = convolutionSum L kernel input_ g icg r c := by
  refine loopM_range_inv _
    (fun j (t : Tensor) => t.channels = out.channels ∧ t.rows = out.rows ∧ t.cols = out.cols ∧
      (∀ ch, (∀ k, k < j → ch ≠ k + g * kcg) → t.mem ch = out.mem ch) ∧
      ∀ k kernel, k < j → L.weights_[k + g * kcg]? = some kernel →
        ∀ r c, r < oh → c < ow →
          t.get (k + g * kcg) r c = convolutionSum L kernel input_ g icg r c)
    n out ⟨rfl, rfl, rfl, fun _ _ => rfl, fun k _ hk => absurd hk (Nat.not_lt_zero k)⟩ ?_ out' h
  intro i t t' hi hP hstep
  obtain ⟨p1, p2, p3, p4, p5⟩ := hP
  obtain ⟨row, biased, a1, a2, a3, a4, a5⟩ := genericOutput_inv L arr M g kcg oh ow t i t' hstep
  obtain ⟨b1, b2, b3, b4, b5, b6, b7, b8⟩ := assign_inv _ _ _ _ a5
  rw [addBias_none L i _ hbias] at a4
  cases a4
  obtain ⟨row', kernel', c1, c2, c3, c4, c5⟩ := hArr i (by omega)
  rw [a1] at c1
  cases c1
  refine ⟨by rw [b4, p1], by rw [b5, p2], by rw [b6, p3], ?_, ?_⟩
  · intro ch hch
    rw [b8 ch (hch i (Nat.lt_succ_self i))]
    exact p4 ch (fun k hk => hch k (Nat.lt_succ_of_lt hk))
  · intro k kernel hk hker r c hr hc
    rcases Nat.lt_or_ge k i with hlt | hge
    · have hne : k + g * kcg ≠ i + g * kcg := by omega
      have := p5 k kernel hlt hker r c hr hc
      rw [← this]
      simp only [Tensor.get, b8 _ hne, b5]
    · have heq : k = i := by omega
      subst heq
      rw [c2] at hker
      cases hker
      have hcol : col_len = oh * ow := by
        rw [c3, hMc, Nat.one_mul, u32_of_lt hU] at a3
        exact a3
      have hlt : r + c * oh < oh * ow := by
        have := block_lt_right hc hr
        rw [Nat.mul_comm oh ow]
        omega
      obtain ⟨k1, k2⟩ := hK kernel' (List.getElem?_mem c2)
      simp only [Tensor.get, b7, b5, p2, hor, reshape, c3, hMc, Nat.one_mul]
      rw [if_pos (by rw [hcol]; exact hlt)]
      exact genericCell L input_ kernel' row M g icg row_len col_len kernel_h kernel_w oh n_c r c
        hrow k1 k2 c4 c5 hMr hM hr (by rw [hnc]; exact hc) (by rw [hcol]; exact hlt)

end ConvolutionLayer

namespace ConvolutionLayer

/-- A successful generic branch found the caller's output tensor pre-sized
(line 194) and kept its shape. -/
theorem genericBranch_dims (L : ConvolutionLayer) (input_ : Tensor) (y₀ : Option Tensor)
    (input_h input_w input_c kernel_count kernel_h kernel_w oh ow : Nat) (out : Option Tensor)
    (h : genericBranch L input_ y₀ input_h input_w input_c kernel_count kernel_h kernel_w oh ow =
      .ok out) :
    ∃ y y', y₀ = some y ∧ out = some y' ∧ y'.channels = y.channels ∧ y'.rows = y.rows ∧
      y'.cols = y.cols ∧ y.channels = kernel_count ∧ y.rows = oh ∧ y.cols = ow := by
  unfold genericBranch at h
  by_cases hg : L.groups_ = 0
  · rw [if_pos hg] at h; cases h
  · rw [if_neg hg] at h
    have key := loopM_range_inv _
      (fun j (s : Option Tensor) => (j = 0 → s = y₀) ∧
        (0 < j → ∃ y t, y₀ = some y ∧ s = some t ∧ t.channels = y.channels ∧
          t.rows = y.rows ∧ t.cols = y.cols ∧ y.channels = kernel_count ∧ y.rows = oh ∧
          y.cols = ow))
      L.groups_ y₀ ⟨fun _ => rfl, fun h0 => absurd h0 (Nat.lt_irrefl 0)⟩ ?_ out h
    · obtain ⟨y, t, a1, a2, a3⟩ := key.2 (Nat.pos_of_ne_zero hg)
      exact ⟨y, t, a1, a2, a3⟩
    · intro i s s' _ hP hstep
      obtain ⟨arr, M, o, o', _, _, g3, g4, g5, g6, g7, g8⟩ := genericGroup_inv _ _ _ _ _ _ _ _
        _ _ _ _ _ _ _ hstep
      obtain ⟨d1, d2, d3⟩ := genericOutputs_dims _ _ _ _ _ _ _ _ _ _ g7
      refine ⟨fun h0 => absurd h0 (Nat.succ_ne_zero i), fun _ => ?_⟩
      rcases Nat.eq_zero_or_pos i with hz | hpos
      · have := hP.1 hz
        rw [g3] at this
        exact ⟨o, o', this.symm, g8, d1, d2, d3, g4, g5, g6⟩
      · obtain ⟨y, t, a1, a2, a3, a4, a5, a6, a7, a8⟩ := hP.2 hpos
        rw [g3] at a2
        cases a2
        exact ⟨y, o', a1, g8, by rw [d1, a3], by rw [d2, a4], by rw [d3, a5], a6, a7, a8⟩

/-- Partial correctness of the generic branch without bias: after a
successful run on a padded input that is at least as large as the kernel,
every output channel `k + g * kernel_count_group` holds the convolution sums
of group `g`. -/
theorem genericBranch_spec (L : ConvolutionLayer) (input_ : Tensor) (y₀ : Option Tensor)
    (kernel_count kernel_h kernel_w : Nat) (out : Option Tensor)
    (hbias : L.use_bias_ = false)
    (hK : ∀ w ∈ L.weights_, w.rows = kernel_h ∧ w.cols = kernel_w)
    (hfr : kernel_h ≤ input_.rows) (hfc : kernel_w ≤ input_.cols)
    (hUr : input_.rows + 1 < U32) (hUc : input_.cols + 1 < U32)
    (hsh : 0 < L.stride_h_) (hsw : 0 < L.stride_w_)
    (hU : ((input_.rows - kernel_h) / L.stride_h_ + 1) *
      ((input_.cols - kernel_w) / L.stride_w_ + 1) < U32)
    (h : genericBranch L input_ y₀ input_.rows input_.cols input_.channels kernel_count kernel_h
      kernel_w (outputSize input_.rows kernel_h L.stride_h_)
      (outputSize input_.cols kernel_w L.stride_w_) = .ok out) :
    ∃ y', out = some y' ∧ y'.channels = kernel_count ∧
      y'.rows = (input_.rows - kernel_h) / L.stride_h_ + 1 ∧
      y'.cols = (input_.cols - kernel_w) / L.stride_w_ + 1 ∧
      ∀ g k kernel, g < L.groups_ → k < kernel_count / L.groups_ →
        L.weights_[k + g * (kernel_count / L.groups_)]? = some kernel →
        ∀ r c, r < y'.rows → c < y'.cols →
          y'.get (k + g * (kernel_count / L.groups_)) r c =
            convolutionSum L kernel input_ g (input_.channels / L.groups_) r c := by
  obtain ⟨n1, o1⟩ := window_count input_.rows kernel_h L.stride_h_ hfr hUr hsh
  obtain ⟨n2, o2⟩ := window_count input_.cols kernel_w L.stride_w_ hfc hUc hsw
  rw [o1, o2] at h
  obtain ⟨y, yf, d1, d2, d3, d4, d5, d6, d7, d8⟩ := genericBranch_dims _ _ _ _ _ _ _ _ _ _ _ _ h
  refine ⟨yf, d2, by rw [d3, d6], by rw [d4, d7], by rw [d5, d8], ?_⟩
  subst d2
  unfold genericBranch at h
  by_cases hg : L.groups_ = 0
  · rw [if_pos hg] at h; cases h
  · rw [if_neg hg] at h
    have key := loopM_range_inv _
      (fun j (s : Option Tensor) => ∃ t, s = some t ∧ t.rows = y.rows ∧
        ∀ g k kernel, g < j → k < kernel_count / L.groups_ →
          L.weights_[k + g * (kernel_count / L.groups_)]? = some kernel →
          ∀ r c, r < (input_.rows - kernel_h) / L.stride_h_ + 1 →
            c < (input_.cols - kernel_w) / L.stride_w_ + 1 →
            t.get (k + g * (kernel_count / L.groups_)) r c =
              convolutionSum L kernel input_ g (input_.channels / L.groups_) r c)
      L.groups_ y₀ ⟨y, d1, rfl, fun g _ _ hg0 => absurd hg0 (Nat.not_lt_zero g)⟩ ?_ (some yf) h
    · obtain ⟨t, e1, _, e3⟩ := key
      cases e1
      intro g k kernel hg' hk hker r c hr hc
      exact e3 g k kernel hg' hk hker r c (by rw [← d7, ← d4]; exact hr)
        (by rw [← d8, ← d5]; exact hc)
    · intro i s s' hi hP hstep
      obtain ⟨t, p1, p2, p3⟩ := hP
      obtain ⟨arr, M, o, o', g1, g2, g3, g4, g5, g6, g7, g8⟩ := genericGroup_inv _ _ _ _ _ _
        _ _ _ _ _ _ _ _ _ hstep
      rw [p1] at g3
      cases g3
      obtain ⟨m1, m2, m3⟩ := im2col_inv L input_ i (input_.channels / L.groups_)
        (kernel_w * kernel_h) _ input_.rows input_.cols kernel_h kernel_w M rfl g2
      rw [n1, n2] at m3
      obtain ⟨q1, q2, q3, q4, q5⟩ := genericOutputs_spec L input_ arr M i
        (kernel_count / L.groups_) (input_.channels / L.groups_) (kernel_w * kernel_h) _
        kernel_h kernel_w ((input_.rows - kernel_h) / L.stride_h_ + 1)
        ((input_.cols - kernel_w) / L.stride_w_ + 1)
        ((input_.cols - kernel_w) / L.stride_w_ + 1) (kernel_count / L.groups_) t o' hbias rfl
        hK (Nat.le_refl _)
        (kernelRows_inv L i (kernel_count / L.groups_) (kernel_w * kernel_h)
          (input_.channels / L.groups_) arr g1)
        m1 m2
        (fun ic ci ri kw kh a1 a2 a3 a4 a5 a6 => m3 ic ci ri kw kh a1 a2 a3 a4 a5 a6)
        rfl hU g5 g7
      refine ⟨o', g8, by rw [q2, p2], ?_⟩
      intro g k kernel hg' hk hker r c hr hc
      rcases Nat.lt_or_ge g i with hlt | hge
      · have hne : ∀ k', k' < kernel_count / L.groups_ →
            k + g * (kernel_count / L.groups_) ≠ k' + i * (kernel_count / L.groups_) := by
          intro k' _
          have := block_lt_right hlt hk
          omega
        have := p3 g k kernel hlt hk hker r c hr hc
        rw [← this]
        simp only [Tensor.get, q4 _ hne, q2]
      · have heq : g = i := by omega
        subst heq
        exact q5 k kernel hk hker r c hr hc

end ConvolutionLayer

/-! ### The shape of the output of the Winograd branch -/

namespace ConvolutionLayer

theorem winogradOutput_inv (L : ConvolutionLayer) (input_ : Tensor)
    (n oh ow ohp owp : Nat) (t : Tensor) (oc : Nat) (t' : Tensor)
    (h : winogradOutput L input_ n oh ow ohp owp t oc = .ok t') :
    ∃ acc clipped, submat acc (sub32 oh 1) (sub32 ow 1) = .ok clipped ∧
      t.assign oc clipped = .ok t' := by
  unfold winogradOutput at h
  cases hw : L.weights_[oc]? with
  | none => rw [hw] at h; cases h
  | some kernel =>
    rw [hw] at h
    simp only at h
    cases ha : (Tensor.create L.weights_.length ohp owp).at_ oc with
    | error e => rw [ha] at h; cases h
    | ok acc₀ =>
      rw [ha] at h
      simp only at h
      cases hb : t.at_ oc with
      | error e => rw [hb] at h; cases h
      | ok v =>
        rw [hb] at h
        simp only at h
        cases hl : loopM (winogradChannel input_ kernel ohp owp) (List.range n) acc₀ with
        | error e => rw [hl] at h; cases h
        | ok acc =>
          rw [hl] at h
          simp only at h
          cases hs : submat acc (sub32 oh 1) (sub32 ow 1) with
          | error e => rw [hs] at h; cases h
          | ok clipped =>
            rw [hs] at h
            exact ⟨acc, clipped, hs, h⟩

theorem submat_inv (m : Mat) (a b : Nat) (c : Mat) (h : submat m a b = .ok c) :
    c.n_rows = a + 1 ∧ c.n_cols = b + 1 := by
  unfold submat at h
  split_ifs at h
  cases h
  exact ⟨rfl, rfl⟩

/-- A successful Winograd branch found an output tensor with `output_h` rows,
`output_w` columns and at least one channel per filter, and kept its shape. -/
theorem winogradBranch_dims (L : ConvolutionLayer) (input_ : Tensor) (y₀ : Option Tensor)
    (input_h input_w input_c kernel_h oh ow : Nat) (res : Tensor × Option Tensor)
    (hw0 : L.weights_ ≠ []) (hoh : 0 < oh) (how : 0 < ow) (hU1 : oh < U32) (hU2 : ow < U32)
    (h : winogradBranch L input_ y₀ input_h input_w input_c kernel_h oh ow = .ok res) :
    ∃ y y', y₀ = some y ∧ res.2 = some y' ∧ y'.channels = y.channels ∧ y'.rows = y.rows ∧
      y'.cols = y.cols ∧ y.rows = oh ∧ y.cols = ow ∧ L.weights_.length ≤ y.channels := by
  unfold winogradBranch at h
  simp only at h
  cases y₀ with
  | none => cases h
  | some y =>
    simp only at h
    cases hl : loopM
        (winogradOutput L (input_.Padding 0 (4 - input_h % 4) 0 (4 - input_w % 4) 0) input_c oh ow
          (u32 (sub32 (u32 (4 - input_h % 4 + input_h)) kernel_h + 1))
          (u32 (sub32 (u32 (4 - input_w % 4 + input_w)) kernel_h + 1)))
        (List.range L.weights_.length) y with
    | error e => rw [hl] at h; cases h
    | ok out =>
      rw [hl] at h
      cases h
      have key := loopM_range_inv _
        (fun j (t : Tensor) => t.channels = y.channels ∧ t.rows = y.rows ∧ t.cols = y.cols ∧
          (0 < j → y.rows = oh ∧ y.cols = ow) ∧ j ≤ y.channels)
        L.weights_.length y
        ⟨rfl, rfl, rfl, fun h0 => absurd h0 (Nat.lt_irrefl 0), Nat.zero_le _⟩ ?_ out hl
      · obtain ⟨k1, k2, k3, k4, k5⟩ := key
        obtain ⟨k6, k7⟩ := k4 (List.length_pos.mpr hw0)
        exact ⟨y, out, rfl, rfl, k1, k2, k3, k6, k7, k5⟩
      · intro i t t' _ hP hstep
        obtain ⟨p1, p2, p3, _, _⟩ := hP
        obtain ⟨acc, clipped, s1, s2⟩ := winogradOutput_inv _ _ _ _ _ _ _ _ _ _ hstep
        obtain ⟨c1, c2⟩ := submat_inv _ _ _ _ s1
        obtain ⟨a1, a2, a3, a4, a5, a6, _⟩ := assign_inv _ _ _ _ s2
        rw [sub32_of_le hU1 hoh] at c1
        rw [sub32_of_le hU2 how] at c2
        refine ⟨by rw [a4, p1], by rw [a5, p2], by rw [a6, p3], fun _ => ?_, by omega⟩
        constructor
        · rw [← p2, ← a2, c1]; omega
        · rw [← p3, ← a3, c2]; omega

end ConvolutionLayer

/-! ### The generic branch returns on a valid call -/

theorem memcpyM_ok (dst : Mat) (d : Nat) (src : Mat) (s n : Nat)
    (h1 : d + n ≤ dst.n_rows * dst.n_cols) (h2 : s + n ≤ src.n_rows * src.n_cols) :
    ∃ m, memcpyM dst d src s n = .ok m ∧ m.n_rows = dst.n_rows ∧ m.n_cols = dst.n_cols := by
  refine ⟨Mat.mk dst.n_rows dst.n_cols (memcpy dst.mem d src.mem s n), ?_, rfl, rfl⟩
  simp only [memcpyM, if_pos (And.intro h1 h2)]

namespace ConvolutionLayer

theorem weightRow_ok (kernel : Tensor) (row_len n : Nat) (buf : Mat)
    (hch : n ≤ kernel.channels) (hsrc : row_len ≤ kernel.rows * kernel.cols)
    (hdst : row_len * n ≤ buf.n_rows * buf.n_cols) :
    ∃ m, weightRow kernel row_len n buf = .ok m ∧ m.n_rows = buf.n_rows ∧
      m.n_cols = buf.n_cols := by
  unfold weightRow
  apply loopM_range_ok _ (fun _ (s : Mat) => s.n_rows = buf.n_rows ∧ s.n_cols = buf.n_cols)
    n buf ⟨rfl, rfl⟩
  intro i s hi hP
  have hb : row_len * i + row_len ≤ row_len * n := by
    have := Nat.mul_le_mul_left row_len (Nat.succ_le_of_lt hi)
    rw [Nat.mul_succ] at this
    exact this
  obtain ⟨m, h1, h2, h3⟩ := memcpyM_ok s (row_len * i)
    (Mat.mk kernel.rows kernel.cols (kernel.mem i)) 0 row_len
    (by rw [hP.1, hP.2]; omega) (by simpa using hsrc)
  refine ⟨m, ?_, by rw [h2, hP.1], by rw [h3, hP.2]⟩
  simp only [Tensor_at_ok kernel i (by omega)]
  exact h1

theorem kernelRows_ok (L : ConvolutionLayer) (g kcg row_len icg : Nat)
    (hw : ∀ k, k < kcg → ∃ kernel, L.weights_[k + g * kcg]? = some kernel ∧
      icg ≤ kernel.channels ∧ row_len ≤ kernel.rows * kernel.cols) :
    ∃ arr, kernelRows L g kcg row_len icg = .ok arr := by
  unfold kernelRows
  obtain ⟨st, h1, _⟩ := loopM_range_ok
    (fun (st : Mat × List Mat) k =>
      match L.weights_[k + g * kcg]? with
      | none => Except.error Fault.vectorAt
      | some kernel =>
        match weightRow kernel row_len icg st.1 with
        | .error e => .error e
        | .ok m => .ok (m, st.2 ++ [m]))
    (fun _ (s : Mat × List Mat) => s.1.n_rows = 1 ∧ s.1.n_cols = row_len * icg)
    kcg (Mat.zeros 1 (row_len * icg), []) ⟨rfl, rfl⟩
    (by
      intro i s hi hP
      obtain ⟨kernel, k1, k2, k3⟩ := hw i hi
      obtain ⟨m, m1, m2, m3⟩ := weightRow_ok kernel row_len icg s.1 k2 k3
        (by rw [hP.1, hP.2]; omega)
      refine ⟨(m, s.2 ++ [m]), ?_, by rw [m2, hP.1], by rw [m3, hP.2]⟩
      simp only [k1, m1])
  exact ⟨st.2, by rw [h1]⟩

/-- The loop over the kernel columns returns when the window lies inside the
channel and the runs fit into the buffer. -/
theorem im2colWindow_ok (ic : Mat) (kernel_h kernel_w c r : Nat) (m₀ : Mat) (off₀ : Nat)
    (hr : r + kernel_h ≤ ic.n_rows) (hc : c + kernel_w ≤ ic.n_cols)
    (hdst : (off₀ + kernel_w) * kernel_h ≤ m₀.n_rows * m₀.n_cols) :
    ∃ res, im2colWindow ic kernel_h kernel_w c r (m₀, off₀) = .ok res ∧
      res.2 = off₀ + kernel_w ∧ res.1.n_rows = m₀.n_rows ∧ res.1.n_cols = m₀.n_cols := by
  unfold im2colWindow
  apply loopM_range_ok _
    (fun j (s : Mat × Nat) => s.2 = off₀ + j ∧ s.1.n_rows = m₀.n_rows ∧ s.1.n_cols = m₀.n_cols)
    kernel_w (m₀, off₀) ⟨rfl, rfl, rfl⟩
  intro i s hi hP
  obtain ⟨p1, p2, p3⟩ := hP
  have hd : s.2 * kernel_h + kernel_h ≤ s.1.n_rows * s.1.n_cols := by
    rw [p1, p2, p3]
    have : (off₀ + i + 1) * kernel_h ≤ (off₀ + kernel_w) * kernel_h :=
      Nat.mul_le_mul_right kernel_h (by omega)
    rw [Nat.succ_mul] at this
    omega
  have hs : (c + i) * ic.n_rows + r + kernel_h ≤ ic.n_rows * ic.n_cols := by
    have : (c + i + 1) * ic.n_rows ≤ ic.n_cols * ic.n_rows :=
      Nat.mul_le_mul_right ic.n_rows (by omega)
    rw [Nat.succ_mul, Nat.mul_comm ic.n_cols] at this
    omega
  obtain ⟨m, m1, m2, m3⟩ := memcpyM_ok s.1 (s.2 * kernel_h) ic ((c + i) * ic.n_rows + r)
    kernel_h hd hs
  refine ⟨(m, s.2 + 1), by simp only [m1], by simp only [p1]; omega, by rw [m2, p2],
    by rw [m3, p3]⟩

theorem im2colColumn_ok (ic : Mat) (kernel_h kernel_w c stride n : Nat) (m₀ : Mat) (off₀ : Nat)
    (hr : ∀ ri, ri < n → ri * stride + kernel_h ≤ ic.n_rows) (hc : c + kernel_w ≤ ic.n_cols)
    (hdst : (off₀ + n * kernel_w) * kernel_h ≤ m₀.n_rows * m₀.n_cols) :
    ∃ res, loopM (fun st r => im2colWindow ic kernel_h kernel_w c r st)
        ((List.range n).map (fun i => i * stride)) (m₀, off₀) = .ok res ∧
      res.2 = off₀ + n * kernel_w ∧ res.1.n_rows = m₀.n_rows ∧ res.1.n_cols = m₀.n_cols := by
  rw [loopM_map]
  apply loopM_range_ok _
    (fun j (s : Mat × Nat) => s.2 = off₀ + j * kernel_w ∧ s.1.n_rows = m₀.n_rows ∧
      s.1.n_cols = m₀.n_cols)
    n (m₀, off₀) ⟨by simp, rfl, rfl⟩
  intro i s hi hP
  obtain ⟨p1, p2, p3⟩ := hP
  have hd : (s.2 + kernel_w) * kernel_h ≤ s.1.n_rows * s.1.n_cols := by
    rw [p1, p2, p3]
    have h1 : (i + 1) * kernel_w ≤ n * kernel_w := Nat.mul_le_mul_right kernel_w hi
    have h2 : (off₀ + i * kernel_w + kernel_w) * kernel_h ≤ (off₀ + n * kernel_w) * kernel_h :=
      Nat.mul_le_mul_right kernel_h (by rw [Nat.succ_mul] at h1; omega)
    omega
  obtain ⟨res, r1, r2, r3, r4⟩ := im2colWindow_ok ic kernel_h kernel_w c (i * stride) s.1 s.2
    (hr i hi) hc hd
  exact ⟨res, r1, by rw [r2, p1, Nat.succ_mul]; omega, by rw [r3, p2], by rw [r4, p3]⟩

theorem im2colFill_ok (ic : Mat) (kernel_h kernel_w stride_h stride_w n_r n_c : Nat) (m₀ : Mat)
    (hr : ∀ ri, ri < n_r → ri * stride_h + kernel_h ≤ ic.n_rows)
    (hc : ∀ ci, ci < n_c → ci * stride_w + kernel_w ≤ ic.n_cols)
    (hdst : n_c * n_r * kernel_w * kernel_h ≤ m₀.n_rows * m₀.n_cols) :
    ∃ res, loopM
        (fun st c =>
          loopM (fun st r => im2colWindow ic kernel_h kernel_w c r st)
            ((List.range n_r).map (fun i => i * stride_h)) st)
        ((List.range n_c).map (fun i => i * stride_w)) (m₀, 0) = .ok res ∧
      res.1.n_rows = m₀.n_rows ∧ res.1.n_cols = m₀.n_cols := by
  rw [loopM_map]
  obtain ⟨res, r1, _, r3, r4⟩ := loopM_range_ok
    (fun st i =>
      loopM (fun st r => im2colWindow ic kernel_h kernel_w (i * stride_w) r st)
        ((List.range n_r).map (fun i => i * stride_h)) st)
    (fun j (s : Mat × Nat) => s.2 = j * n_r * kernel_w ∧ s.1.n_rows = m₀.n_rows ∧
      s.1.n_cols = m₀.n_cols)
    n_c (m₀, 0) ⟨by simp, rfl, rfl⟩
    (by
      intro i s hi hP
      obtain ⟨p1, p2, p3⟩ := hP
      have hd : (s.2 + n_r * kernel_w) * kernel_h ≤ s.1.n_rows * s.1.n_cols := by
        rw [p1, p2, p3]
        have h1 : (i + 1) * n_r * kernel_w * kernel_h ≤ n_c * n_r * kernel_w * kernel_h :=
          Nat.mul_le_mul_right kernel_h
            (Nat.mul_le_mul_right kernel_w (Nat.mul_le_mul_right n_r hi))
        have h2 : (i + 1) * n_r * kernel_w * kernel_h =
            (i * n_r * kernel_w + n_r * kernel_w) * kernel_h := by ring
        omega
      obtain ⟨res, r1, r2, r3, r4⟩ := im2colColumn_ok ic kernel_h kernel_w (i * stride_w)
        stride_h n_r s.1 s.2 hr (hc i hi) hd
      exact ⟨res, r1, by rw [r2, p1]; ring, by rw [r3, p2], by rw [r4, p3]⟩)
  exact ⟨res, r1, r3, r4⟩

end ConvolutionLayer

namespace ConvolutionLayer

theorem im2colChannel_ok (L : ConvolutionLayer) (ic : Mat) (kernel_h kernel_w : Nat) (buf : Mat)
    (hfr : kernel_h ≤ ic.n_rows) (hfc : kernel_w ≤ ic.n_cols)
    (hUr : ic.n_rows + 1 < U32) (hUc : ic.n_cols + 1 < U32)
    (hsh : 0 < L.stride_h_) (hsw : 0 < L.stride_w_)
    (hdst : ((ic.n_cols - kernel_w) / L.stride_w_ + 1) * ((ic.n_rows - kernel_h) / L.stride_h_ + 1) *
      kernel_w * kernel_h ≤ buf.n_rows * buf.n_cols) :
    ∃ C, im2colChannel L ic ic.n_rows ic.n_cols kernel_h kernel_w buf = .ok C ∧
      C.n_rows = buf.n_rows ∧ C.n_cols = buf.n_cols := by
  obtain ⟨n1, _⟩ := window_count ic.n_rows kernel_h L.stride_h_ hfr hUr hsh
  obtain ⟨n2, _⟩ := window_count ic.n_cols kernel_w L.stride_w_ hfc hUc hsw
  unfold im2colChannel steps
  rw [n1, n2]
  obtain ⟨res, r1, r2, r3⟩ := im2colFill_ok ic kernel_h kernel_w L.stride_h_ L.stride_w_
    ((ic.n_rows - kernel_h) / L.stride_h_ + 1) ((ic.n_cols - kernel_w) / L.stride_w_ + 1) buf
    (by
      intro ri hri
      have h1 : ri * L.stride_h_ ≤ (ic.n_rows - kernel_h) / L.stride_h_ * L.stride_h_ :=
        Nat.mul_le_mul_right _ (by omega)
      have h2 := Nat.div_mul_le_self (ic.n_rows - kernel_h) L.stride_h_
      omega)
    (by
      intro ci hci
      have h1 : ci * L.stride_w_ ≤ (ic.n_cols - kernel_w) / L.stride_w_ * L.stride_w_ :=
        Nat.mul_le_mul_right _ (by omega)
      have h2 := Nat.div_mul_le_self (ic.n_cols - kernel_w) L.stride_w_
      omega)
    hdst
  exact ⟨res.1, by rw [r1], r2, r3⟩

theorem setRows_ok (M : Mat) (first_row : Nat) (block : Mat) (h1 : 0 < block.n_rows)
    (h2 : 0 < block.n_cols) (h3 : first_row + block.n_rows ≤ M.n_rows)
    (h4 : block.n_cols ≤ M.n_cols) :
    ∃ M', setRows M first_row block = .ok M' ∧ M'.n_rows = M.n_rows ∧ M'.n_cols = M.n_cols := by
  have hg : ¬ (block.n_rows = 0 ∨ block.n_cols = 0 ∨ M.n_rows < first_row + block.n_rows ∨
      M.n_cols < block.n_cols) := by omega
  simp only [setRows, if_neg hg]
  exact ⟨_, rfl, rfl, rfl⟩

/-- The im2col matrix of a group is built without fault when the kernel fits
into the input and the matrix has a column for every window. -/
theorem im2col_ok (L : ConvolutionLayer) (input_ : Tensor) (g icg row_len col_len kernel_h
    kernel_w : Nat) (hrow : row_len = kernel_w * kernel_h) (hrl : 0 < row_len)
    (hcl : 0 < col_len) (hg : g < L.groups_) (hicg : icg = input_.channels / L.groups_)
    (hfr : kernel_h ≤ input_.rows) (hfc : kernel_w ≤ input_.cols)
    (hUr : input_.rows + 1 < U32) (hUc : input_.cols + 1 < U32)
    (hsh : 0 < L.stride_h_) (hsw : 0 < L.stride_w_)
    (hcol : ((input_.cols - kernel_w) / L.stride_w_ + 1) *
      ((input_.rows - kernel_h) / L.stride_h_ + 1) ≤ col_len) :
    ∃ M, im2col L input_ g icg row_len col_len input_.rows input_.cols kernel_h kernel_w =
      .ok M := by
  unfold im2col
  obtain ⟨st, h1, _⟩ := loopM_range_ok
    (fun (st : Mat × Mat) ic =>
      match input_.at_ (ic + g * icg) with
      | .error e => Except.error e
      | .ok input_channel =>
        match im2colChannel L input_channel input_.rows input_.cols kernel_h kernel_w st.2 with
        | .error e => .error e
        | .ok input_matrix_c =>
          match setRows st.1 (ic * row_len) input_matrix_c with
          | .error e => .error e
          | .ok input_matrix => .ok (input_matrix, input_matrix_c))
    (fun _ (s : Mat × Mat) => s.1.n_rows = icg * row_len ∧ s.1.n_cols = col_len ∧
      s.2.n_rows = row_len ∧ s.2.n_cols = col_len)
    icg (Mat.zeros (icg * row_len) col_len, Mat.zeros row_len col_len) ⟨rfl, rfl, rfl, rfl⟩
    (by
      intro i s hi hP
      obtain ⟨p1, p2, p3, p4⟩ := hP
      have hch : i + g * icg < input_.channels := by
        have h1 : g * icg + i < L.groups_ * icg := block_lt_right hg hi
        have h2 : L.groups_ * icg ≤ input_.channels := by
          rw [hicg]
          exact Nat.mul_div_le _ _
        omega
      have hsz : ((input_.cols - kernel_w) / L.stride_w_ + 1) *
          ((input_.rows - kernel_h) / L.stride_h_ + 1) * kernel_w * kernel_h ≤
          s.2.n_rows * s.2.n_cols := by
        rw [p3, p4, hrow]
        have := Nat.mul_le_mul_right (kernel_w * kernel_h) hcol
        rw [Nat.mul_comm col_len] at this
        rw [Nat.mul_assoc]
        exact this
      obtain ⟨C, c1, c2, c3⟩ := im2colChannel_ok L
        (Mat.mk input_.rows input_.cols (input_.mem (i + g * icg))) kernel_h kernel_w s.2
        hfr hfc hUr hUc hsh hsw hsz
      obtain ⟨M', m1, m2, m3⟩ := setRows_ok s.1 (i * row_len) C (by rw [c2, p3]; exact hrl)
        (by rw [c3, p4]; exact hcl)
        (by
          rw [c2, p3, p1]
          have := Nat.mul_le_mul_right row_len (Nat.succ_le_of_lt hi)
          rw [Nat.succ_mul] at this
          exact this)
        (by rw [c3, p4, p2])
      refine ⟨(M', C), ?_, by rw [m2, p1], by rw [m3, p2], by rw [c2, p3], by rw [c3, p4]⟩
      simp only [Tensor_at_ok input_ _ hch]
      simp only at c1
      rw [c1]
      simp only [m1])
  exact ⟨st.1, by rw [h1]⟩

/-- The loop over the output channels of a group returns when the weight rows
and the im2col matrix have matching sizes and the output tensor is
pre-sized. -/
theorem genericOutputs_ok (L : ConvolutionLayer) (arr : List Mat) (M : Mat)
    (g kcg icg row_len col_len oh ow n : Nat) (out : Tensor) (hbias : L.use_bias_ = false)
    (hn : n ≤ kcg)
    (hArr : ∀ k, k < kcg → ∃ row, arr[k]? = some row ∧ row.n_rows = 1 ∧
      row.n_cols = row_len * icg)
    (hMr : M.n_rows = icg * row_len) (hMc : M.n_cols = col_len) (hcol : col_len = oh * ow)
    (hU : oh * ow < U32) (hch : g * kcg + kcg ≤ out.channels) (hor : out.rows = oh)
    (hoc : out.cols = ow) :
    ∃ out', loopM (genericOutput L arr M g kcg oh ow) (List.range n) out = .ok out' ∧
      out'.channels = out.channels ∧ out'.rows = out.rows ∧ out'.cols = out.cols := by
  apply loopM_range_ok _
    (fun _ (t : Tensor) => t.channels = out.channels ∧ t.rows = out.rows ∧ t.cols = out.cols)
    n out ⟨rfl, rfl, rfl⟩
  intro i t hi hP
  obtain ⟨p1, p2, p3⟩ := hP
  obtain ⟨row, a1, a2, a3⟩ := hArr i (by omega)
  have hd : ¬ (row.n_cols ≠ M.n_rows) := by rw [a3, hMr, Nat.mul_comm]; simp
  have hc : ¬ (row.n_rows * M.n_cols ≠ u32 (oh * ow)) := by
    rw [a2, hMc, hcol, u32_of_lt hU]; simp
  have hchan : i + g * kcg < t.channels := by rw [p1]; omega
  have hdim : oh = t.rows ∧ ow = t.cols := by rw [p2, p3, hor, hoc]; exact ⟨rfl, rfl⟩
  refine ⟨Tensor.mk t.channels t.rows t.cols (fun ch => if ch = i + g * kcg then
      (reshape (Mat.mk row.n_rows M.n_cols
        (fun p => sumTo row.n_cols (fun j => row.mem j * M.mem (j + p * M.n_rows)))) oh ow).mem
      else t.mem ch), ?_, p1, p2, p3⟩
  simp only [genericOutput, a1, rowTimes, if_neg hd, if_neg hc, addBias_none L i _ hbias,
    Tensor.assign, if_pos hchan, reshape, if_pos hdim]

end ConvolutionLayer

namespace ConvolutionLayer

/-- One group of the generic branch returns, and keeps the shape of the
output tensor, on a call whose weights, input and output tensor have matching
sizes and whose im2col matrix has one column for every window. -/
theorem genericGroup_ok (L : ConvolutionLayer) (input_ : Tensor)
    (kernel_count kernel_h kernel_w oh ow col_len : Nat) (out : Tensor) (g : Nat)
    (hbias : L.use_bias_ = false) (hg : g < L.groups_)
    (hK : ∀ w ∈ L.weights_, w.rows = kernel_h ∧ w.cols = kernel_w ∧
      input_.channels / L.groups_ ≤ w.channels)
    (hkc : kernel_count ≤ L.weights_.length)
    (hkh : 0 < kernel_h) (hkw : 0 < kernel_w)
    (hfr : kernel_h ≤ input_.rows) (hfc : kernel_w ≤ input_.cols)
    (hUr : input_.rows + 1 < U32) (hUc : input_.cols + 1 < U32)
    (hsh : 0 < L.stride_h_) (hsw : 0 < L.stride_w_)
    (hoh : oh = (input_.rows - kernel_h) / L.stride_h_ + 1)
    (how : ow = (input_.cols - kernel_w) / L.stride_w_ + 1)
    (hcol : col_len = oh * ow) (hU : oh * ow < U32)
    (hch : out.channels = kernel_count) (hor : out.rows = oh) (hoc : out.cols = ow) :
    ∃ out', genericGroup L input_ input_.rows input_.cols input_.channels kernel_count kernel_h
        kernel_w oh ow (kernel_w * kernel_h) col_len (some out) g = .ok (some out') ∧
      out'.channels = out.channels ∧ out'.rows = out.rows ∧ out'.cols = out.cols := by
  have hblock : g * (kernel_count / L.groups_) + kernel_count / L.groups_ ≤ kernel_count := by
    have h1 : (g + 1) * (kernel_count / L.groups_) ≤ L.groups_ * (kernel_count / L.groups_) :=
      Nat.mul_le_mul_right _ hg
    have h2 : L.groups_ * (kernel_count / L.groups_) ≤ kernel_count := Nat.mul_div_le _ _
    rw [Nat.succ_mul] at h1
    omega
  obtain ⟨arr, ha⟩ := kernelRows_ok L g (kernel_count / L.groups_) (kernel_w * kernel_h)
    (input_.channels / L.groups_) (by
      intro k hk
      have hlt : k + g * (kernel_count / L.groups_) < L.weights_.length := by omega
      have hget := List.getElem?_eq_getElem hlt
      obtain ⟨w1, w2, w3⟩ := hK _ (List.getElem?_mem hget)
      exact ⟨_, hget, w3, by rw [w1, w2, Nat.mul_comm]⟩)
  have hArr := kernelRows_inv L g _ _ _ arr ha
  have hpos : 0 < oh * ow := by rw [hoh, how]; exact Nat.mul_pos (Nat.succ_pos _) (Nat.succ_pos _)
  obtain ⟨M, hM⟩ := im2col_ok L input_ g (input_.channels / L.groups_) (kernel_w * kernel_h)
    col_len kernel_h kernel_w rfl (Nat.mul_pos hkw hkh) (by rw [hcol]; exact hpos) hg rfl hfr hfc
    hUr hUc hsh hsw (by rw [hcol, hoh, how, Nat.mul_comm])
  obtain ⟨m1, m2, _⟩ := im2col_inv L input_ g _ _ _ _ _ _ _ M rfl hM
  obtain ⟨out', ho, e1, e2, e3⟩ := genericOutputs_ok L arr M g (kernel_count / L.groups_)
    (input_.channels / L.groups_) (kernel_w * kernel_h) col_len oh ow (kernel_count / L.groups_)
    out hbias (Nat.le_refl _)
    (by
      intro k hk
      obtain ⟨row, _, r1, _, r3, r4, _⟩ := hArr k hk
      exact ⟨row, r1, r3, r4⟩)
    m1 m2 hcol hU (by rw [hch]; exact hblock) hor hoc
  refine ⟨out', ?_, e1, e2, e3⟩
  have hdim : ¬ ¬ (out.channels = kernel_count ∧ out.rows = oh ∧ out.cols = ow) :=
    not_not.mpr ⟨hch, hor, hoc⟩
  unfold genericGroup
  rw [ha]
  simp only
  rw [hM]
  simp only
  rw [if_neg hdim, ho]

/-- The generic branch returns the output tensor, with its shape unchanged,
on a call whose weights, input and output tensor have matching sizes and
whose im2col matrix has one column for every window. -/
theorem genericBranch_ok (L : ConvolutionLayer) (input_ : Tensor)
    (kernel_count kernel_h kernel_w : Nat) (out : Tensor)
    (hbias : L.use_bias_ = false) (hgr : 0 < L.groups_)
    (hK : ∀ w ∈ L.weights_, w.rows = kernel_h ∧ w.cols = kernel_w ∧
      input_.channels / L.groups_ ≤ w.channels)
    (hkc : kernel_count ≤ L.weights_.length)
    (hkh : 0 < kernel_h) (hkw : 0 < kernel_w)
    (hfr : kernel_h ≤ input_.rows) (hfc : kernel_w ≤ input_.cols)
    (hUr : input_.rows + 1 < U32) (hUc : input_.cols + 1 < U32)
    (hsh : 0 < L.stride_h_) (hsw : 0 < L.stride_w_)
    (hcol : colLen L input_.rows input_.cols kernel_w =
      ((input_.rows - kernel_h) / L.stride_h_ + 1) * ((input_.cols - kernel_w) / L.stride_w_ + 1))
    (hU : ((input_.rows - kernel_h) / L.stride_h_ + 1) *
      ((input_.cols - kernel_w) / L.stride_w_ + 1) < U32)
    (hch : out.channels = kernel_count)
    (hor : out.rows = (input_.rows - kernel_h) / L.stride_h_ + 1)
    (hoc : out.cols = (input_.cols - kernel_w) / L.stride_w_ + 1) :
    ∃ out', genericBranch L input_ (some out) input_.rows input_.cols input_.channels
        kernel_count kernel_h kernel_w (outputSize input_.rows kernel_h L.stride_h_)
        (outputSize input_.cols kernel_w L.stride_w_) = .ok (some out') ∧
      out'.channels = out.channels ∧ out'.rows = out.rows ∧ out'.cols = out.cols := by
  obtain ⟨_, o1⟩ := window_count input_.rows kernel_h L.stride_h_ hfr hUr hsh
  obtain ⟨_, o2⟩ := window_count input_.cols kernel_w L.stride_w_ hfc hUc hsw
  rw [o1, o2]
  unfold genericBranch
  rw [if_neg (by omega)]
  obtain ⟨s', h1, t, h2, h3, h4, h5⟩ := loopM_range_ok
    (genericGroup L input_ input_.rows input_.cols input_.channels kernel_count kernel_h kernel_w
      ((input_.rows - kernel_h) / L.stride_h_ + 1) ((input_.cols - kernel_w) / L.stride_w_ + 1)
      (kernel_w * kernel_h) (colLen L input_.rows input_.cols kernel_w))
    (fun _ (s : Option Tensor) => ∃ t, s = some t ∧ t.channels = out.channels ∧
      t.rows = out.rows ∧ t.cols = out.cols)
    L.groups_ (some out) ⟨out, rfl, rfl, rfl, rfl⟩
    (by
      intro g s hg hP
      obtain ⟨t, p0, p1, p2, p3⟩ := hP
      obtain ⟨t', q0, q1, q2, q3⟩ := genericGroup_ok L input_ kernel_count kernel_h kernel_w
        ((input_.rows - kernel_h) / L.stride_h_ + 1) ((input_.cols - kernel_w) / L.stride_w_ + 1)
        (colLen L input_.rows input_.cols kernel_w) t g hbias hg hK hkc hkh hkw hfr hfc hUr hUc
        hsh hsw rfl rfl hcol hU (by rw [p1, hch]) (by rw [p2, hor]) (by rw [p3, hoc])
      refine ⟨some t', ?_, t', rfl, by rw [q1, p1], by rw [q2, p2], by rw [q3, p3]⟩
      rw [p0, q0])
  exact ⟨t, by rw [h1, h2], h3, h4, h5⟩

/-- With unit strides and a square kernel, the column count of line 152 is the
number of output positions. -/
theorem colLen_unit_stride_square (L : ConvolutionLayer) (input_h input_w k : Nat)
    (hsh : L.stride_h_ = 1) (hsw : L.stride_w_ = 1) (hfr : k ≤ input_h) (hfc : k ≤ input_w)
    (hUr : input_h + 1 < U32) (hUc : input_w + 1 < U32)
    (hU : ((input_h - k) / L.stride_h_ + 1) * ((input_w - k) / L.stride_w_ + 1) < U32) :
    colLen L input_h input_w k =
      ((input_h - k) / L.stride_h_ + 1) * ((input_w - k) / L.stride_w_ + 1) := by
  rw [hsh, hsw, Nat.div_one, Nat.div_one] at hU
  have a1 : sub32 input_w k = input_w - k := sub32_of_le (by omega) hfc
  have a2 : sub32 input_h k = input_h - k := sub32_of_le (by omega) hfr
  have a3 : u32 (input_w - k + 1) = input_w - k + 1 := u32_of_lt (by omega)
  have a4 : u32 (input_h - k + 1) = input_h - k + 1 := u32_of_lt (by omega)
  have a5 : u32 ((input_w - k + 1) * (input_h - k + 1)) = (input_w - k + 1) * (input_h - k + 1) :=
    u32_of_lt (by rw [Nat.mul_comm]; exact hU)
  have hne : ¬ ((input_w - k + 1) * (input_h - k + 1) = 0) :=
    Nat.pos_iff_ne_zero.mp (Nat.mul_pos (Nat.succ_pos _) (Nat.succ_pos _))
  unfold colLen
  rw [hsh, hsw, a1, a2, a3, a4, Nat.div_one, Nat.div_one, Nat.div_one, Nat.div_one, a5,
    if_neg hne, Nat.mul_comm]

end ConvolutionLayer

/-! ### The size check and the constructor -/

namespace ConvolutionLayer

/-- With stride 1, an input at least two cells shorter than the kernel gives a
32-bit output size that is positive: the difference wraps around. -/
theorem outputSize_wraps (input kernel : Nat) (h1 : input + 2 ≤ kernel) (h2 : kernel < U32) :
    outputSize input kernel 1 = U32 + input + 1 - kernel ∧ 0 < outputSize input kernel 1 := by
  have e : outputSize input kernel 1 = U32 + input + 1 - kernel := by
    simp only [outputSize, u32, sub32, U32, Nat.div_one] at h2 ⊢
    omega
  rw [e]
  exact ⟨rfl, by omega⟩

/-- With stride 1, an input exactly one cell shorter than the kernel gives the
32-bit output size 0, the one case in which the assertion of line 82 fires. -/
theorem outputSize_zero (input : Nat) : outputSize input (input + 1) 1 = 0 := by
  simp only [outputSize, u32, sub32, U32, Nat.div_one]
  omega

/-- The loop of lines 24-31 appends `output_channel` weight tensors of the
given shape and, when `use_bias_` holds, as many scalar bias tensors; the
other fields are left alone. -/
theorem pushTensors_spec (L : ConvolutionLayer) (output_channel in_channel kernel_h kernel_w : Nat) :
    (pushTensors L output_channel in_channel kernel_h kernel_w).weights_ =
        L.weights_ ++ List.replicate output_channel (Tensor.create in_channel kernel_h kernel_w) ∧
      (pushTensors L output_channel in_channel kernel_h kernel_w).bias_ =
        (if L.use_bias_ = true then L.bias_ ++ List.replicate output_channel (Tensor.create 1 1 1)
          else L.bias_) ∧
      (pushTensors L output_channel in_channel kernel_h kernel_w).padding_h_ = L.padding_h_ ∧
      (pushTensors L output_channel in_channel kernel_h kernel_w).padding_w_ = L.padding_w_ ∧
      (pushTensors L output_channel in_channel kernel_h kernel_w).stride_h_ = L.stride_h_ ∧
      (pushTensors L output_channel in_channel kernel_h kernel_w).stride_w_ = L.stride_w_ ∧
      (pushTensors L output_channel in_channel kernel_h kernel_w).groups_ = L.groups_ ∧
      (pushTensors L output_channel in_channel kernel_h kernel_w).use_bias_ = L.use_bias_ := by
  unfold pushTensors
  apply foldl_range_inv _
    (fun n (M : ConvolutionLayer) =>
      M.weights_ = L.weights_ ++ List.replicate n (Tensor.create in_channel kernel_h kernel_w) ∧
      M.bias_ = (if L.use_bias_ = true then L.bias_ ++ List.replicate n (Tensor.create 1 1 1)
        else L.bias_) ∧
      M.padding_h_ = L.padding_h_ ∧ M.padding_w_ = L.padding_w_ ∧ M.stride_h_ = L.stride_h_ ∧
      M.stride_w_ = L.stride_w_ ∧ M.groups_ = L.groups_ ∧ M.use_bias_ = L.use_bias_)
  · simp
  · intro i M _ hP
    obtain ⟨p1, p2, p3, p4, p5, p6, p7, p8⟩ := hP
    refine ⟨?_, ?_, p3, p4, p5, p6, p7, p8⟩
    · simp only [p1, List.append_assoc, List.replicate_succ']
    · simp only [p8, p2]
      by_cases hb : L.use_bias_ = true
      · simp only [if_pos hb, List.append_assoc, List.replicate_succ']
      · simp only [if_neg hb]

end ConvolutionLayer

/-! ### The faults of the Winograd branch -/

/-- A counted loop that stops with a fault does so in a round that started
from a state satisfying the invariant. -/
theorem loopM_range_fault {σ : Type} (f : σ → Nat → Except Fault σ) (P : Nat → σ → Prop)
    (n : Nat) (s₀ : σ) (h0 : P 0 s₀)
    (hstep : ∀ i s s', i < n → P i s → f s i = .ok s' → P (i + 1) s') (e : Fault)
    (h : loopM f (List.range n) s₀ = .error e) :
    ∃ i s, i < n ∧ P i s ∧ f s i = .error e := by
  induction n with
  | zero =>
    simp only [List.range_zero, loopM] at h
    cases h
  | succ n ih =>
    rw [loopM_range_succ] at h
    cases hl : loopM f (List.range n) s₀ with
    | error e' =>
      rw [hl] at h
      simp only at h
      cases h
      obtain ⟨i, s, hi, hP, hf⟩ := ih (fun i s s' hi => hstep i s s' (Nat.lt_succ_of_lt hi)) hl
      exact ⟨i, s, Nat.lt_succ_of_lt hi, hP, hf⟩
    | ok s =>
      rw [hl] at h
      simp only at h
      have hP := loopM_range_inv f P n s₀ h0
        (fun i s s' hi => hstep i s s' (Nat.lt_succ_of_lt hi)) s hl
      exact ⟨n, s, Nat.lt_succ_self n, hP, h⟩

namespace ConvolutionLayer

/-- On an input whose sizes are multiples of 4, a round of the loop over the
input channels keeps the size of the accumulator, and when it stops it does
so neither at the assertion of line 123 nor in the matrix library. -/
theorem winogradChannel_aligned (input_ kernel : Tensor) (ohp owp : Nat) (acc : Mat) (ic : Nat)
    (h5 : input_.rows % 4 = 0) (h6 : input_.cols % 4 = 0) (hacc : acc.n_rows = ohp) :
    (∀ m, winogradChannel input_ kernel ohp owp acc ic = .ok m →
        m.n_rows = acc.n_rows ∧ m.n_cols = acc.n_cols) ∧
      ∀ e, winogradChannel input_ kernel ohp owp acc ic = .error e →
        e ≠ Fault.check 123 ∧ e ≠ Fault.armaBounds := by
  unfold winogradChannel Tensor.at_
  by_cases c1 : ic < input_.channels
  · by_cases c2 : ic < kernel.channels
    · by_cases c3 : kernel.cols = 3 ∧ kernel.rows = 3
      · simp only [if_pos c1, if_pos c2, if_neg (not_not.mpr c3),
          if_neg (not_not.mpr (And.intro h5 h6))]
        constructor
        · intro m hm
          cases hm
          obtain ⟨t1, t2, _⟩ := tileLoops_spec
            (WinogradTransformG (Mat.mk kernel.rows kernel.cols (kernel.mem ic)))
            (Mat.mk input_.rows input_.cols (input_.mem ic)) ohp owp acc hacc
          exact ⟨t1, t2⟩
        · intro e he
          cases he
      · simp only [if_pos c1, if_pos c2, if_pos c3]
        constructor
        · intro m hm
          cases hm
        · intro e he
          cases he
          exact ⟨by decide, by decide⟩
    · simp only [if_pos c1, if_neg c2]
      constructor
      · intro m hm
        cases hm
      · intro e he
        cases he
        exact ⟨by decide, by decide⟩
  · simp only [if_neg c1]
    constructor
    · intro m hm
      cases hm
    · intro e he
      cases he
      exact ⟨by decide, by decide⟩

/-- On an input whose sizes are multiples of 4 and with an accumulator at
least as large as the output, a round of the loop over the output channels
stops neither at the assertion of line 123 nor at the sub-matrix view of line
148. -/
theorem winogradOutput_aligned (L : ConvolutionLayer) (input_ : Tensor)
    (n oh ow ohp owp : Nat) (t : Tensor) (oc : Nat) (e : Fault)
    (h5 : input_.rows % 4 = 0) (h6 : input_.cols % 4 = 0)
    (hr : sub32 oh 1 < ohp) (hc : sub32 ow 1 < owp)
    (h : winogradOutput L input_ n oh ow ohp owp t oc = .error e) :
    e ≠ Fault.check 123 ∧ e ≠ Fault.armaBounds := by
  unfold winogradOutput at h
  cases hk : L.weights_[oc]? with
  | none =>
    rw [hk] at h
    cases h
    exact ⟨by decide, by decide⟩
  | some kernel =>
    rw [hk] at h
    simp only [Tensor.at_, Tensor.create] at h
    by_cases c1 : oc < L.weights_.length
    · rw [if_pos c1] at h
      simp only at h
      by_cases c2 : oc < t.channels
      · rw [if_pos c2] at h
        simp only at h
        cases hl : loopM (winogradChannel input_ kernel ohp owp) (List.range n)
            (Mat.mk ohp owp (fun _ => 0)) with
        | error e' =>
          rw [hl] at h
          simp only at h
          cases h
          obtain ⟨i, s, _, hP, hf⟩ := loopM_range_fault
            (winogradChannel input_ kernel ohp owp)
            (fun _ (m : Mat) => m.n_rows = ohp ∧ m.n_cols = owp) n
            (Mat.mk ohp owp (fun _ => 0)) ⟨rfl, rfl⟩
            (by
              intro i s s' _ hP hs
              obtain ⟨d1, d2⟩ := (winogradChannel_aligned input_ kernel ohp owp s i h5 h6 hP.1).1
                s' hs
              exact ⟨by rw [d1, hP.1], by rw [d2, hP.2]⟩)
            e hl
          exact (winogradChannel_aligned input_ kernel ohp owp s i h5 h6 hP.1).2 e hf
        | ok acc =>
          rw [hl] at h
          simp only at h
          have hd := loopM_range_inv (winogradChannel input_ kernel ohp owp)
            (fun _ (m : Mat) => m.n_rows = ohp ∧ m.n_cols = owp) n
            (Mat.mk ohp owp (fun _ => 0)) ⟨rfl, rfl⟩
            (by
              intro i s s' _ hP hs
              obtain ⟨d1, d2⟩ := (winogradChannel_aligned input_ kernel ohp owp s i h5 h6 hP.1).1
                s' hs
              exact ⟨by rw [d1, hP.1], by rw [d2, hP.2]⟩)
            acc hl
          have hsub : sub32 oh 1 < acc.n_rows ∧ sub32 ow 1 < acc.n_cols := by
            rw [hd.1, hd.2]
            exact ⟨hr, hc⟩
          simp only [submat, if_pos hsub, Tensor.assign, if_pos c2] at h
          split_ifs at h
          cases h
          exact ⟨by decide, by decide⟩
      · rw [if_neg c2] at h
        cases h
        exact ⟨by decide, by decide⟩
    · rw [if_neg c1] at h
      cases h
      exact ⟨by decide, by decide⟩

end ConvolutionLayer

/-! ### The fill loops of the upsample layer -/

/-- The number of rounds of a loop that steps by `s` up to `n * s`. -/
theorem steps_count (n s : Nat) (hs : 0 < s) : (n * s + s - 1) / s = n := by
  apply Nat.div_eq_of_lt_le
  · omega
  · rw [Nat.succ_mul]
    omega

namespace UpSampleLayer

/-- Lines 85-87: the write loop stores `v` into `cnt` consecutive cells of
column `col`, starting at row `h`, and leaves the other cells alone. -/
theorem storeRows_ok (m : Mat) (col h cnt : Nat) (v : Int) (hcol : col < m.n_cols)
    (hh : h + cnt ≤ m.n_rows) :
    ∃ m', loopM (fun (m : Mat) h_ => storeAt m (col * m.n_rows + h_ + h) v) (List.range cnt) m =
        .ok m' ∧
      m'.n_rows = m.n_rows ∧ m'.n_cols = m.n_cols ∧
      ∀ k, m'.mem k =
        if col * m.n_rows + h ≤ k ∧ k < col * m.n_rows + h + cnt then v else m.mem k := by
  have hblock : col * m.n_rows + m.n_rows ≤ m.n_rows * m.n_cols := by
    have := Nat.mul_le_mul_right m.n_rows (Nat.succ_le_of_lt hcol)
    rw [Nat.succ_mul, Nat.mul_comm m.n_cols] at this
    exact this
  obtain ⟨m', h1, h2, h3, h4⟩ := loopM_range_ok
    (fun (m : Mat) h_ => storeAt m (col * m.n_rows + h_ + h) v)
    (fun i (s : Mat) => s.n_rows = m.n_rows ∧ s.n_cols = m.n_cols ∧
      ∀ k, s.mem k = if col * m.n_rows + h ≤ k ∧ k < col * m.n_rows + h + i then v else m.mem k)
    cnt m
    ⟨rfl, rfl, by
      intro k
      rw [if_neg (by omega)]⟩
    (by
      intro i s hi hP
      obtain ⟨p1, p2, p3⟩ := hP
      have hb : col * s.n_rows + i + h < s.n_rows * s.n_cols := by
        rw [p1, p2]
        omega
      refine ⟨Mat.mk s.n_rows s.n_cols (fun k => if k = col * s.n_rows + i + h then v
        else s.mem k), ?_, p1, p2, ?_⟩
      · simp only [storeAt, if_pos hb]
      · intro k
        simp only
        rw [p1]
        by_cases hk : k = col * m.n_rows + i + h
        · rw [if_pos hk, if_pos (by omega)]
        · rw [if_neg hk, p3 k]
          by_cases hk2 : col * m.n_rows + h ≤ k ∧ k < col * m.n_rows + h + i
          · rw [if_pos hk2, if_pos (by omega)]
          · rw [if_neg hk2, if_neg (by omega)])
  exact ⟨m', h1, h2, h3, h4⟩

/-- Lines 79-88: column `col` of the output receives, in row `r`, the value of
row `r / scale_h_` of column `src_w` of the input; the other columns are left
alone. -/
theorem fillColumn_ok (L : UpSampleLayer) (input_channel : Mat) (src_w : Nat) (m : Mat)
    (col : Nat) (hs : 0 < L.scale_h_) (hrows : m.n_rows = input_channel.n_rows * L.scale_h_)
    (hU : input_channel.n_rows * L.scale_h_ < U32) (hcol : col < m.n_cols) :
    ∃ m', fillColumn L input_channel src_w m col = .ok m' ∧
      m'.n_rows = m.n_rows ∧ m'.n_cols = m.n_cols ∧
      ∀ k, m'.mem k =
        if col * m.n_rows ≤ k ∧ k < col * m.n_rows + m.n_rows then
          input_channel.mem (src_w * input_channel.n_rows + (k - col * m.n_rows) / L.scale_h_)
        else m.mem k := by
  have hHle : input_channel.n_rows ≤ input_channel.n_rows * L.scale_h_ :=
    Nat.le_mul_of_pos_right _ hs
  have hcnt : (m.n_rows + L.scale_h_ - 1) / L.scale_h_ = input_channel.n_rows := by
    rw [hrows]
    exact steps_count _ _ hs
  unfold fillColumn steps
  rw [if_neg (by omega), loopM_map, hcnt]
  obtain ⟨m', h1, h2, h3, h4⟩ := loopM_range_ok
    (fun (m : Mat) i =>
      if ¬ (u32 (i * L.scale_h_ / L.scale_h_) < input_channel.n_rows) then
        Except.error (Fault.check 81)
      else
        loopM
          (fun (m : Mat) h_ =>
            storeAt m (col * m.n_rows + h_ + i * L.scale_h_)
              (input_channel.mem (src_w * input_channel.n_rows +
                u32 (i * L.scale_h_ / L.scale_h_))))
          (List.range L.scale_h_) m)
    (fun i (s : Mat) => s.n_rows = m.n_rows ∧ s.n_cols = m.n_cols ∧
      ∀ k, s.mem k =
        if col * m.n_rows ≤ k ∧ k < col * m.n_rows + i * L.scale_h_ then
          input_channel.mem (src_w * input_channel.n_rows + (k - col * m.n_rows) / L.scale_h_)
        else m.mem k)
    input_channel.n_rows m
    ⟨rfl, rfl, by
      intro k
      rw [if_neg (by omega)]⟩
    (by
      intro i s hi hP
      obtain ⟨p1, p2, p3⟩ := hP
      have e1 : i * L.scale_h_ / L.scale_h_ = i := Nat.mul_div_cancel i hs
      have e2 : u32 i = i := u32_of_lt (by omega)
      have hfit : i * L.scale_h_ + L.scale_h_ ≤ input_channel.n_rows * L.scale_h_ := by
        have := Nat.mul_le_mul_right L.scale_h_ (Nat.succ_le_of_lt hi)
        rw [Nat.succ_mul] at this
        exact this
      obtain ⟨s', q1, q2, q3, q4⟩ := storeRows_ok s col (i * L.scale_h_) L.scale_h_
        (input_channel.mem (src_w * input_channel.n_rows + i)) (by rw [p2]; exact hcol)
        (by rw [p1, hrows]; exact hfit)
      refine ⟨s', ?_, by rw [q2, p1], by rw [q3, p2], ?_⟩
      · beta_reduce
        rw [e1, e2, if_neg (not_not.mpr hi)]
        exact q1
      · intro k
        rw [q4 k, p1, p3 k]
        by_cases hk : col * m.n_rows + i * L.scale_h_ ≤ k ∧
            k < col * m.n_rows + i * L.scale_h_ + L.scale_h_
        · have hdiv : (k - col * m.n_rows) / L.scale_h_ = i :=
            Nat.div_eq_of_lt_le (by omega) (by rw [Nat.succ_mul]; omega)
          rw [if_pos hk, if_pos (by rw [Nat.succ_mul]; omega), hdiv]
        · rw [if_neg hk]
          by_cases hk2 : col * m.n_rows ≤ k ∧ k < col * m.n_rows + i * L.scale_h_
          · rw [if_pos hk2, if_pos (by rw [Nat.succ_mul]; omega)]
          · rw [if_neg hk2, if_neg (by rw [Nat.succ_mul]; omega)])
  refine ⟨m', h1, h2, h3, ?_⟩
  intro k
  rw [h4 k, ← hrows]

end UpSampleLayer

namespace UpSampleLayer

/-- Lines 69-90: after the loops over the columns, cell `(r, c)` of the output
channel holds cell `(r / scale_h_, c / scale_w_)` of the input channel. Cells
are addressed by their offset `k = r + c * n_rows`. -/
theorem upsampleChannel_ok (L : UpSampleLayer) (input_channel m : Mat)
    (hsh : 0 < L.scale_h_) (hsw : 0 < L.scale_w_) (hH : 0 < input_channel.n_rows)
    (hrows : m.n_rows = input_channel.n_rows * L.scale_h_)
    (hcols : m.n_cols = input_channel.n_cols * L.scale_w_)
    (hUr : input_channel.n_rows * L.scale_h_ < U32)
    (hUc : input_channel.n_cols * L.scale_w_ < U32) :
    ∃ m', upsampleChannel L input_channel m = .ok m' ∧
      m'.n_rows = m.n_rows ∧ m'.n_cols = m.n_cols ∧
      ∀ k, k < m.n_cols * m.n_rows →
        m'.mem k = input_channel.mem
          (k / m.n_rows / L.scale_w_ * input_channel.n_rows + k % m.n_rows / L.scale_h_) := by
  have hn : 0 < m.n_rows := by rw [hrows]; exact Nat.mul_pos hH hsh
  have hWle : input_channel.n_cols ≤ input_channel.n_cols * L.scale_w_ :=
    Nat.le_mul_of_pos_right _ hsw
  have hcnt : (m.n_cols + L.scale_w_ - 1) / L.scale_w_ = input_channel.n_cols := by
    rw [hcols]
    exact steps_count _ _ hsw
  -- one column
  have column : ∀ (q : Nat) (s : Mat), q < m.n_cols →
      (s.n_rows = m.n_rows ∧ s.n_cols = m.n_cols ∧
        ∀ k, s.mem k =
          if k < q * m.n_rows then
            input_channel.mem
              (k / m.n_rows / L.scale_w_ * input_channel.n_rows + k % m.n_rows / L.scale_h_)
          else m.mem k) →
      ∃ s', fillColumn L input_channel (q / L.scale_w_) s q = .ok s' ∧
        s'.n_rows = m.n_rows ∧ s'.n_cols = m.n_cols ∧
        ∀ k, s'.mem k =
          if k < (q + 1) * m.n_rows then
            input_channel.mem
              (k / m.n_rows / L.scale_w_ * input_channel.n_rows + k % m.n_rows / L.scale_h_)
          else m.mem k := by
    intro q s hq hP
    obtain ⟨p1, p2, p3⟩ := hP
    obtain ⟨s', f1, f2, f3, f4⟩ := fillColumn_ok L input_channel (q / L.scale_w_) s q hsh
      (by rw [p1]; exact hrows) hUr (by rw [p2]; exact hq)
    refine ⟨s', f1, by rw [f2, p1], by rw [f3, p2], ?_⟩
    intro k
    rw [f4 k, p1, p3 k, Nat.succ_mul]
    by_cases hk : q * m.n_rows ≤ k ∧ k < q * m.n_rows + m.n_rows
    · have hdiv : k / m.n_rows = q :=
        Nat.div_eq_of_lt_le hk.1 (by rw [Nat.succ_mul]; exact hk.2)
      have hmod : k % m.n_rows = k - q * m.n_rows := by
        have := Nat.div_add_mod k m.n_rows
        rw [hdiv, Nat.mul_comm] at this
        omega
      rw [if_pos hk, if_pos hk.2, hdiv, hmod]
    · rw [if_neg hk]
      by_cases hk2 : k < q * m.n_rows
      · rw [if_pos hk2, if_pos (by omega)]
      · rw [if_neg hk2, if_neg (by omega)]
  unfold upsampleChannel steps
  rw [if_neg (by omega), loopM_map, hcnt]
  obtain ⟨m', h1, h2, h3, h4⟩ := loopM_range_ok
    (fun (m : Mat) j =>
      if ¬ (u32 (j * L.scale_w_ / L.scale_w_) < input_channel.n_cols) then
        Except.error (Fault.check 74)
      else
        loopM
          (fun (m : Mat) w_ =>
            fillColumn L input_channel (u32 (j * L.scale_w_ / L.scale_w_)) m
              (w_ + j * L.scale_w_))
          (List.range L.scale_w_) m)
    (fun j (s : Mat) => s.n_rows = m.n_rows ∧ s.n_cols = m.n_cols ∧
      ∀ k, s.mem k =
        if k < j * L.scale_w_ * m.n_rows then
          input_channel.mem
            (k / m.n_rows / L.scale_w_ * input_channel.n_rows + k % m.n_rows / L.scale_h_)
        else m.mem k)
    input_channel.n_cols m
    ⟨rfl, rfl, by
      intro k
      rw [if_neg (by simp)]⟩
    (by
      intro j s hj hP
      have e1 : j * L.scale_w_ / L.scale_w_ = j := Nat.mul_div_cancel j hsw
      have e2 : u32 j = j := u32_of_lt (by omega)
      obtain ⟨s', i1, i2⟩ := loopM_range_ok
        (fun (m : Mat) w_ => fillColumn L input_channel j m (w_ + j * L.scale_w_))
        (fun w_ (s : Mat) => s.n_rows = m.n_rows ∧ s.n_cols = m.n_cols ∧
          ∀ k, s.mem k =
            if k < (w_ + j * L.scale_w_) * m.n_rows then
              input_channel.mem
                (k / m.n_rows / L.scale_w_ * input_channel.n_rows + k % m.n_rows / L.scale_h_)
            else m.mem k)
        L.scale_w_ s
        (by
          beta_reduce
          rw [Nat.zero_add]
          exact hP)
        (by
          intro w_ t hw hQ
          have hq : w_ + j * L.scale_w_ < m.n_cols := by
            rw [hcols]
            have := Nat.mul_le_mul_right L.scale_w_ (Nat.succ_le_of_lt hj)
            rw [Nat.succ_mul] at this
            omega
          have hsrc : (w_ + j * L.scale_w_) / L.scale_w_ = j := offset_div j hw
          obtain ⟨t', c1, c2, c3, c4⟩ := column (w_ + j * L.scale_w_) t hq hQ
          rw [hsrc] at c1
          refine ⟨t', c1, c2, c3, ?_⟩
          intro k
          rw [c4 k]
          have e : w_ + 1 + j * L.scale_w_ = w_ + j * L.scale_w_ + 1 := by omega
          rw [e])
      refine ⟨s', ?_, i2.1, i2.2.1, ?_⟩
      · beta_reduce
        rw [e1, e2, if_neg (not_not.mpr hj)]
        exact i1
      · intro k
        rw [i2.2.2 k]
        have e : L.scale_w_ + j * L.scale_w_ = (j + 1) * L.scale_w_ := by
          rw [Nat.succ_mul]
          omega
        rw [e])
  refine ⟨m', h1, h2, h3, ?_⟩
  intro k hk
  rw [h4 k, ← hcols, if_pos hk]

end UpSampleLayer

namespace UpSampleLayer

/-- Lines 66-91: after the loop over the channels, every channel of the
output holds the upsampled channel of the input. -/
theorem upsampleSlices_ok (L : UpSampleLayer) (x out : Tensor)
    (hsh : 0 < L.scale_h_) (hsw : 0 < L.scale_w_) (hH : 0 < x.rows)
    (hch : out.channels = x.channels) (hrows : out.rows = x.rows * L.scale_h_)
    (hcols : out.cols = x.cols * L.scale_w_)
    (hUr : x.rows * L.scale_h_ < U32) (hUc : x.cols * L.scale_w_ < U32) :
    ∃ out', loopM (upsampleSlice L x) (List.range x.channels) out = .ok out' ∧
      out'.channels = out.channels ∧ out'.rows = out.rows ∧ out'.cols = out.cols ∧
      ∀ c k, c < x.channels → k < out.cols * out.rows →
        out'.mem c k =
          x.mem c (k / out.rows / L.scale_w_ * x.rows + k % out.rows / L.scale_h_) := by
  apply loopM_range_ok _
    (fun n (s : Tensor) => s.channels = out.channels ∧ s.rows = out.rows ∧ s.cols = out.cols ∧
      ∀ c k, c < n → k < out.cols * out.rows →
        s.mem c k = x.mem c (k / out.rows / L.scale_w_ * x.rows + k % out.rows / L.scale_h_))
    x.channels out ⟨rfl, rfl, rfl, fun c k hc => absurd hc (Nat.not_lt_zero c)⟩
  intro c s hc hP
  obtain ⟨p1, p2, p3, p4⟩ := hP
  have hcs : c < s.channels := by rw [p1, hch]; exact hc
  obtain ⟨m', u1, u2, u3, u4⟩ := upsampleChannel_ok L (Mat.mk x.rows x.cols (x.mem c))
    (Mat.mk s.rows s.cols (s.mem c)) hsh hsw hH (by rw [p2]; exact hrows)
    (by rw [p3]; exact hcols) hUr hUc
  refine ⟨Tensor.mk s.channels s.rows s.cols (fun ch => if ch = c then m'.mem else s.mem ch),
    ?_, p1, p2, p3, ?_⟩
  · simp only [upsampleSlice, slice, if_pos hc, if_pos hcs]
    rw [u1]
  · intro c' k hc' hk
    simp only
    by_cases hcc : c' = c
    · rw [if_pos hcc, hcc]
      have := u4 k (by rw [p2, p3]; exact hk)
      simp only [p2] at this
      exact this
    · rw [if_neg hcc]
      exact p4 c' k (by omega) hk

/-- Lines 42-91: on a non-empty input whose upsampled sizes fit 32 bits and an
output that is null, empty or pre-sized, a round of the batch loop leaves an
output of the upsampled shape whose cell `(c, h, w)` holds cell
`(c, h / scale_h_, w / scale_w_)` of the input. -/
theorem upsampleElem_ok (L : UpSampleLayer) (x : Tensor) (y : Option Tensor)
    (hsh : 0 < L.scale_h_) (hsw : 0 < L.scale_w_) (hne : x.empty = false)
    (hUr : x.rows * L.scale_h_ < U32) (hUc : x.cols * L.scale_w_ < U32)
    (hy : ∀ u : Tensor, y = some u → u.empty = true ∨
      (u.channels = x.channels ∧ u.rows = x.rows * L.scale_h_ ∧
        u.cols = x.cols * L.scale_w_)) :
    ∃ y' : Tensor, upsampleElem L (some x) y = .ok (some y') ∧
      y'.channels = x.channels ∧ y'.rows = x.rows * L.scale_h_ ∧
      y'.cols = x.cols * L.scale_w_ ∧
      ∀ c h w, c < x.channels → h < y'.rows → w < y'.cols →
        y'.get c h w = x.get c (h / L.scale_h_) (w / L.scale_w_) := by
  have hH : 0 < x.rows := by
    simp only [Tensor.empty, Bool.or_eq_false_iff, beq_eq_false_iff_ne] at hne
    omega
  have hfresh : (Tensor.create x.channels (u32 (x.rows * L.scale_h_))
        (u32 (x.cols * L.scale_w_))).channels = x.channels ∧
      (Tensor.create x.channels (u32 (x.rows * L.scale_h_))
        (u32 (x.cols * L.scale_w_))).rows = x.rows * L.scale_h_ ∧
      (Tensor.create x.channels (u32 (x.rows * L.scale_h_))
        (u32 (x.cols * L.scale_w_))).cols = x.cols * L.scale_w_ :=
    ⟨rfl, u32_of_lt hUr, u32_of_lt hUc⟩
  have hdims : (outputFor L x y).channels = x.channels ∧
      (outputFor L x y).rows = x.rows * L.scale_h_ ∧
      (outputFor L x y).cols = x.cols * L.scale_w_ := by
    cases y with
    | none => exact hfresh
    | some u =>
      by_cases he : u.empty = true
      · simp only [outputFor, if_pos he]
        exact hfresh
      · simp only [outputFor, if_neg he]
        rcases hy u rfl with h | h
        · exact absurd h he
        · exact h
  obtain ⟨d1, d2, d3⟩ := hdims
  obtain ⟨out', l1, l2, l3, l4, l5⟩ := upsampleSlices_ok L x (outputFor L x y) hsh hsw hH d1 d2 d3
    hUr hUc
  refine ⟨out', ?_, by rw [l2, d1], by rw [l3, d2], by rw [l4, d3], ?_⟩
  · simp only [upsampleElem, if_neg (not_not.mpr d2), if_neg (not_not.mpr d3),
      if_neg (not_not.mpr d1.symm), l1]
  · intro c h w hc hh hw
    rw [l3] at hh
    rw [l4] at hw
    have hk : h + w * (outputFor L x y).rows <
        (outputFor L x y).cols * (outputFor L x y).rows := by
      have := Nat.mul_le_mul_right (outputFor L x y).rows (Nat.succ_le_of_lt hw)
      rw [Nat.succ_mul] at this
      omega
    have e := l5 c (h + w * (outputFor L x y).rows) hc hk
    rw [offset_div w hh, offset_mod w hh] at e
    simp only [Tensor.get]
    rw [l3, e, Nat.add_comm]

/-- Lines 41-92: the batch loop returns when every round does, and output `i`
is what round `i` left. -/
theorem upsampleBatch_ok (L : UpSampleLayer) :
    ∀ (inputs outputs : List (Option Tensor)), inputs.length = outputs.length →
      (∀ (i : Nat) (x y : Option Tensor), inputs[i]? = some x → outputs[i]? = some y →
        ∃ y', upsampleElem L x y = .ok y') →
      ∃ outs, upsampleBatch L inputs outputs = .ok outs ∧
        ∀ (i : Nat) (x y : Option Tensor), inputs[i]? = some x → outputs[i]? = some y →
          ∃ y', upsampleElem L x y = .ok y' ∧ outs[i]? = some y' := by
  intro inputs
  induction inputs with
  | nil =>
    intro outputs _ _
    refine ⟨[], by cases outputs <;> rfl, ?_⟩
    intro i x y hx
    simp at hx
  | cons a inputs ih =>
    intro outputs hlen h
    cases outputs with
    | nil => simp at hlen
    | cons b outputs =>
      obtain ⟨p, hp⟩ := h 0 a b (by simp) (by simp)
      obtain ⟨q, hq, hq'⟩ := ih outputs (by simpa using hlen)
        (fun i x y hx hy => h (i + 1) x y (by simpa using hx) (by simpa using hy))
      refine ⟨p :: q, by simp only [upsampleBatch, hp, hq], ?_⟩
      intro i x y hx hy
      cases i with
      | zero =>
        simp only [List.getElem?_cons_zero, Option.some.injEq] at hx hy
        subst hx hy
        exact ⟨p, hp, by simp⟩
      | succ i =>
        simp only [List.getElem?_cons_succ] at hx hy
        obtain ⟨y', e1, e2⟩ := hq' i x y hx hy
        exact ⟨y', e1, by simpa using e2⟩

end UpSampleLayer

/-! ### The Winograd branch on a batch of distinct tensors -/

namespace ConvolutionLayer

/-- For an operator with stride 1x1, 3x3 kernels, one group and no bias,
called on a batch that holds every input object once, whose padded inputs are
at least 3x3 (and small enough for 32-bit sizes), with the outputs pre-sized
by the caller, `Forward` returns success, and every output has
`output_channels x (padded_h - 2) x (padded_w - 2)` cells, each of which is
the sum over `ic < input_c`, `kh, kw < 3` of
`weight[oc](ic, kh, kw) * padded_input(ic, r + kh, c + kw)`. Moreover every
cell of the accumulator (of size `aligned - 2` in both directions) is written
by exactly one tile that the tile loops visit. -/
theorem Forward_winograd_distinct (L : ConvolutionLayer) (store : Nat → Tensor)
    (inputs : List (Option Nat)) (outputs : List (Option Tensor))
    (hs : L.stride_h_ = 1 ∧ L.stride_w_ = 1) (hg : L.groups_ = 1)
    (hbias : L.use_bias_ = false)
    (hin : inputs ≠ []) (hlen : inputs.length = outputs.length) (hw0 : L.weights_ ≠ [])
    (hk : ∀ w ∈ L.weights_, w.rows = 3 ∧ w.cols = 3)
    (hnd : inputs.Nodup)
    (hvalid : ∀ i, i < inputs.length → ∃ (a : Nat) (y : Tensor),
      inputs[i]? = some (some a) ∧ outputs[i]? = some (some y) ∧
      (∀ w ∈ L.weights_, w.channels = (store a).channels) ∧
      3 ≤ (paddedInput L (store a)).1.rows ∧ 3 ≤ (paddedInput L (store a)).1.cols ∧
      (paddedInput L (store a)).1.rows + 4 < U32 ∧
      (paddedInput L (store a)).1.cols + 4 < U32 ∧
      y.channels = L.weights_.length ∧ y.rows = (paddedInput L (store a)).1.rows - 2 ∧
      y.cols = (paddedInput L (store a)).1.cols - 2) :
    ∃ R, Forward L store inputs outputs = .ok R ∧ R.status = InferStatus.kInferSuccess ∧
      ∀ (i a : Nat), inputs[i]? = some (some a) →
        ∃ y' : Tensor, R.outputs[i]? = some (some y') ∧
          y'.channels = L.weights_.length ∧
          y'.rows = (paddedInput L (store a)).1.rows - 2 ∧
          y'.cols = (paddedInput L (store a)).1.cols - 2 ∧
          (∀ (oc : Nat) (kernel : Tensor), L.weights_[oc]? = some kernel →
            ∀ r c, r < y'.rows → c < y'.cols →
            y'.get oc r c = sumTo (store a).channels (fun ic =>
              sumTo 3 (fun kh => sumTo 3 (fun kw =>
                kernel.get ic kh kw *
                  (paddedInput L (store a)).1.get ic (r + kh) (c + kw))))) ∧
          (∀ r c, r < (alignedInput (paddedInput L (store a)).1).rows - 2 →
            c < (alignedInput (paddedInput L (store a)).1).cols - 2 →
            ∃! t : Nat × Nat, t.1 ∈ steps (alignedInput (paddedInput L (store a)).1).rows 2 ∧
              t.2 ∈ steps (alignedInput (paddedInput L (store a)).1).cols 2 ∧
              tileWrites (alignedInput (paddedInput L (store a)).1).rows
                (alignedInput (paddedInput L (store a)).1).cols
                ((alignedInput (paddedInput L (store a)).1).rows - 2)
                ((alignedInput (paddedInput L (store a)).1).cols - 2) t.1 t.2 r c) := by
  have hbody : ∀ (i a : Nat) (y : Tensor), inputs[i]? = some (some a) →
      outputs[i]? = some (some y) →
      ∃ y', forwardBody L (paddedInput L (store a)).1 (some y) =
            .ok (alignedInput (paddedInput L (store a)).1, some y') ∧
        y'.channels = y.channels ∧ y'.rows = y.rows ∧ y'.cols = y.cols ∧
        y.channels = L.weights_.length ∧ y.rows = (paddedInput L (store a)).1.rows - 2 ∧
        y.cols = (paddedInput L (store a)).1.cols - 2 ∧
        3 ≤ (paddedInput L (store a)).1.rows ∧ 3 ≤ (paddedInput L (store a)).1.cols ∧
        ∀ (oc : Nat) (kernel : Tensor), L.weights_[oc]? = some kernel →
          ∀ r c, r < (paddedInput L (store a)).1.rows - 2 →
            c < (paddedInput L (store a)).1.cols - 2 →
            y'.get oc r c = sumTo (store a).channels (fun ic =>
              sumTo 3 (fun kh => sumTo 3 (fun kw =>
                kernel.get ic kh kw *
                  (paddedInput L (store a)).1.get ic (r + kh) (c + kw)))) := by
    intro i a y hx hy
    have hi : i < inputs.length := by
      rcases Nat.lt_or_ge i inputs.length with h | h
      · exact h
      · rw [List.getElem?_eq_none h] at hx; cases hx
    obtain ⟨a', y1, v1, v2, v3, v4, v5, v6, v7, v8, v9, v10⟩ := hvalid i hi
    rw [hx] at v1
    rw [hy] at v2
    simp only [Option.some.injEq] at v1 v2
    subst v1 v2
    obtain ⟨y', b1, b2, b3, b4, b5⟩ := forwardBody_winograd L (paddedInput L (store a)).1 y
      hs.1 hs.2 hg hw0 (fun w hmem => ⟨(hk w hmem).1, (hk w hmem).2,
        by rw [paddedInput_channels]; exact v3 w hmem⟩) v4 v5 v6 v7 v9 v10 (by omega)
    refine ⟨y', b1, b2, b3, b4, v8, v9, v10, v4, v5, ?_⟩
    intro oc kernel hker r c hr hc
    rw [b5 oc kernel hker r c hr hc, paddedInput_channels]
  have helem : ∀ (i : Nat) (ao : Option Nat) (yo : Option Tensor), inputs[i]? = some ao →
      outputs[i]? = some yo → ∃ p, forwardElem L (ao.map store) yo = .ok p := by
    intro i ao yo hx hy
    have hi : i < inputs.length := by
      rcases Nat.lt_or_ge i inputs.length with h | h
      · exact h
      · rw [List.getElem?_eq_none h] at hx; cases hx
    obtain ⟨a, y, v1, v2, _⟩ := hvalid i hi
    rw [hx] at v1
    rw [hy] at v2
    simp only [Option.some.injEq] at v1 v2
    subst v1 v2
    obtain ⟨y', b1, _⟩ := hbody i a y hx hy
    exact ⟨(if (paddedInput L (store a)).2 = true then
        some (alignedInput (paddedInput L (store a)).1)
      else some (store a), some y'), by simp only [Option.map_some', forwardElem, b1]⟩
  obtain ⟨store', outs, hp, hp'⟩ := forwardBatch_ok L inputs outputs store hlen hnd helem
  have hF := Forward_of_guards L store inputs outputs hin hlen hw0
    (fun h => by rw [hbias] at h; cases h) (by rw [hs.1]; decide) (by rw [hs.2]; decide)
  rw [hp] at hF
  refine ⟨_, hF, rfl, ?_⟩
  intro i a hx
  have hi : i < inputs.length := by
    rcases Nat.lt_or_ge i inputs.length with h | h
    · exact h
    · rw [List.getElem?_eq_none h] at hx; cases hx
  obtain ⟨a', y, v1, v2, _⟩ := hvalid i hi
  rw [hx] at v1
  simp only [Option.some.injEq] at v1
  subst v1
  obtain ⟨y', b1, b2, b3, b4, b5, b6, b7, b8, b9, b10⟩ := hbody i a y hx v2
  obtain ⟨x'', y'', e1, e3⟩ := hp' i (some a) (some y) hx v2
  have e4 : y'' = some y' := by
    simp only [Option.map_some', forwardElem, b1, Except.ok.injEq, Prod.mk.injEq] at e1
    exact e1.2.symm
  subst e4
  refine ⟨y', e3, by rw [b2, b5], by rw [b3, b6], by rw [b4, b7], ?_, ?_⟩
  · intro oc kernel hker r c hr hc
    exact b10 oc kernel hker r c (by rw [← b6, ← b3]; exact hr) (by rw [← b7, ← b4]; exact hc)
  · intro r c hr hc
    have hR : (alignedInput (paddedInput L (store a)).1).rows =
        (paddedInput L (store a)).1.rows + (4 - (paddedInput L (store a)).1.rows % 4) := by
      simp [alignedInput, Tensor.Padding]
    have hC : (alignedInput (paddedInput L (store a)).1).cols =
        (paddedInput L (store a)).1.cols + (4 - (paddedInput L (store a)).1.cols % 4) := by
      simp [alignedInput, Tensor.Padding]
    exact tile_unique _ _ r c (by rw [hR]; omega) (by rw [hC]; omega) (by omega) (by omega)

/-- For a kernel that fits the padded input and sizes that fit 32 bits, the
`output_h` and `output_w` of lines 80-81 are
`(H + 2 * padding_h - kernel_h) / stride_h + 1` and
`(W + 2 * padding_w - kernel_w) / stride_w + 1`. -/
theorem outputSize_padded (L : ConvolutionLayer) (x kernel0 : Tensor)
    (hfr : kernel0.rows ≤ x.rows + 2 * L.padding_h_)
    (hfc : kernel0.cols ≤ x.cols + 2 * L.padding_w_)
    (hUr : x.rows + 2 * L.padding_h_ < U32) (hUc : x.cols + 2 * L.padding_w_ < U32)
    (hUoh : (x.rows + 2 * L.padding_h_ - kernel0.rows) / L.stride_h_ + 1 < U32)
    (hUow : (x.cols + 2 * L.padding_w_ - kernel0.cols) / L.stride_w_ + 1 < U32) :
    outputSize (paddedInput L x).1.rows kernel0.rows L.stride_h_ =
        (x.rows + 2 * L.padding_h_ - kernel0.rows) / L.stride_h_ + 1 ∧
      outputSize (paddedInput L x).1.cols kernel0.cols L.stride_w_ =
        (x.cols + 2 * L.padding_w_ - kernel0.cols) / L.stride_w_ + 1 := by
  constructor
  · rw [paddedInput_rows]
    exact outputSize_eq _ _ _ hfr hUr hUoh
  · rw [paddedInput_cols]
    exact outputSize_eq _ _ _ hfc hUc hUow

end ConvolutionLayer

namespace ConvolutionLayer

/-! ## Properties -/

/-! ### The two branches -/

/-- C1. For an operator without bias, if `Forward` returns success and batch
element `i` takes the generic (im2col-matmul) branch, with a padded input at
least as large as the kernel and sizes that fit 32 bits (so that no size and
no loop counter wraps around), then output `i` has
`kernel_count x output_h x output_w` cells and, for every group `g`, every
`k < kernel_count / G` and every cell `(r, c)`, channel
`k + g * (kernel_count / G)` holds the sum over `ic < input_c / G`,
`kh < kernel_h`, `kw < kernel_w` of
`weight[k + g * kcg](ic, kh, kw) *
padded_input(g * (input_c / G) + ic, r * stride_h + kh, c * stride_w + kw)`:
the result of `G` independent convolutions on the channel slices. (That `G`
divides both channel counts is checked by every successful call, lines
84-87.) Here `x` is the tensor behind input `i` before the call; the batch may
hold one tensor object several times. -/
theorem C1_generic_computes_grouped_convolution (L : ConvolutionLayer)
    (store : Nat → Tensor) (inputs : List (Option Nat)) (outputs : List (Option Tensor))
    (R : Returned) (i : Nat) (x kernel0 : Tensor)
    (hbias : L.use_bias_ = false)
    (hrun : Forward L store inputs outputs = .ok R)
    (hsucc : R.status = InferStatus.kInferSuccess)
    (hx : (valuesOf store inputs)[i]? = some (some x))
    (hk0 : L.weights_.head? = some kernel0)
    (hgen : useWinograd L kernel0.rows kernel0.cols = false)
    (hfr : kernel0.rows ≤ (paddedInput L x).1.rows)
    (hfc : kernel0.cols ≤ (paddedInput L x).1.cols)
    (hUr : (paddedInput L x).1.rows + L.stride_h_ < U32)
    (hUc : (paddedInput L x).1.cols + L.stride_w_ < U32)
    (hU : (((paddedInput L x).1.rows - kernel0.rows) / L.stride_h_ + 1) *
      (((paddedInput L x).1.cols - kernel0.cols) / L.stride_w_ + 1) < U32) :
    ∃ y' : Tensor, R.outputs[i]? = some (some y') ∧
      y'.channels = L.weights_.length ∧
      y'.rows = ((paddedInput L x).1.rows - kernel0.rows) / L.stride_h_ + 1 ∧
      y'.cols = ((paddedInput L x).1.cols - kernel0.cols) / L.stride_w_ + 1 ∧
      ∀ (g k : Nat) (kernel : Tensor), g < L.groups_ → k < L.weights_.length / L.groups_ →
        L.weights_[k + g * (L.weights_.length / L.groups_)]? = some kernel →
        ∀ r c, r < y'.rows → c < y'.cols →
          y'.get (k + g * (L.weights_.length / L.groups_)) r c =
            convolutionSum L kernel (paddedInput L x).1 g (x.channels / L.groups_) r c := by
  obtain ⟨_, f2, _, _, f5, f6, store', f7, _⟩ :=
    Forward_success_inv L store inputs outputs R hrun hsucc
  simp only [valuesOf, List.getElem?_map] at hx
  have hi : i < inputs.length := by
    rcases Nat.lt_or_ge i inputs.length with h | h
    · exact h
    · rw [List.getElem?_eq_none h] at hx; cases hx
  have ha : inputs[i]? = some (inputs[i]) := List.getElem?_eq_getElem hi
  rw [ha] at hx
  simp only [Option.map_some', Option.some.injEq] at hx
  have hy : outputs[i]? = some (outputs[i]) := List.getElem?_eq_getElem (by omega)
  obtain ⟨x', y'', e1, e3⟩ := (forwardBatch_frame L
    (forwardElem_generic_frame L kernel0 hk0 hgen) inputs outputs store store' R.outputs f7).2 i
    (inputs[i]) (outputs[i]) ha hy
  rw [hx] at e1
  obtain ⟨input_, b1, _⟩ := forwardElem_inv L x _ x' y'' e1
  obtain ⟨k0, rest, w1, _, _, _, w5, w6⟩ := forwardBody_inv L _ _ _ b1
  have hk : k0 = kernel0 := by
    rw [w1] at hk0
    simpa using hk0
  subst hk
  rcases w6 with ⟨hwin, _⟩ | ⟨_, _, hgb⟩
  · rw [hgen] at hwin; cases hwin
  · have hK : ∀ w ∈ L.weights_, w.rows = k0.rows ∧ w.cols = k0.cols := by
      intro w hmem
      obtain ⟨a, b, _⟩ := (checkKernels_ok_iff L _ _ _ _).mp w5 w hmem
      exact ⟨a, b⟩
    obtain ⟨y', s1, s2, s3, s4, s5⟩ := genericBranch_spec L (paddedInput L x).1 _
      L.weights_.length k0.rows k0.cols y'' hbias hK hfr hfc
      (by have := Nat.pos_of_ne_zero f5; omega) (by have := Nat.pos_of_ne_zero f6; omega)
      (Nat.pos_of_ne_zero f5) (Nat.pos_of_ne_zero f6) hU hgb
    subst s1
    refine ⟨y', e3, s2, s3, s4, ?_⟩
    intro g k kernel hg hk hker r c hr hc
    rw [s5 g k kernel hg hk hker r c hr hc, paddedInput_channels]

/-- Witness of C1: a grouped convolution (two groups, 2x2 filters, padding 1)
on a 2x2x2 input; the centre cells are 14 and 1218. The 1x1 filter of value 2
on the all-ones 4x4 input gives 2 in every cell. -/
theorem C1_generic_witness :
    outputCell (Forward groupedLayer (fun _ => rampTensor 2 2 2) [some 0] [some (Tensor.create 2 3 3)])
        0 0 1 1 = some 14 ∧
      outputCell (Forward groupedLayer (fun _ => rampTensor 2 2 2) [some 0] [some (Tensor.create 2 3 3)])
        0 1 1 1 = some 1218 ∧
      outputCell (Forward twosLayer1x1 (fun _ => constTensor 1 4 4 1) [some 0] [some (Tensor.create 1 4 4)])
        0 0 3 3 = some 2 ∧
      ∃ y' : Tensor,
        (returnedOr (Forward groupedLayer (fun _ => rampTensor 2 2 2) [some 0] [some (Tensor.create 2 3 3)])
          ⟨InferStatus.kInferFailedInputEmpty, [], []⟩).outputs[0]? = some (some y') ∧
        y'.channels = groupedLayer.weights_.length ∧
        y'.rows = ((paddedInput groupedLayer (rampTensor 2 2 2)).1.rows -
          (rampTensor 1 2 2).rows) / groupedLayer.stride_h_ + 1 ∧
        y'.cols = ((paddedInput groupedLayer (rampTensor 2 2 2)).1.cols -
          (rampTensor 1 2 2).cols) / groupedLayer.stride_w_ + 1 ∧
        ∀ (g k : Nat) (kernel : Tensor), g < groupedLayer.groups_ →
          k < groupedLayer.weights_.length / groupedLayer.groups_ →
          groupedLayer.weights_[k + g * (groupedLayer.weights_.length / groupedLayer.groups_)]? =
            some kernel →
          ∀ r c, r < y'.rows → c < y'.cols →
            y'.get (k + g * (groupedLayer.weights_.length / groupedLayer.groups_)) r c =
              convolutionSum groupedLayer kernel (paddedInput groupedLayer (rampTensor 2 2 2)).1 g
                ((rampTensor 2 2 2).channels / groupedLayer.groups_) r c :=
  ⟨by decide, by decide, by decide,
    C1_generic_computes_grouped_convolution groupedLayer (fun _ => rampTensor 2 2 2) [some 0]
      [some (Tensor.create 2 3 3)]
      (returnedOr (Forward groupedLayer (fun _ => rampTensor 2 2 2) [some 0] [some (Tensor.create 2 3 3)])
        ⟨InferStatus.kInferFailedInputEmpty, [], []⟩)
      0 (rampTensor 2 2 2) (rampTensor 1 2 2) rfl rfl rfl rfl rfl rfl
      (by decide) (by decide) (by decide) (by decide) (by decide)⟩

/-- C2 (evaluation at the failing input). The operator with one all-ones 3x3
filter, stride 1, one group, no padding and no bias, on a batch that holds one
all-ones 4x4 tensor twice, with two 2x2 outputs. The first round pads the
caller's tensor in place to 8x8 (lines 69 and 97), so the second round
computes a 6x6 result and stops at the assignment of line 148: `Forward` does
not return. On two distinct tensors with the same contents the call returns
success and the cells are 9. -/
theorem C2_shared_input_stops_the_winograd_branch :
    statusOf (Forward onesLayer3x3 (fun _ => constTensor 1 4 4 1) [some 0, some 0]
        [some (Tensor.create 1 2 2), some (Tensor.create 1 2 2)]) = none ∧
      faultOf (Forward onesLayer3x3 (fun _ => constTensor 1 4 4 1) [some 0, some 0]
        [some (Tensor.create 1 2 2), some (Tensor.create 1 2 2)]) = some Fault.armaSize ∧
      statusOf (Forward onesLayer3x3 (fun _ => constTensor 1 4 4 1) [some 0, some 1]
        [some (Tensor.create 1 2 2), some (Tensor.create 1 2 2)]) =
        some InferStatus.kInferSuccess ∧
      outputCell (Forward onesLayer3x3 (fun _ => constTensor 1 4 4 1) [some 0, some 1]
        [some (Tensor.create 1 2 2), some (Tensor.create 1 2 2)]) 0 0 1 1 = some 9 ∧
      outputCell (Forward onesLayer3x3 (fun _ => constTensor 1 4 4 1) [some 0, some 1]
        [some (Tensor.create 1 2 2), some (Tensor.create 1 2 2)]) 1 0 1 1 = some 9 ∧
      inputShapes (Forward onesLayer3x3 (fun _ => constTensor 1 4 4 1) [some 0]
        [some (Tensor.create 1 2 2)]) = some [some (1, 8, 8)] := by
  decide

/-- C3 (evaluation at the failing input). One all-ones 3x3 filter with bias 1,
stride 1, one group, on the all-ones 4x4 input: the Winograd branch writes 9
into every output cell, the generic branch writes 10 for the same operator and
input, so the two branches differ as soon as a bias is used. -/
theorem C3_branches_differ_with_bias :
    cellOf (winogradOn biasLayer3x3 (constTensor 1 4 4 1) (some (Tensor.create 1 2 2))) 0 0 0 =
        some 9 ∧
      cellOf (genericOn biasLayer3x3 (constTensor 1 4 4 1) (some (Tensor.create 1 2 2))) 0 0 0 =
        some 10 ∧
      cellOf (winogradOn biasLayer3x3 (constTensor 1 4 4 1) (some (Tensor.create 1 2 2))) 0 1 1 =
        some 9 ∧
      cellOf (genericOn biasLayer3x3 (constTensor 1 4 4 1) (some (Tensor.create 1 2 2))) 0 1 1 =
        some 10 := by
  decide

/-! ### Bias, output size and inputs -/

/-- C4 (evaluation at the failing input). With one all-ones 3x3 filter, stride
1 and one group, `Forward` takes the Winograd branch; with `use_bias = true`
and bias 1 every output cell is 9, exactly what `use_bias = false` gives, and
not 9 + 1. -/
theorem C4_winograd_ignores_bias :
    statusOf (Forward biasLayer3x3 (fun _ => constTensor 1 4 4 1) [some 0] [some (Tensor.create 1 2 2)]) =
        some InferStatus.kInferSuccess ∧
      outputCell (Forward biasLayer3x3 (fun _ => constTensor 1 4 4 1) [some 0]
        [some (Tensor.create 1 2 2)]) 0 0 0 0 = some 9 ∧
      outputCell (Forward onesLayer3x3 (fun _ => constTensor 1 4 4 1) [some 0]
        [some (Tensor.create 1 2 2)]) 0 0 0 0 = some 9 ∧
      biasLayer3x3.bias_.map (fun b => b.index 0) = [1] := by
  decide

/-- C5 (evaluation at the failing input). The operator with one 3x3 filter,
stride 1 and no padding, on a 1x4x4 input: `output_h` and `output_w` are
`(4 - 3) / 1 + 1 = 2`. Called with an output tensor of 2 channels, `Forward`
takes the Winograd branch, which has no counterpart of the assertion of line
194: it returns success and the output still has shape `2 x 2 x 2`, not
`output_channels x output_h x output_w = 1 x 2 x 2`. The generic branch stops
at the assertion of line 194 on an output with one channel too many. -/
theorem C5_winograd_accepts_a_wrong_output_shape :
    onesLayer3x3.weights_.length = 1 ∧
      outputSize (paddedInput onesLayer3x3 (constTensor 1 4 4 1)).1.rows 3 1 = 2 ∧
      outputSize (paddedInput onesLayer3x3 (constTensor 1 4 4 1)).1.cols 3 1 = 2 ∧
      statusOf (Forward onesLayer3x3 (fun _ => constTensor 1 4 4 1) [some 0]
        [some (Tensor.create 2 2 2)]) = some InferStatus.kInferSuccess ∧
      outputShapes (Forward onesLayer3x3 (fun _ => constTensor 1 4 4 1) [some 0]
        [some (Tensor.create 2 2 2)]) = some [some (2, 2, 2)] ∧
      faultOf (Forward twosLayer1x1 (fun _ => constTensor 1 4 4 1) [some 0]
        [some (Tensor.create 2 4 4)]) = some (Fault.check 194) ∧
      outputShapes (Forward strideTwoLayer (fun _ => constTensor 1 4 4 1) [some 0]
        [some (Tensor.create 1 2 2)]) = some [some (1, 2, 2)] := by
  decide

/-- C6 (evaluation at the failing input). With no padding `input_` is the
caller's own tensor, and the Winograd branch pads it in place (line 97): after
`Forward` on a 1x4x4 input the caller's input tensor is 1x8x8. A second call
on the same tensors then no longer returns: the output size it computes is
6x6 and the caller's 2x2 output cannot take it. -/
theorem C6_forward_pads_the_callers_input :
    inputShapes (Forward onesLayer3x3 (fun _ => constTensor 1 4 4 1) [some 0]
        [some (Tensor.create 1 2 2)]) = some [some (1, 8, 8)] ∧
      statusOf (Forward onesLayer3x3
        (storeOf (returnedOr (Forward onesLayer3x3 (fun _ => constTensor 1 4 4 1) [some 0]
          [some (Tensor.create 1 2 2)]) ⟨InferStatus.kInferSuccess, [], []⟩).inputs)
        [some 0]
        (returnedOr (Forward onesLayer3x3 (fun _ => constTensor 1 4 4 1) [some 0]
          [some (Tensor.create 1 2 2)]) ⟨InferStatus.kInferSuccess, [], []⟩).outputs) = none := by
  decide

/-! ### The recoverable failures -/

/-- C7 (evaluation at the failing input). With one input and no output the
sizes differ, and `Forward` returns `kInferFailedInputEmpty`, the very status
of an empty input, and not the dedicated status
`kInferFailedInputOutSizeMatchError`. -/
theorem C7_size_mismatch_returns_input_empty :
    statusOf (Forward onesLayer3x3 (fun _ => constTensor 1 4 4 1) [some 0] []) =
        some InferStatus.kInferFailedInputEmpty ∧
      statusOf (Forward onesLayer3x3 (fun _ => constTensor 1 4 4 1) [] []) =
        some InferStatus.kInferFailedInputEmpty := by
  decide

/-- C8. An operator with at least one weight tensor and a consistent bias
sequence, called on a non-empty batch with as many outputs as inputs, returns
`kInferFailedStrideParameterError` when a stride component is zero. The call
returns (it does not stop with a fault) and leaves the caller's tensors as
they were. -/
theorem C8_zero_stride_returns_stride_error (L : ConvolutionLayer)
    (store : Nat → Tensor) (inputs : List (Option Nat)) (outputs : List (Option Tensor))
    (hw : L.weights_ ≠ [])
    (hb : L.use_bias_ = true → L.bias_.length = L.weights_.length)
    (hin : inputs ≠ []) (hlen : inputs.length = outputs.length)
    (hs : L.stride_h_ = 0 ∨ L.stride_w_ = 0) :
    Forward L store inputs outputs =
      .ok ⟨InferStatus.kInferFailedStrideParameterError, valuesOf store inputs, outputs⟩ := by
  have h1 : ¬ (inputs.isEmpty = true ∨ inputs.length ≠ outputs.length) := by
    simp [List.isEmpty_iff, hin, hlen]
  have h2 : ¬ (L.weights_.isEmpty = true) := by simp [List.isEmpty_iff, hw]
  have h3 : ¬ (L.use_bias_ = true ∧ L.bias_.length ≠ L.weights_.length) :=
    fun h => h.2 (hb h.1)
  simp only [Forward, if_neg h1, if_neg h2, if_neg h3, if_pos hs]

/-- Witness of C8 on an operator with a zero vertical stride. -/
theorem C8_zero_stride_witness :
    (zeroStrideLayer.stride_h_ = 0 ∨ zeroStrideLayer.stride_w_ = 0) ∧
      Forward zeroStrideLayer (fun _ => constTensor 1 4 4 1) [some 0]
          [some (Tensor.create 1 2 2)] =
        .ok ⟨InferStatus.kInferFailedStrideParameterError, [some (constTensor 1 4 4 1)],
          [some (Tensor.create 1 2 2)]⟩ :=
  ⟨Or.inl rfl,
    C8_zero_stride_returns_stride_error zeroStrideLayer (fun _ => constTensor 1 4 4 1) [some 0]
      [some (Tensor.create 1 2 2)] (by simp [zeroStrideLayer, onesLayer3x3])
      (by simp [zeroStrideLayer, onesLayer3x3]) (by simp) rfl (Or.inl rfl)⟩

/-- C9. On a non-empty batch with as many outputs as inputs, an operator
without weight tensors returns `kInferFailedWeightParameterError`; one that
has weights, uses a bias and holds a number of bias tensors different from
the number of weight tensors returns `kInferFailedBiasParameterError`. -/
theorem C9_weight_and_bias_errors (L : ConvolutionLayer)
    (store : Nat → Tensor) (inputs : List (Option Nat)) (outputs : List (Option Tensor))
    (hin : inputs ≠ []) (hlen : inputs.length = outputs.length) :
    (L.weights_ = [] →
        Forward L store inputs outputs =
          .ok ⟨InferStatus.kInferFailedWeightParameterError, valuesOf store inputs,
            outputs⟩) ∧
      (L.weights_ ≠ [] → L.use_bias_ = true → L.bias_.length ≠ L.weights_.length →
        Forward L store inputs outputs =
          .ok ⟨InferStatus.kInferFailedBiasParameterError, valuesOf store inputs,
            outputs⟩) := by
  have h1 : ¬ (inputs.isEmpty = true ∨ inputs.length ≠ outputs.length) := by
    simp [List.isEmpty_iff, hin, hlen]
  constructor
  · intro hw
    have h2 : L.weights_.isEmpty = true := by simp [hw]
    simp only [Forward, if_neg h1, if_pos h2]
  · intro hw hb hne
    have h2 : ¬ (L.weights_.isEmpty = true) := by simp [List.isEmpty_iff, hw]
    have h3 : L.use_bias_ = true ∧ L.bias_.length ≠ L.weights_.length := ⟨hb, hne⟩
    simp only [Forward, if_neg h1, if_neg h2, if_pos h3]

/-- Witness of C9: an operator without weights and an operator whose bias
sequence is missing. -/
theorem C9_weight_and_bias_witness :
    Forward noWeightLayer (fun _ => constTensor 1 4 4 1) [some 0] [some (Tensor.create 1 2 2)] =
        .ok ⟨InferStatus.kInferFailedWeightParameterError, [some (constTensor 1 4 4 1)],
          [some (Tensor.create 1 2 2)]⟩ ∧
      Forward missingBiasLayer (fun _ => constTensor 1 4 4 1) [some 0] [some (Tensor.create 1 2 2)] =
        .ok ⟨InferStatus.kInferFailedBiasParameterError, [some (constTensor 1 4 4 1)],
          [some (Tensor.create 1 2 2)]⟩ :=
  ⟨(C9_weight_and_bias_errors noWeightLayer (fun _ => constTensor 1 4 4 1) [some 0]
      [some (Tensor.create 1 2 2)] (by simp) rfl).1 rfl,
    (C9_weight_and_bias_errors missingBiasLayer (fun _ => constTensor 1 4 4 1) [some 0]
      [some (Tensor.create 1 2 2)] (by simp) rfl).2
      (by simp [missingBiasLayer, onesLayer3x3]) rfl
      (by simp [missingBiasLayer, onesLayer3x3])⟩

/-- C10. When `Forward` returns a status other than success, the caller's
`outputs` sequence and every tensor in it are what they were before the call
(and so are the inputs). -/
theorem C10_failure_leaves_outputs_untouched (L : ConvolutionLayer)
    (store : Nat → Tensor) (inputs : List (Option Nat)) (outputs : List (Option Tensor))
    (R : Returned) (h : Forward L store inputs outputs = .ok R)
    (hs : R.status ≠ InferStatus.kInferSuccess) :
    R.outputs = outputs ∧ R.inputs = valuesOf store inputs := by
  unfold Forward at h
  split_ifs at h
  · cases h; exact ⟨rfl, rfl⟩
  · cases h; exact ⟨rfl, rfl⟩
  · cases h; exact ⟨rfl, rfl⟩
  · cases h; exact ⟨rfl, rfl⟩
  · cases hb : forwardBatch L store inputs outputs with
    | error e => rw [hb] at h; cases h
    | ok p =>
      obtain ⟨store', outputs'⟩ := p
      rw [hb] at h
      cases h
      exact absurd rfl hs

/-- Witness of C10: the call with a zero stride returns a failure status and
the outputs are untouched. -/
theorem C10_failure_witness :
    Forward zeroStrideLayer (fun _ => constTensor 1 4 4 1) [some 0] [some (Tensor.create 1 2 2)] =
        .ok ⟨InferStatus.kInferFailedStrideParameterError, [some (constTensor 1 4 4 1)],
          [some (Tensor.create 1 2 2)]⟩ ∧
      (returnedOr
        (Forward zeroStrideLayer (fun _ => constTensor 1 4 4 1) [some 0] [some (Tensor.create 1 2 2)])
        ⟨InferStatus.kInferSuccess, [], []⟩).outputs = [some (Tensor.create 1 2 2)] :=
  ⟨rfl,
    (C10_failure_leaves_outputs_untouched zeroStrideLayer (fun _ => constTensor 1 4 4 1)
      [some 0] [some (Tensor.create 1 2 2)]
      (returnedOr
        (Forward zeroStrideLayer (fun _ => constTensor 1 4 4 1) [some 0] [some (Tensor.create 1 2 2)])
        ⟨InferStatus.kInferSuccess, [], []⟩)
      rfl (by decide)).1⟩


/-! ### Output size, empty inputs and parameters -/

/-- C11 (evaluation at the failing input). A 1x5 input is smaller than the 3x3
kernel. With stride 1 the 32-bit difference `1 - 3` is `2^32 - 2` and
`output_h` is `2^32 - 1`, so the assertion of line 82 passes: `Forward` runs
the Winograd branch and stops only at the sub-matrix view of line 148. With
the strides `2^32 - 1` and 4 the same input passes every check: `Forward`
returns success and has written the output cell. -/
theorem C11_small_input_passes_the_size_check :
    (paddedInput onesLayer3x3 (constTensor 1 1 5 1)).1.rows = 1 ∧
      onesLayer3x3.weights_.map (fun w => (w.rows, w.cols)) = [(3, 3)] ∧
      outputSize 1 3 1 = 4294967295 ∧
      faultOf (Forward onesLayer3x3 (fun _ => constTensor 1 1 5 1) [some 0] [some (Tensor.create 1 1 3)]) =
        some Fault.armaBounds ∧
      statusOf (Forward hugeStrideLayer (fun _ => rampTensor 1 1 5) [some 0] [some (Tensor.create 1 1 1)]) =
        some InferStatus.kInferSuccess ∧
      outputCell (Forward hugeStrideLayer (fun _ => rampTensor 1 1 5) [some 0] [some (Tensor.create 1 1 1)])
        0 0 0 0 = some 18 := by
  decide

/-- C12 (evaluation at the failing input). On an input tensor without
channels `Forward` stops at the assertion of line 93, and on one without rows
at the sub-matrix view of line 148 (3x3 filter) or at the assertion of line 82
(1x1 filter); it never returns the input-empty status. `UpSampleLayer::Forward`
returns that status on the same tensor. -/
theorem C12_empty_input_is_not_reported :
    (Tensor.create 0 4 4).empty = true ∧
      faultOf (Forward onesLayer3x3 (fun _ => Tensor.create 0 4 4) [some 0] [some (Tensor.create 1 2 2)]) =
        some (Fault.check 93) ∧
      (Tensor.create 1 0 4).empty = true ∧
      faultOf (Forward onesLayer3x3 (fun _ => Tensor.create 1 0 4) [some 0] [some (Tensor.create 1 2 2)]) =
        some Fault.armaBounds ∧
      faultOf (Forward twosLayer1x1 (fun _ => Tensor.create 1 0 4) [some 0] [some (Tensor.create 1 2 2)]) =
        some (Fault.check 82) ∧
      statusOf (UpSampleLayer.Forward UpSampleLayer.nearest2x2 [some (Tensor.create 0 4 4)]
        [some (Tensor.create 1 2 2)]) = some InferStatus.kInferFailedInputEmpty := by
  decide

/-- C13 (evaluation at the failing input). On a parameter map that has every
parameter but `groups`, the unguarded `params.at("groups")` of line 289 throws:
`GetInstance` does not return. When `groups` is present with another type the
status is `kParameterMissingGroups`, and each of the six guarded parameters,
when absent, gives its own status. -/
theorem C13_missing_groups_throws :
    faultOf (GetInstance keepLayer keepLayer (some ⟨paramsWithoutGroups, []⟩) none) =
        some Fault.mapAt ∧
      parseStatusOf (GetInstance keepLayer keepLayer (some ⟨paramsWithoutGroups, []⟩) none) =
        none ∧
      parseStatusOf (GetInstance keepLayer keepLayer
        (some ⟨paramsWithoutGroups ++
          [("groups", some (RuntimeParameter.RuntimeParameterBool true))], []⟩) none) =
        some ParseParameterAttrStatus.kParameterMissingGroups ∧
      (List.range 6).map (fun i => parseStatusOf (GetInstance keepLayer keepLayer
        (some ⟨paramsWithoutGroups.eraseIdx i, []⟩) none)) =
        [some ParseParameterAttrStatus.kParameterMissingInChannel,
          some ParseParameterAttrStatus.kParameterMissingOutChannel,
          some ParseParameterAttrStatus.kParameterMissingPadding,
          some ParseParameterAttrStatus.kParameterMissingUseBias,
          some ParseParameterAttrStatus.kParameterMissingStride,
          some ParseParameterAttrStatus.kParameterMissingKernel] := by
  decide

/-! ### The constructor and the dispatch -/

/-- C14. For `groups >= 1` the constructor returns an operator that holds
exactly `output_channel` weight tensors, each of shape
`(in_channel / groups) x kernel_h x kernel_w`; when `use_bias` is true it
holds exactly `output_channel` bias tensors (as many as weights, so aligned
with them index by index), each of shape `1 x 1 x 1`, and when `use_bias` is
false it holds no bias tensor. -/
theorem C14_constructor_postcondition (output_channel in_channel kernel_h kernel_w padding_h
    padding_w stride_h stride_w groups : Nat) (use_bias : Bool) (hg : 1 ≤ groups) :
    ∃ L : ConvolutionLayer,
      construct output_channel in_channel kernel_h kernel_w padding_h padding_w stride_h stride_w
        groups use_bias = .ok L ∧
      L.weights_.length = output_channel ∧
      (∀ w ∈ L.weights_, w.channels = in_channel / groups ∧ w.rows = kernel_h ∧
        w.cols = kernel_w) ∧
      (use_bias = true → L.bias_.length = output_channel ∧
        ∀ b ∈ L.bias_, b.channels = 1 ∧ b.rows = 1 ∧ b.cols = 1) ∧
      (use_bias = false → L.bias_ = []) ∧
      L.use_bias_ = use_bias ∧ L.groups_ = groups := by
  have key : ∀ c : Nat, c = in_channel / groups →
      ∃ L : ConvolutionLayer,
        (Except.ok (pushTensors
          { weights_ := [], bias_ := [], padding_h_ := padding_h, padding_w_ := padding_w,
            stride_h_ := stride_h, stride_w_ := stride_w, groups_ := groups,
            use_bias_ := use_bias }
          output_channel c kernel_h kernel_w) : Except Fault ConvolutionLayer) = .ok L ∧
        L.weights_.length = output_channel ∧
        (∀ w ∈ L.weights_, w.channels = in_channel / groups ∧ w.rows = kernel_h ∧
          w.cols = kernel_w) ∧
        (use_bias = true → L.bias_.length = output_channel ∧
          ∀ b ∈ L.bias_, b.channels = 1 ∧ b.rows = 1 ∧ b.cols = 1) ∧
        (use_bias = false → L.bias_ = []) ∧
        L.use_bias_ = use_bias ∧ L.groups_ = groups := by
    intro c hc
    obtain ⟨q1, q2, _, _, _, _, q7, q8⟩ := pushTensors_spec
      { weights_ := [], bias_ := [], padding_h_ := padding_h, padding_w_ := padding_w,
        stride_h_ := stride_h, stride_w_ := stride_w, groups_ := groups, use_bias_ := use_bias }
      output_channel c kernel_h kernel_w
    refine ⟨_, rfl, ?_, ?_, ?_, ?_, q8, q7⟩
    · rw [q1]; simp
    · intro w hw
      rw [q1] at hw
      simp only [List.nil_append] at hw
      rw [List.eq_of_mem_replicate hw]
      exact ⟨hc, rfl, rfl⟩
    · intro hb
      rw [q2]
      simp only [hb, if_true, List.nil_append]
      refine ⟨by simp, ?_⟩
      intro b hmem
      rw [List.eq_of_mem_replicate hmem]
      exact ⟨rfl, rfl, rfl⟩
    · intro hb
      rw [q2]
      simp [hb]
  unfold construct
  by_cases h1 : groups = 1
  · rw [if_neg (by simpa using h1)]
    exact key in_channel (by rw [h1, Nat.div_one])
  · rw [if_pos h1, if_neg (by omega)]
    exact key (in_channel / groups) rfl

/-- Witness of C14: four output channels over six input channels in two
groups, 3x3 filters, with bias. -/
theorem C14_constructor_witness :
    ∃ L : ConvolutionLayer,
      construct 4 6 3 3 0 0 1 1 2 true = .ok L ∧
      L.weights_.length = 4 ∧
      (∀ w ∈ L.weights_, w.channels = 6 / 2 ∧ w.rows = 3 ∧ w.cols = 3) ∧
      (true = true → L.bias_.length = 4 ∧ ∀ b ∈ L.bias_, b.channels = 1 ∧ b.rows = 1 ∧ b.cols = 1) ∧
      (true = false → L.bias_ = []) ∧
      L.use_bias_ = true ∧ L.groups_ = 2 :=
  C14_constructor_postcondition 4 6 3 3 0 0 1 1 2 true (by decide)

/-- C15. On a batch element that passes the checks of lines 82-94, the kernel
size being that of the first weight tensor, the test of line 96 holds if and
only if `stride_h = 1`, `stride_w = 1`, `kernel_h = 3`, `kernel_w = 3` and
`groups = 1`; when it holds the element is processed by the Winograd branch,
and in every other case by the generic branch. -/
theorem C15_dispatch (L : ConvolutionLayer) (input_ : Tensor) (output_tensor : Option Tensor)
    (kernel0 : Tensor) (rest : List Tensor) (hw : L.weights_ = kernel0 :: rest)
    (hsize : outputSize input_.rows kernel0.rows L.stride_h_ > 0 ∧
      outputSize input_.cols kernel0.cols L.stride_w_ > 0)
    (hgroups : checkGroups L L.weights_.length input_.channels = .ok ())
    (hkernels : checkKernels L kernel0.rows kernel0.cols input_.channels L.weights_ = .ok ()) :
    (useWinograd L kernel0.rows kernel0.cols = true ↔
        (L.stride_h_ = 1 ∧ L.stride_w_ = 1 ∧ kernel0.rows = 3 ∧ kernel0.cols = 3 ∧
          L.groups_ = 1)) ∧
      ((L.stride_h_ = 1 ∧ L.stride_w_ = 1 ∧ kernel0.rows = 3 ∧ kernel0.cols = 3 ∧
          L.groups_ = 1) →
        forwardBody L input_ output_tensor =
          winogradBranch L input_ output_tensor input_.rows input_.cols input_.channels
            kernel0.rows (outputSize input_.rows kernel0.rows L.stride_h_)
            (outputSize input_.cols kernel0.cols L.stride_w_)) ∧
      (¬ (L.stride_h_ = 1 ∧ L.stride_w_ = 1 ∧ kernel0.rows = 3 ∧ kernel0.cols = 3 ∧
          L.groups_ = 1) →
        forwardBody L input_ output_tensor =
          match genericBranch L input_ output_tensor input_.rows input_.cols input_.channels
              L.weights_.length kernel0.rows kernel0.cols
              (outputSize input_.rows kernel0.rows L.stride_h_)
              (outputSize input_.cols kernel0.cols L.stride_w_) with
          | .error e => .error e
          | .ok out => .ok (input_, out)) := by
  have hiff : useWinograd L kernel0.rows kernel0.cols = true ↔
      (L.stride_h_ = 1 ∧ L.stride_w_ = 1 ∧ kernel0.rows = 3 ∧ kernel0.cols = 3 ∧
        L.groups_ = 1) := by
    simp only [useWinograd, Bool.and_eq_true, beq_iff_eq]
    constructor
    · rintro ⟨⟨⟨⟨a, b⟩, c⟩, d⟩, e⟩
      exact ⟨a, b, d, c, e⟩
    · rintro ⟨a, b, d, c, e⟩
      exact ⟨⟨⟨⟨a, b⟩, c⟩, d⟩, e⟩
  have hbody : forwardBody L input_ output_tensor =
      if useWinograd L kernel0.rows kernel0.cols = true then
        winogradBranch L input_ output_tensor input_.rows input_.cols input_.channels
          kernel0.rows (outputSize input_.rows kernel0.rows L.stride_h_)
          (outputSize input_.cols kernel0.cols L.stride_w_)
      else
        match genericBranch L input_ output_tensor input_.rows input_.cols input_.channels
            L.weights_.length kernel0.rows kernel0.cols
            (outputSize input_.rows kernel0.rows L.stride_h_)
            (outputSize input_.cols kernel0.cols L.stride_w_) with
        | .error e => .error e
        | .ok out => .ok (input_, out) := by
    rw [hw] at hgroups hkernels
    unfold forwardBody
    simp only [hw]
    rw [if_neg (not_not.mpr hsize), hgroups]
    simp only [hkernels]
  refine ⟨hiff, ?_, ?_⟩
  · intro h
    rw [hbody, if_pos (hiff.mpr h)]
  · intro h
    rw [hbody, if_neg (fun hu => h (hiff.mp hu))]

/-- Witness of C15: the 3x3 filter with stride 1 takes the Winograd branch on
the 4x4 input, the 1x1 filter takes the generic branch. -/
theorem C15_dispatch_witness :
    (useWinograd onesLayer3x3 3 3 = true ↔
        ((1 : Nat) = 1 ∧ (1 : Nat) = 1 ∧ (3 : Nat) = 3 ∧ (3 : Nat) = 3 ∧ (1 : Nat) = 1)) ∧
      useWinograd twosLayer1x1 1 1 = false :=
  ⟨(C15_dispatch onesLayer3x3 (constTensor 1 4 4 1) (some (Tensor.create 1 2 2))
      (constTensor 1 3 3 1) [] rfl (by decide) rfl rfl).1,
    by decide⟩

/-! ### The generic branch: columns and bias -/

/-- C16 (evaluation at the failing input). For a 1x1 filter with stride 2 on a
5x5 input, `output_h * output_w` is 9 and the fill loops visit 9 windows, but
line 152 computes `col_len = (5 / 2) * (5 / 2) = 4`: the fifth window is
copied past the end of `input_matrix_c`. For a 2x3 filter with stride 1 on a
4x4 input, line 152 (which subtracts `kernel_w` from the height as well) gives
4 columns for 6 windows. -/
theorem C16_col_len_differs_from_output_size :
    colLen strideTwoLayer 5 5 1 = 4 ∧
      outputSize 5 1 2 * outputSize 5 1 2 = 9 ∧
      (steps (u32 (sub32 5 1 + 1)) 2).length * (steps (u32 (sub32 5 1 + 1)) 2).length = 9 ∧
      faultOf (Forward strideTwoLayer (fun _ => constTensor 1 5 5 1) [some 0] [some (Tensor.create 1 3 3)]) =
        some Fault.memory ∧
      colLen onesLayer2x3 4 4 3 = 4 ∧
      outputSize 4 2 1 * outputSize 4 3 1 = 6 ∧
      faultOf (Forward onesLayer2x3 (fun _ => constTensor 1 4 4 1) [some 0] [some (Tensor.create 1 3 2)]) =
        some Fault.memory := by
  decide

/-- C17 (evaluation at the failing input). With two groups of one filter each
and the biases 10 and 20, output channel 1 (group 1, `k = 0`) is computed from
weight tensor 1 but receives `bias_.at(0) = 10`: its centre cell is
`1218 + 10`, not `1218 + 20`. -/
theorem C17_bias_index_is_group_local :
    groupedBiasLayer.bias_.map (fun b => b.index 0) = [10, 20] ∧
      outputCell (Forward groupedLayer (fun _ => rampTensor 2 2 2) [some 0] [some (Tensor.create 2 3 3)])
        0 1 1 1 = some 1218 ∧
      outputCell (Forward groupedBiasLayer (fun _ => rampTensor 2 2 2) [some 0]
        [some (Tensor.create 2 3 3)]) 0 1 1 1 = some 1228 ∧
      outputCell (Forward groupedLayer (fun _ => rampTensor 2 2 2) [some 0] [some (Tensor.create 2 3 3)])
        0 0 1 1 = some 14 ∧
      outputCell (Forward groupedBiasLayer (fun _ => rampTensor 2 2 2) [some 0]
        [some (Tensor.create 2 3 3)]) 0 0 1 1 = some 24 := by
  decide

/-! ### The Winograd branch: alignment and the per-tile checks -/

/-- C18. In a configuration that takes the Winograd branch, on a padded input
of `input_h x input_w` cells with both sizes at least 3 and below `2^32 - 4`,
the alignment padding of line 97 makes both sizes multiples of 4 that are
strictly larger than the original ones; the accumulator size
`output_h_padding x output_w_padding` is at least `output_h x output_w`; and
the branch stops neither at the assertion of line 123 nor at the sub-matrix
view of line 148. -/
theorem C18_winograd_alignment (L : ConvolutionLayer) (input_ : Tensor)
    (output_tensor : Option Tensor) (kernel_h kernel_w : Nat)
    (hwin : useWinograd L kernel_h kernel_w = true)
    (h3r : 3 ≤ input_.rows) (h3c : 3 ≤ input_.cols)
    (hUr : input_.rows + 4 < U32) (hUc : input_.cols + 4 < U32) :
    ((alignedInput input_).rows % 4 = 0 ∧ (alignedInput input_).cols % 4 = 0) ∧
      (input_.rows < (alignedInput input_).rows ∧ input_.cols < (alignedInput input_).cols) ∧
      (outputSize input_.rows kernel_h L.stride_h_ ≤
          u32 (sub32 (u32 ((4 - input_.rows % 4) + input_.rows)) kernel_h + 1) ∧
        outputSize input_.cols kernel_w L.stride_w_ ≤
          u32 (sub32 (u32 ((4 - input_.cols % 4) + input_.cols)) kernel_h + 1)) ∧
      ∀ e, winogradBranch L input_ output_tensor input_.rows input_.cols input_.channels kernel_h
          (outputSize input_.rows kernel_h L.stride_h_)
          (outputSize input_.cols kernel_w L.stride_w_) = .error e →
        e ≠ Fault.check 123 ∧ e ≠ Fault.armaBounds := by
  simp only [useWinograd, Bool.and_eq_true, beq_iff_eq] at hwin
  obtain ⟨⟨⟨⟨s1, s2⟩, k2⟩, k1⟩, _⟩ := hwin
  subst k1 k2
  rw [s1, s2]
  have hU : U32 = 4294967296 := rfl
  have a1 : (alignedInput input_).rows = input_.rows + 0 + (4 - input_.rows % 4) := rfl
  have a2 : (alignedInput input_).cols = input_.cols + 0 + (4 - input_.cols % 4) := rfl
  have o1 : outputSize input_.rows 3 1 = input_.rows - 2 := by
    rw [outputSize_eq input_.rows 3 1 h3r (by omega) (by rw [Nat.div_one]; omega), Nat.div_one]
    omega
  have o2 : outputSize input_.cols 3 1 = input_.cols - 2 := by
    rw [outputSize_eq input_.cols 3 1 h3c (by omega) (by rw [Nat.div_one]; omega), Nat.div_one]
    omega
  have p1 : u32 (sub32 (u32 ((4 - input_.rows % 4) + input_.rows)) 3 + 1) =
      (4 - input_.rows % 4) + input_.rows - 2 := by
    have e1 : u32 ((4 - input_.rows % 4) + input_.rows) = (4 - input_.rows % 4) + input_.rows :=
      u32_of_lt (by omega)
    have e2 : sub32 ((4 - input_.rows % 4) + input_.rows) 3 =
        (4 - input_.rows % 4) + input_.rows - 3 := sub32_of_le (by omega) (by omega)
    have e3 : u32 ((4 - input_.rows % 4) + input_.rows - 3 + 1) =
        (4 - input_.rows % 4) + input_.rows - 3 + 1 := u32_of_lt (by omega)
    rw [e1, e2, e3]
    omega
  have p2 : u32 (sub32 (u32 ((4 - input_.cols % 4) + input_.cols)) 3 + 1) =
      (4 - input_.cols % 4) + input_.cols - 2 := by
    have e1 : u32 ((4 - input_.cols % 4) + input_.cols) = (4 - input_.cols % 4) + input_.cols :=
      u32_of_lt (by omega)
    have e2 : sub32 ((4 - input_.cols % 4) + input_.cols) 3 =
        (4 - input_.cols % 4) + input_.cols - 3 := sub32_of_le (by omega) (by omega)
    have e3 : u32 ((4 - input_.cols % 4) + input_.cols - 3 + 1) =
        (4 - input_.cols % 4) + input_.cols - 3 + 1 := u32_of_lt (by omega)
    rw [e1, e2, e3]
    omega
  have q1 : sub32 (input_.rows - 2) 1 = input_.rows - 2 - 1 := sub32_of_le (by omega) (by omega)
  have q2 : sub32 (input_.cols - 2) 1 = input_.cols - 2 - 1 := sub32_of_le (by omega) (by omega)
  refine ⟨⟨by rw [a1]; omega, by rw [a2]; omega⟩, ⟨by rw [a1]; omega, by rw [a2]; omega⟩,
    ⟨by rw [o1, p1]; omega, by rw [o2, p2]; omega⟩, ?_⟩
  intro e he
  unfold winogradBranch at he
  simp only at he
  cases output_tensor with
  | none =>
    cases he
    exact ⟨by decide, by decide⟩
  | some y =>
    simp only at he
    cases hl : loopM
        (winogradOutput L (input_.Padding 0 (4 - input_.rows % 4) 0 (4 - input_.cols % 4) 0)
          input_.channels (outputSize input_.rows 3 1) (outputSize input_.cols 3 1)
          (u32 (sub32 (u32 ((4 - input_.rows % 4) + input_.rows)) 3 + 1))
          (u32 (sub32 (u32 ((4 - input_.cols % 4) + input_.cols)) 3 + 1)))
        (List.range L.weights_.length) y with
    | ok out =>
      rw [hl] at he
      cases he
    | error e' =>
      rw [hl] at he
      cases he
      obtain ⟨oc, t, _, _, hf⟩ := loopM_range_fault _ (fun _ (_ : Tensor) => True)
        L.weights_.length y trivial (fun _ _ _ _ _ _ => trivial) e hl
      exact winogradOutput_aligned L _ _ _ _ _ _ t oc e
        (by
          show (input_.rows + 0 + (4 - input_.rows % 4)) % 4 = 0
          omega)
        (by
          show (input_.cols + 0 + (4 - input_.cols % 4)) % 4 = 0
          omega)
        (by rw [o1, p1, q1]; omega) (by rw [o2, p2, q2]; omega) hf

/-- Witness of C18: the 3x3 filter with stride 1 on a 5x6 input, which is
padded to 8x8. -/
theorem C18_winograd_alignment_witness :
    ((alignedInput (constTensor 1 5 6 1)).rows % 4 = 0 ∧
        (alignedInput (constTensor 1 5 6 1)).cols % 4 = 0) ∧
      ((constTensor 1 5 6 1).rows < (alignedInput (constTensor 1 5 6 1)).rows ∧
        (constTensor 1 5 6 1).cols < (alignedInput (constTensor 1 5 6 1)).cols) ∧
      (alignedInput (constTensor 1 5 6 1)).rows = 8 ∧
      (alignedInput (constTensor 1 5 6 1)).cols = 8 ∧
      outputShapes (Forward onesLayer3x3 (fun _ => constTensor 1 5 6 1) [some 0]
        [some (Tensor.create 1 3 4)]) = some [some (1, 3, 4)] :=
  ⟨(C18_winograd_alignment onesLayer3x3 (constTensor 1 5 6 1) (some (Tensor.create 1 3 4)) 3 3
      (by decide) (by decide) (by decide) (by decide) (by decide)).1,
    (C18_winograd_alignment onesLayer3x3 (constTensor 1 5 6 1) (some (Tensor.create 1 3 4)) 3 3
      (by decide) (by decide) (by decide) (by decide) (by decide)).2.1,
    by decide, by decide, by decide⟩

/-- C19. In a configuration that takes the Winograd branch, on a padded input
whose sizes are 32-bit values, every tile origin `(h_tile, w_tile)` that
passes the test of line 127 on the aligned input (`h_tile + 4 <= h_tiles` and
`w_tile + 4 <= w_tiles`) also passes the test of line 135
(`w_tile + 2 <= output_w_padding` and `h_tile + 2 <= output_h_padding`): the
tile is added to the accumulator, never skipped. This holds for every origin,
in particular for those the tile loops visit. -/
theorem C19_output_check_is_redundant (L : ConvolutionLayer) (input_ : Tensor)
    (kernel_h kernel_w : Nat) (hwin : useWinograd L kernel_h kernel_w = true)
    (hr : input_.rows < U32) (hc : input_.cols < U32) (h_tile w_tile : Nat)
    (hin : h_tile + 4 ≤ (alignedInput input_).rows ∧ w_tile + 4 ≤ (alignedInput input_).cols) :
    (w_tile + 2 ≤ u32 (sub32 (u32 ((4 - input_.cols % 4) + input_.cols)) kernel_h + 1) ∧
        h_tile + 2 ≤ u32 (sub32 (u32 ((4 - input_.rows % 4) + input_.rows)) kernel_h + 1)) ∧
      ∀ (kernel_channel_g output_channel : Mat) (ic : Nat),
        tileStep kernel_channel_g
            (Mat.mk (alignedInput input_).rows (alignedInput input_).cols
              ((alignedInput input_).mem ic))
            (u32 (sub32 (u32 ((4 - input_.rows % 4) + input_.rows)) kernel_h + 1))
            (u32 (sub32 (u32 ((4 - input_.cols % 4) + input_.cols)) kernel_h + 1))
            output_channel h_tile w_tile =
          addTile output_channel h_tile w_tile
            (Winograd kernel_channel_g
              (tileMat (Mat.mk (alignedInput input_).rows (alignedInput input_).cols
                ((alignedInput input_).mem ic)) h_tile w_tile)) := by
  simp only [useWinograd, Bool.and_eq_true, beq_iff_eq] at hwin
  obtain ⟨⟨⟨_, _⟩, k1⟩, _⟩ := hwin
  subst k1
  have a1 : (alignedInput input_).rows = input_.rows + 0 + (4 - input_.rows % 4) := rfl
  have a2 : (alignedInput input_).cols = input_.cols + 0 + (4 - input_.cols % 4) := rfl
  have key : ∀ n : Nat, n < U32 →
      u32 (sub32 (u32 ((4 - n % 4) + n)) 3 + 1) = n + 0 + (4 - n % 4) - 2 := by
    intro n hn
    simp only [u32, sub32, U32] at hn ⊢
    omega
  have hout : w_tile + 2 ≤ u32 (sub32 (u32 ((4 - input_.cols % 4) + input_.cols)) 3 + 1) ∧
      h_tile + 2 ≤ u32 (sub32 (u32 ((4 - input_.rows % 4) + input_.rows)) 3 + 1) := by
    rw [key _ hr, key _ hc]
    rw [a1, a2] at hin
    omega
  refine ⟨hout, ?_⟩
  intro kernel_channel_g output_channel ic
  unfold tileStep
  rw [if_pos hin, if_pos hout]

/-- Witness of C19 on the 5x6 input (aligned to 8x8): the tile at `(4, 4)`. -/
theorem C19_output_check_witness :
    (4 + 2 ≤ u32 (sub32 (u32 ((4 - (constTensor 1 5 6 1).cols % 4) +
          (constTensor 1 5 6 1).cols)) 3 + 1) ∧
        4 + 2 ≤ u32 (sub32 (u32 ((4 - (constTensor 1 5 6 1).rows % 4) +
          (constTensor 1 5 6 1).rows)) 3 + 1)) ∧
      4 ∈ steps (alignedInput (constTensor 1 5 6 1)).rows 2 ∧
      4 ∈ steps (alignedInput (constTensor 1 5 6 1)).cols 2 :=
  ⟨(C19_output_check_is_redundant onesLayer3x3 (constTensor 1 5 6 1) 3 3 (by decide)
      (by decide) (by decide) 4 4 (by decide)).1,
    by decide, by decide⟩

end ConvolutionLayer

namespace UpSampleLayer

/-! ## Properties of the upsample layer -/

/-- C20. `UpSampleLayer::Forward` returns `kInferFailedInputEmpty` when
`inputs` is empty; otherwise `kInferFailedInputOutSizeMatchError` when the
number of outputs differs from the number of inputs; otherwise
`kInferFailedInputEmpty` when some input is the null pointer or an empty
tensor. In each of these cases the call returns, and the caller's outputs
(and inputs) are what they were. -/
theorem C20_upsample_validation (L : UpSampleLayer) (inputs outputs : List (Option Tensor)) :
    (inputs = [] →
        Forward L inputs outputs =
          .ok ⟨InferStatus.kInferFailedInputEmpty, inputs, outputs⟩) ∧
      (inputs ≠ [] → inputs.length ≠ outputs.length →
        Forward L inputs outputs =
          .ok ⟨InferStatus.kInferFailedInputOutSizeMatchError, inputs, outputs⟩) ∧
      (inputs ≠ [] → inputs.length = outputs.length →
        (∃ x ∈ inputs, x = none ∨ ∃ t : Tensor, x = some t ∧ t.empty = true) →
        Forward L inputs outputs =
          .ok ⟨InferStatus.kInferFailedInputEmpty, inputs, outputs⟩) := by
  refine ⟨?_, ?_, ?_⟩
  · intro h
    have h1 : inputs.isEmpty = true := by simp [h]
    simp only [Forward, if_pos h1]
  · intro h hne
    have h1 : ¬ (inputs.isEmpty = true) := by simp [List.isEmpty_iff, h]
    simp only [Forward, if_neg h1, if_pos hne]
  · intro h heq hex
    have h1 : ¬ (inputs.isEmpty = true) := by simp [List.isEmpty_iff, h]
    have h2 : ¬ (inputs.length ≠ outputs.length) := not_not.mpr heq
    have h3 : inputs.any absentOrEmpty = true := by
      rw [List.any_eq_true]
      obtain ⟨x, hx, hcase⟩ := hex
      refine ⟨x, hx, ?_⟩
      rcases hcase with hn | ⟨t, ht, hte⟩
      · rw [hn]; rfl
      · rw [ht]; exact hte
    simp only [Forward, if_neg h1, if_neg h2, if_pos h3]

/-- Witness of C20: no input; one input and no output; a null input next to
a valid one. -/
theorem C20_upsample_validation_witness :
    Forward nearest2x2 [] [some (Tensor.create 1 4 4)] =
        .ok ⟨InferStatus.kInferFailedInputEmpty, [], [some (Tensor.create 1 4 4)]⟩ ∧
      Forward nearest2x2 [some (ConvolutionLayer.constTensor 1 2 2 1)] [] =
        .ok ⟨InferStatus.kInferFailedInputOutSizeMatchError,
          [some (ConvolutionLayer.constTensor 1 2 2 1)], []⟩ ∧
      Forward nearest2x2 [some (ConvolutionLayer.constTensor 1 2 2 1), none]
          [some (Tensor.create 1 4 5), none] =
        .ok ⟨InferStatus.kInferFailedInputEmpty,
          [some (ConvolutionLayer.constTensor 1 2 2 1), none],
          [some (Tensor.create 1 4 5), none]⟩ :=
  ⟨(C20_upsample_validation nearest2x2 [] [some (Tensor.create 1 4 4)]).1 rfl,
    (C20_upsample_validation nearest2x2 [some (ConvolutionLayer.constTensor 1 2 2 1)] []).2.1
      (by simp) (by simp),
    (C20_upsample_validation nearest2x2 [some (ConvolutionLayer.constTensor 1 2 2 1), none]
      [some (Tensor.create 1 4 5), none]).2.2 (by simp) rfl
      ⟨none, by simp, Or.inl rfl⟩⟩

/-- C21 (counterexample). With `scale_h_ = 2^31` and a 1x2x1 input the
upsampled height `2 * 2^31` is not a 32-bit value: for an absent output line
46 allocates a tensor of `uint32_t(2^32) = 0` rows and the assertion of line
51 stops the call. The operator is in nearest mode, both scales are at least
1, the batch and the input are not empty and the output is absent. -/
theorem C21_counterexample :
    hugeScaleLayer.mode_ = UpSampleMode.kModeNearest ∧
      1 ≤ hugeScaleLayer.scale_h_ ∧ 1 ≤ hugeScaleLayer.scale_w_ ∧
      (ConvolutionLayer.constTensor 1 2 1 1).empty = false ∧
      ConvolutionLayer.statusOf
        (Forward hugeScaleLayer [some (ConvolutionLayer.constTensor 1 2 1 1)] [none]) = none ∧
      ConvolutionLayer.faultOf
        (Forward hugeScaleLayer [some (ConvolutionLayer.constTensor 1 2 1 1)] [none]) =
        some (Fault.check 51) := by
  decide

/-- C21 (amended). For an operator in nearest mode with `scale_h_ >= 1` and
`scale_w_ >= 1`, a non-empty batch of non-empty inputs of shape `C x H x W`
with `H * scale_h_ < 2^32` and `W * scale_w_ < 2^32`, and outputs that are
each null, empty or pre-sized to `C x (H * scale_h_) x (W * scale_w_)`,
`Forward` returns success, the inputs are unchanged, and output `i` has shape
`C x (H * scale_h_) x (W * scale_w_)` with
`output(c, h, w) = input(c, h / scale_h_, w / scale_w_)` in every cell. -/
theorem C21_nearest_upsampling (L : UpSampleLayer) (inputs outputs : List (Option Tensor))
    (hmode : L.mode_ = UpSampleMode.kModeNearest)
    (hsh : 1 ≤ L.scale_h_) (hsw : 1 ≤ L.scale_w_)
    (hne : inputs ≠ []) (hlen : inputs.length = outputs.length)
    (hin : ∀ x ∈ inputs, ∃ t : Tensor, x = some t ∧ t.empty = false ∧
      t.rows * L.scale_h_ < U32 ∧ t.cols * L.scale_w_ < U32)
    (hout : ∀ (i : Nat) (t u : Tensor), inputs[i]? = some (some t) →
      outputs[i]? = some (some u) →
      u.empty = true ∨ (u.channels = t.channels ∧ u.rows = t.rows * L.scale_h_ ∧
        u.cols = t.cols * L.scale_w_)) :
    ∃ R : ConvolutionLayer.Returned, Forward L inputs outputs = .ok R ∧
      R.status = InferStatus.kInferSuccess ∧ R.inputs = inputs ∧
      ∀ (i : Nat) (t : Tensor), inputs[i]? = some (some t) →
        ∃ y' : Tensor, R.outputs[i]? = some (some y') ∧
          y'.channels = t.channels ∧ y'.rows = t.rows * L.scale_h_ ∧
          y'.cols = t.cols * L.scale_w_ ∧
          ∀ c h w, c < t.channels → h < y'.rows → w < y'.cols →
            y'.get c h w = t.get c (h / L.scale_h_) (w / L.scale_w_) := by
  have elem : ∀ (i : Nat) (t : Tensor) (y : Option Tensor), inputs[i]? = some (some t) →
      outputs[i]? = some y →
      ∃ y' : Tensor, upsampleElem L (some t) y = .ok (some y') ∧
        y'.channels = t.channels ∧ y'.rows = t.rows * L.scale_h_ ∧
        y'.cols = t.cols * L.scale_w_ ∧
        ∀ c h w, c < t.channels → h < y'.rows → w < y'.cols →
          y'.get c h w = t.get c (h / L.scale_h_) (w / L.scale_w_) := by
    intro i t y hx hy
    obtain ⟨t', e1, e2, e3, e4⟩ := hin (some t) (List.getElem?_mem hx)
    cases e1
    exact upsampleElem_ok L t y hsh hsw e2 e3 e4
      (fun u hu => hout i t u hx (by rw [hy, hu]))
  have h1 : ¬ (inputs.isEmpty = true) := by simp [List.isEmpty_iff, hne]
  have h2 : ¬ (inputs.length ≠ outputs.length) := not_not.mpr hlen
  have h3 : ¬ (inputs.any absentOrEmpty = true) := by
    rw [List.any_eq_true]
    rintro ⟨x, hx, hb⟩
    obtain ⟨t, e1, e2, _⟩ := hin x hx
    rw [e1] at hb
    simp only [absentOrEmpty] at hb
    rw [e2] at hb
    cases hb
  have h4 : ¬ (L.mode_ ≠ UpSampleMode.kModeNearest) := not_not.mpr hmode
  obtain ⟨outs, b1, b2⟩ := upsampleBatch_ok L inputs outputs hlen
    (by
      intro i x y hx hy
      obtain ⟨t, e1, _⟩ := hin x (List.getElem?_mem hx)
      rw [e1] at hx ⊢
      obtain ⟨y', r1, _⟩ := elem i t y hx hy
      exact ⟨some y', r1⟩)
  refine ⟨⟨InferStatus.kInferSuccess, inputs, outs⟩, ?_, rfl, rfl, ?_⟩
  · simp only [Forward, if_neg h1, if_neg h2, if_neg h3, if_neg h4, b1]
  · intro i t hx
    have hi : i < outputs.length := by
      rcases Nat.lt_or_ge i inputs.length with h | h
      · omega
      · rw [List.getElem?_eq_none h] at hx
        cases hx
    have hy : outputs[i]? = some (outputs[i]) := List.getElem?_eq_getElem hi
    obtain ⟨y', r1, r2, r3, r4, r5⟩ := elem i t _ hx hy
    obtain ⟨y'', s1, s2⟩ := b2 i (some t) _ hx hy
    rw [r1] at s1
    cases s1
    exact ⟨y', s2, r2, r3, r4, r5⟩

/-- Witness of C21: the 2x2 operator on a 1x2x2 input with an absent output;
the 4x4 output repeats every input cell in a 2x2 block. -/
theorem C21_nearest_upsampling_witness :
    (∃ R : ConvolutionLayer.Returned,
        Forward nearest2x2 [some (ConvolutionLayer.rampTensor 1 2 2)] [none] = .ok R ∧
        R.status = InferStatus.kInferSuccess ∧
        R.inputs = [some (ConvolutionLayer.rampTensor 1 2 2)] ∧
        ∀ (i : Nat) (t : Tensor),
          [some (ConvolutionLayer.rampTensor 1 2 2)][i]? = some (some t) →
          ∃ y' : Tensor, R.outputs[i]? = some (some y') ∧
            y'.channels = t.channels ∧ y'.rows = t.rows * nearest2x2.scale_h_ ∧
            y'.cols = t.cols * nearest2x2.scale_w_ ∧
            ∀ c h w, c < t.channels → h < y'.rows → w < y'.cols →
              y'.get c h w = t.get c (h / nearest2x2.scale_h_) (w / nearest2x2.scale_w_)) ∧
      ConvolutionLayer.outputShapes
        (Forward nearest2x2 [some (ConvolutionLayer.rampTensor 1 2 2)] [none]) =
        some [some (1, 4, 4)] ∧
      (List.range 4).map (fun h => ConvolutionLayer.outputCell
        (Forward nearest2x2 [some (ConvolutionLayer.rampTensor 1 2 2)] [none]) 0 0 h 3) =
        [some 2, some 2, some 3, some 3] :=
  ⟨C21_nearest_upsampling nearest2x2 [some (ConvolutionLayer.rampTensor 1 2 2)] [none] rfl
      (by decide) (by decide) (by simp) rfl
      (by
        intro x hx
        simp only [List.mem_singleton] at hx
        subst hx
        exact ⟨_, rfl, by decide, by decide, by decide⟩)
      (by
        intro i t u _ hy
        cases i with
        | zero => simp at hy
        | succ i => simp at hy),
    by decide, by decide⟩

end UpSampleLayer

end KuiperInfer
